import Mathlib

/-!
# BusTub storage core: LRU-K replacer, buffer pool manager, copy-on-write trie

A shallow embedding of `src/buffer/lru_k_replacer.cpp`,
`src/buffer/buffer_pool_manager.cpp` and `src/primer/trie.cpp`, followed by the
theorems that settle the specification's claims about them.

Conventions of the embedding.

* A member function that mutates its object becomes a function from the state
  before the call to an `Outcome`: a normal return (state after, returned
  value), a thrown exception (state at the throw), or undefined behaviour.
* `std::unordered_map` / `std::map` become association lists.  The list order
  stands for the (unspecified) iteration order; lookups never depend on it.
* `size_t` is 64 bits wide: arithmetic on it is taken modulo `2 ^ 64`.
* Declarations that live in headers outside `src/` (node and page classes,
  integer type aliases, constants) are modelled from the specification and
  marked so.
-/

namespace Bustub

/-! ## Outcomes of a call -/

/-- Result of calling a member function on a state of type `σ`. -/
inductive Outcome (σ α : Type) where
  /-- Normal return: state after the call and the returned value. -/
  | ret (s : σ) (a : α)
  /-- A C++ exception was thrown; `s` is the state at the throw. -/
  | throw (s : σ) (msg : String)
  /-- The call ran into undefined behaviour. -/
  | undefined
deriving DecidableEq, Repr

/-- State left behind by a call, when the call has defined behaviour. -/
def Outcome.state? {σ α : Type} : Outcome σ α → Option σ
  | .ret s _ => some s
  | .throw s _ => some s
  | .undefined => none

/-- Returned value of a call that returned normally. -/
def Outcome.value? {σ α : Type} : Outcome σ α → Option α
  | .ret _ a => some a
  | .throw _ _ => none
  | .undefined => none

/-! ## Association lists standing for `std::unordered_map` / `std::map` -/

section AssocMaps
variable {κ β : Type} [DecidableEq κ]

/-- Lookup, as in `m.find(k)` / `m.at(k)` / `m.count(k)`. -/
def mapFind : List (κ × β) → κ → Option β
  | [], _ => none
  | (k', v) :: rest, k => if k' = k then some v else mapFind rest k

/-- Removal of key `k`, as in `m.erase(k)`. -/
def mapErase : List (κ × β) → κ → List (κ × β)
  | [], _ => []
  | (k', v) :: rest, k => if k' = k then mapErase rest k else (k', v) :: mapErase rest k

/-- Insert-or-assign, as in `m[k] = v`. -/
def mapSet : List (κ × β) → κ → β → List (κ × β)
  | [], k, v => [(k, v)]
  | (k', v') :: rest, k, v =>
      if k' = k then (k, v) :: rest else (k', v') :: mapSet rest k v

end AssocMaps

/-! ## Machine integers -/

/-- Number of values of `size_t`. -/
def SIZE_T_MOD : Nat := 2 ^ 64

/-- The conversion `static_cast<size_t>(x)` of a signed integer. -/
def toSizeT (x : Int) : Nat := (x % (SIZE_T_MOD : Int)).toNat

/-- Post-increment / pre-increment of a `size_t` variable. -/
def sizeInc (n : Nat) : Nat := (n + 1) % SIZE_T_MOD

/-- Decrement of a `size_t` variable (wraps below zero). -/
def sizeDec (n : Nat) : Nat := (n + SIZE_T_MOD - 1) % SIZE_T_MOD

/-- Frame identifiers the callers can pass: `frame_id_t` is a signed integer
type (its alias is declared outside `src/`), here at most 64 bits wide. -/
def FrameIdRepr (f : Int) : Prop := -(2 ^ 63 : Int) ≤ f ∧ f < (2 ^ 63 : Int)

instance (f : Int) : Decidable (FrameIdRepr f) := by
  unfold FrameIdRepr; infer_instance

/-! ## LRU-K replacer (`src/buffer/lru_k_replacer.cpp`) -/

/-- Modelled from the spec: the class `LRUKNode` is declared in the missing
header `buffer/lru_k_replacer.h`.  A node holds the frame identifier, the
history of the last `k_` access timestamps (oldest at the front) and the
evictable flag, which is false for a new node. -/
structure LRUKNode where
  history_ : List Nat
  k_ : Nat
  fid_ : Int
  is_evictable_ : Bool
deriving DecidableEq, Repr

/-- Modelled from the spec: the constructor `LRUKNode(k, frame_id)` of the
missing header; a new node has an empty history and is not evictable. -/
def LRUKNode.new (k : Nat) (frame_id : Int) : LRUKNode :=
  { history_ := [], k_ := k, fid_ := frame_id, is_evictable_ := false }

/-- Modelled from the spec: `LRUKNode::PushTimestamp` of the missing header
appends the timestamp to the history and, if the history length then exceeds
`k`, drops the oldest entry. -/
def LRUKNode.PushTimestamp (n : LRUKNode) (ts : Nat) : LRUKNode :=
  let h := n.history_ ++ [ts]
  { n with history_ := if h.length > n.k_ then h.tail else h }

/-- State of an `LRUKReplacer`. -/
structure LRUKReplacer where
  node_store_ : List (Int × LRUKNode)
  current_timestamp_ : Nat
  curr_size_ : Nat
  replacer_size_ : Nat
  k_ : Nat
deriving DecidableEq, Repr

/-- `LRUKReplacer::LRUKReplacer(num_frames, k)`; the members not named in the
constructor take the header's initial value zero / empty. -/
def LRUKReplacer.new (num_frames k : Nat) : LRUKReplacer :=
  { node_store_ := [], current_timestamp_ := 0, curr_size_ := 0,
    replacer_size_ := num_frames, k_ := k }

/-- The constant `9223372036854775807L` of `Evict`. -/
def OLDEST_INIT : Nat := 9223372036854775807

/-- Local variables of the loop in `LRUKReplacer::Evict`. -/
structure EvictScan where
  less_than_k : Bool
  oldest : Nat
  id : Int
deriving DecidableEq, Repr

/-- Values of the locals before the loop. -/
def EvictScan.init : EvictScan :=
  { less_than_k := false, oldest := OLDEST_INIT, id := -1 }

/-- The two identical inner `if (history_.front() < oldest)` blocks.
`front()` of an empty `std::list` is undefined behaviour: `none`. -/
def evictCompare (st : EvictScan) (n : LRUKNode) : Option EvictScan :=
  match n.history_.head? with
  | none => none
  | some t => if t < st.oldest then some { st with oldest := t, id := n.fid_ } else some st

/-- One iteration of the loop body of `Evict` (lines 26-46). -/
def evictVisit (k : Nat) (st : EvictScan) (n : LRUKNode) : Option EvictScan :=
  if n.is_evictable_ = false then some st
  else if n.history_.length ≥ k then
    if st.less_than_k then some st else evictCompare st n
  else
    evictCompare
      (if st.less_than_k = false then { st with less_than_k := true, oldest := OLDEST_INIT }
       else st) n

/-- The loop `for (auto iter : node_store_)` of `Evict`, in list order. -/
def evictLoop (k : Nat) : EvictScan → List (Int × LRUKNode) → Option EvictScan
  | st, [] => some st
  | st, e :: rest =>
      match evictVisit k st e.2 with
      | none => none
      | some st' => evictLoop k st' rest

/-- `LRUKReplacer::Evict`: returns the victim (`some id`, the C++ `true` with
`*frame_id = id`) or `none` (the C++ `false`). -/
def LRUKReplacer.Evict (r : LRUKReplacer) : Outcome LRUKReplacer (Option Int) :=
  match evictLoop r.k_ EvictScan.init r.node_store_ with
  | none => .undefined
  | some st =>
      if st.id = -1 then .ret r none
      else .ret { r with node_store_ := mapErase r.node_store_ st.id,
                         curr_size_ := sizeDec r.curr_size_ } (some st.id)

/-- `LRUKReplacer::RecordAccess`.  A node inserted into the unordered map is
put at the head of the iteration order. -/
def LRUKReplacer.RecordAccess (r : LRUKReplacer) (frame_id : Int) : Outcome LRUKReplacer Unit :=
  if toSizeT frame_id ≥ r.replacer_size_ then .throw r "frame_id invalid"
  else
    let ts := sizeInc r.current_timestamp_
    match mapFind r.node_store_ frame_id with
    | none =>
        .ret { r with current_timestamp_ := ts,
                      node_store_ := (frame_id, (LRUKNode.new r.k_ frame_id).PushTimestamp ts)
                                       :: r.node_store_ } ()
    | some n =>
        .ret { r with current_timestamp_ := ts,
                      node_store_ := mapSet r.node_store_ frame_id (n.PushTimestamp ts) } ()

/-- `LRUKReplacer::SetEvictable`. -/
def LRUKReplacer.SetEvictable (r : LRUKReplacer) (frame_id : Int) (set_evictable : Bool) :
    Outcome LRUKReplacer Unit :=
  if toSizeT frame_id ≥ r.replacer_size_ then .throw r "frame_id invalid222"
  else
    match mapFind r.node_store_ frame_id with
    | none => .throw r "frame_id invalid222"
    | some n =>
        if n.is_evictable_ = set_evictable then .ret r ()
        else
          .ret { r with curr_size_ := if set_evictable then sizeInc r.curr_size_
                                      else sizeDec r.curr_size_,
                        node_store_ := mapSet r.node_store_ frame_id
                                         { n with is_evictable_ := set_evictable } } ()

/-- `LRUKReplacer::Remove`.  In the non-evictable branch the exception is
thrown before `curr_size_` or the node store is touched. -/
def LRUKReplacer.Remove (r : LRUKReplacer) (frame_id : Int) : Outcome LRUKReplacer Unit :=
  if toSizeT frame_id ≥ r.replacer_size_ then .throw r "frame_id invalid333"
  else
    match mapFind r.node_store_ frame_id with
    | none => .ret r ()
    | some n =>
        if n.is_evictable_ then
          .ret { r with curr_size_ := sizeDec r.curr_size_,
                        node_store_ := mapErase r.node_store_ frame_id } ()
        else .throw r "frame_id invalid444"

/-- `LRUKReplacer::Size`. -/
abbrev LRUKReplacer.Size (r : LRUKReplacer) : Nat := r.curr_size_

/-- A call of one of the replacer's public mutating operations. -/
inductive ReplacerOp where
  | recordAccess (frame_id : Int)
  | setEvictable (frame_id : Int) (set_evictable : Bool)
  | evict
  | remove (frame_id : Int)
deriving DecidableEq, Repr

/-- The frame identifier passed by the call is a value of `frame_id_t`. -/
def ReplacerOp.Representable : ReplacerOp → Prop
  | .recordAccess f => FrameIdRepr f
  | .setEvictable f _ => FrameIdRepr f
  | .evict => True
  | .remove f => FrameIdRepr f

/-- State after one call (also when the call threw); `none` on undefined
behaviour. -/
def LRUKReplacer.step (r : LRUKReplacer) : ReplacerOp → Option LRUKReplacer
  | .recordAccess f => (r.RecordAccess f).state?
  | .setEvictable f b => (r.SetEvictable f b).state?
  | .evict => r.Evict.state?
  | .remove f => (r.Remove f).state?

/-- State after a sequence of calls. -/
def LRUKReplacer.run : LRUKReplacer → List ReplacerOp → Option LRUKReplacer
  | r, [] => some r
  | r, op :: ops =>
      match r.step op with
      | none => none
      | some r' => r'.run ops

/-! ## Copy-on-write trie (`src/primer/trie.cpp`) -/

/-- The payload types for which `Put` and `Get` are instantiated at the end of
`trie.cpp`. -/
inductive PayloadType where
  | uint32
  | uint64
  | string
  | integer
  | moveBlocked
deriving DecidableEq, Repr

/-- A stored value together with its dynamic payload type: `uint32_t`,
`uint64_t`, `std::string`, `Integer` (a `std::unique_ptr<uint32_t>`, given by
the integer it points to) and `MoveBlocked` (given by an identifying number). -/
inductive Value where
  | uint32 (v : Nat)
  | uint64 (v : Nat)
  | string (v : String)
  | integer (v : Nat)
  | moveBlocked (v : Nat)
deriving DecidableEq, Repr

/-- The payload type `T` of the `TrieNodeWithValue<T>` holding the value. -/
def Value.type : Value → PayloadType
  | .uint32 _ => .uint32
  | .uint64 _ => .uint64
  | .string _ => .string
  | .integer _ => .integer
  | .moveBlocked _ => .moveBlocked

/-- Modelled from the spec: the classes `TrieNode` and `TrieNodeWithValue<T>`
are declared in the missing header `primer/trie.h`.  A node is its children map
and an optional stored value: `value_ = none` is a plain `TrieNode`,
`value_ = some v` is a `TrieNodeWithValue<T>` with `T = v.type`. -/
inductive TrieNode where
  | mk (children_ : List (Char × TrieNode)) (value_ : Option Value)

/-- The member `children_`. -/
def TrieNode.children_ : TrieNode → List (Char × TrieNode)
  | .mk c _ => c

/-- The stored value of a `TrieNodeWithValue`, `none` for a plain node. -/
def TrieNode.value_ : TrieNode → Option Value
  | .mk _ v => v

/-- The member `is_value_node_`: true exactly for `TrieNodeWithValue`. -/
def TrieNode.is_value_node_ (n : TrieNode) : Bool := n.value_.isSome

/-- Modelled from the spec: `Clone` (missing header) is a shallow copy that
keeps the children map and, for a value node, the value. -/
def TrieNode.Clone (n : TrieNode) : TrieNode := .mk n.children_ n.value_

/-- The handle `Trie`: `root_ = none` is the null root of the empty trie. -/
structure Trie where
  root_ : Option TrieNode

/-- The empty trie `Trie()` / `return {}`. -/
def Trie.empty : Trie := { root_ := none }

/-- The loop of `Trie::Get` (lines 16-21): follow `key` from node `n`. -/
def trieWalk : TrieNode → List Char → Option TrieNode
  | n, [] => some n
  | n, c :: rest =>
      match mapFind n.children_ c with
      | none => none
      | some child => trieWalk child rest

/-- `Trie::Get<T>(key)`: the stored value, or `none` for `nullptr`.  The key is
the list of the characters of the `std::string_view`. -/
def Trie.Get (t : Trie) (T : PayloadType) (key : List Char) : Option Value :=
  match t.root_ with
  | none => none
  | some root =>
      match trieWalk root key with
      | none => none
      | some n =>
          match n.value_ with
          | none => none
          | some v => if v.type = T then some v else none

/-- Lines 61-66 of `Trie::Put`: install the value node under the last
character `c` of the key, keeping the children of a node already there. -/
def putLast (n : TrieNode) (c : Char) (val : Value) : TrieNode :=
  match mapFind n.children_ c with
  | none => .mk (mapSet n.children_ c (.mk [] (some val))) n.value_
  | some old => .mk (mapSet n.children_ c (.mk old.children_ (some val))) n.value_

/-- Second loop of `Trie::Put` (lines 57-60) followed by lines 61-66: `ptr` is
`n`, the remaining key is the argument; every further node is created. -/
def putCreate (val : Value) : TrieNode → List Char → TrieNode
  | n, [] => n
  | n, [c] => putLast n c val
  | n, c :: c' :: rest =>
      .mk (mapSet n.children_ c (putCreate val (.mk [] none) (c' :: rest))) n.value_

/-- First loop of `Trie::Put` (lines 50-56), handing over to the second loop at
the `break`: `ptr` is the already cloned node `n`. -/
def putClone (val : Value) : TrieNode → List Char → TrieNode
  | n, [] => n
  | n, [c] => putLast n c val
  | n, c :: c' :: rest =>
      match mapFind n.children_ c with
      | none => putCreate val n (c :: c' :: rest)
      | some child =>
          .mk (mapSet n.children_ c (putClone val child.Clone (c' :: rest))) n.value_

/-- `Trie::Put<T>(key, value)`. -/
def Trie.Put (t : Trie) (key : List Char) (val : Value) : Trie :=
  let root : TrieNode :=
    match t.root_ with
    | none => .mk [] none
    | some r => r.Clone
  match key with
  | [] => { root_ := some (.mk root.children_ (some val)) }
  | c :: rest => { root_ := some (putClone val root (c :: rest)) }

/-- What the walk of `Trie::Remove` below a path node comes to. -/
inductive RemoveWalk where
  /-- One of the two `return {}` statements was executed. -/
  | returnEmpty
  /-- A null child pointer was dereferenced (line 99). -/
  | nullDeref
  /-- The path node after the update; `pruning` tells whether the loop of lines
  106-112 is still running when it comes to this node. -/
  | done (n : TrieNode) (pruning : Bool)

/-- Lines 99-103 of `Trie::Remove` at the parent `n` (`ptr`) of the terminal
node, `c = key.back()`.  `children_[c]` on a map without the key `c` inserts a
null pointer, which `->is_value_node_` then dereferences. -/
def removeLast (n : TrieNode) (c : Char) : RemoveWalk :=
  if n.children_.isEmpty then .returnEmpty
  else
    match mapFind n.children_ c with
    | none => .nullDeref
    | some term =>
        if term.is_value_node_ = false then .returnEmpty
        else .done (.mk (mapSet n.children_ c (.mk term.children_ none)) n.value_) true

/-- Lines 90-112 of `Trie::Remove` from the cloned path node `n` (an entry
`vec[i]`) and the rest of the key from `key[i]` on: the walk down (90-98), the
terminal update (99-103), and on the way back the iteration of the loop of
lines 106-112 that looks at the child `vec[i+1]` and erases it from `vec[i]`. -/
def removeWalk : TrieNode → List Char → RemoveWalk
  | n, [] => .done n false
  | n, [c] => removeLast n c
  | n, c :: c' :: rest =>
      match mapFind n.children_ c with
      | none => .returnEmpty
      | some child =>
          match removeWalk child.Clone (c' :: rest) with
          | .returnEmpty => .returnEmpty
          | .nullDeref => .nullDeref
          | .done child' pruning =>
              if pruning && child'.children_.isEmpty && !child'.is_value_node_ then
                .done (.mk (mapErase n.children_ c) n.value_) true
              else
                .done (.mk (mapSet n.children_ c child') n.value_) false

/-- `Trie::Remove(key)`: the returned trie, or `none` when the call runs into
undefined behaviour (the null dereference of line 99). -/
def Trie.Remove (t : Trie) (key : List Char) : Option Trie :=
  let root : TrieNode :=
    match t.root_ with
    | none => .mk [] none
    | some r => r.Clone
  match key with
  | [] => some { root_ := some (.mk root.children_ none) }
  | c :: rest =>
      match removeWalk root (c :: rest) with
      | .returnEmpty => some Trie.empty
      | .nullDeref => none
      | .done root' _ => some { root_ := some root' }

/-! ## The trie in memory (`src/primer/trie.cpp` at the level of pointers)

The definitions above give the value of `Put` and `Remove`.  The ones below
follow the same lines of code at the level of the `shared_ptr`s: nodes live in a
memory, `make_shared` and `Clone` allocate a new node, and an assignment to
`ptr->children_[c]` or `children_.erase(c)` writes the node that `ptr` points
to. -/

/-- Modelled from the spec: a `TrieNode` / `TrieNodeWithValue<T>` in memory
(missing header `primer/trie.h`): its children map holds the addresses of the
children. -/
structure HeapNode where
  children_ : List (Char × Nat)
  value_ : Option Value
deriving DecidableEq, Repr

/-- The memory: the node at address `a` is the entry `a` of the list; a new node
is put at the end. -/
abbrev TrieHeap := List HeapNode

/-- Lines 61-66 of `Trie::Put` at the node `ptr`: the new value node is
allocated, then stored in `ptr->children_[c]`.  The result is `none` when a
pointer does not point into the memory. -/
def heapPutLast (h : TrieHeap) (ptr : Nat) (c : Char) (val : Value) : Option TrieHeap :=
  match h[ptr]? with
  | none => none
  | some n =>
      match mapFind n.children_ c with
      | none =>
          some ((h ++ [({ children_ := [], value_ := some val } : HeapNode)]).set ptr
            { n with children_ := mapSet n.children_ c h.length })
      | some old =>
          match h[old]? with
          | none => none
          | some oldNode =>
              some ((h ++ [({ children_ := oldNode.children_, value_ := some val } : HeapNode)]).set ptr
                { n with children_ := mapSet n.children_ c h.length })

/-- Second loop of `Trie::Put` (lines 57-60) and lines 61-66, from the node
`ptr` and the rest of the key. -/
def heapPutCreate (val : Value) : TrieHeap → Nat → List Char → Option TrieHeap
  | h, _, [] => some h
  | h, ptr, [c] => heapPutLast h ptr c val
  | h, ptr, c :: c' :: rest =>
      match h[ptr]? with
      | none => none
      | some n =>
          heapPutCreate val
            ((h ++ [({ children_ := [], value_ := none } : HeapNode)]).set ptr
              { n with children_ := mapSet n.children_ c h.length })
            h.length (c' :: rest)

/-- First loop of `Trie::Put` (lines 50-56), handing over to the second loop at
the `break`: the child is cloned, the clone is stored in `ptr->children_[c]`,
and `ptr` moves to the clone. -/
def heapPutClone (val : Value) : TrieHeap → Nat → List Char → Option TrieHeap
  | h, _, [] => some h
  | h, ptr, [c] => heapPutLast h ptr c val
  | h, ptr, c :: c' :: rest =>
      match h[ptr]? with
      | none => none
      | some n =>
          match mapFind n.children_ c with
          | none => heapPutCreate val h ptr (c :: c' :: rest)
          | some child =>
              match h[child]? with
              | none => none
              | some childNode =>
                  heapPutClone val
                    ((h ++ [childNode]).set ptr
                      { n with children_ := mapSet n.children_ c h.length })
                    h.length (c' :: rest)

/-- `Trie::Put<T>(key, value)` on the trie with root pointer `root_` in the
memory `h`: the memory afterwards and the root of the returned trie. -/
def heapPut (h : TrieHeap) (root_ : Option Nat) (key : List Char) (val : Value) :
    Option (TrieHeap × Nat) :=
  let rootNode : Option HeapNode :=
    match root_ with
    | none => some { children_ := [], value_ := none }
    | some r => h[r]?
  match rootNode with
  | none => none
  | some rn =>
      match key with
      | [] => some (h ++ [rn] ++ [({ children_ := rn.children_, value_ := some val } : HeapNode)], h.length + 1)
      | c :: rest =>
          match heapPutClone val (h ++ [rn]) h.length (c :: rest) with
          | none => none
          | some h' => some (h', h.length)

/-- The loop of `Trie::Get` (lines 16-21) from the node at address `a`. -/
def heapWalk : TrieHeap → Nat → List Char → Option HeapNode
  | h, a, [] => h[a]?
  | h, a, c :: rest =>
      match h[a]? with
      | none => none
      | some n =>
          match mapFind n.children_ c with
          | none => none
          | some b => heapWalk h b rest

/-- `Trie::Get<T>(key)` on the trie with root pointer `root_` in the memory
`h`. -/
def heapGet (h : TrieHeap) (root_ : Option Nat) (T : PayloadType) (key : List Char) :
    Option Value :=
  match root_ with
  | none => none
  | some r =>
      match heapWalk h r key with
      | none => none
      | some n =>
          match n.value_ with
          | none => none
          | some v => if v.type = T then some v else none

/-- What the walk of `Trie::Remove` below a path node comes to, with the memory
at that point. -/
inductive HeapRemoveWalk where
  /-- One of the two `return {}` statements was executed. -/
  | returnEmpty (h : TrieHeap)
  /-- A null child pointer was dereferenced (line 99). -/
  | nullDeref (h : TrieHeap)
  /-- The walk is done; `pruning` tells whether the loop of lines 106-112 is
  still running when it comes to this node. -/
  | done (h : TrieHeap) (pruning : Bool)

/-- Lines 99-103 of `Trie::Remove` at the node `ptr`, the parent of the terminal
node.  The null pointer that `children_[key.back()]` inserts into the node
`ptr` before it is dereferenced is not represented. -/
def heapRemoveLast (h : TrieHeap) (ptr : Nat) (c : Char) : Option HeapRemoveWalk :=
  match h[ptr]? with
  | none => none
  | some n =>
      if n.children_.isEmpty then some (.returnEmpty h)
      else
        match mapFind n.children_ c with
        | none => some (.nullDeref h)
        | some term =>
            match h[term]? with
            | none => none
            | some termNode =>
                if termNode.value_.isSome = false then some (.returnEmpty h)
                else
                  some (.done
                    ((h ++ [({ children_ := termNode.children_, value_ := none } : HeapNode)]).set ptr
                      { n with children_ := mapSet n.children_ c h.length })
                    true)

/-- Lines 90-112 of `Trie::Remove` from the path node `ptr` (an entry `vec[i]`)
and the rest of the key: the walk down, which clones the child and stores the
clone in `ptr->children_[c]`, the terminal update, and on the way back the
iteration of the loop of lines 106-112 that looks at the clone `vec[i+1]` and
erases it from `vec[i]`. -/
def heapRemoveWalk : TrieHeap → Nat → List Char → Option HeapRemoveWalk
  | h, _, [] => some (.done h false)
  | h, ptr, [c] => heapRemoveLast h ptr c
  | h, ptr, c :: c' :: rest =>
      match h[ptr]? with
      | none => none
      | some n =>
          match mapFind n.children_ c with
          | none => some (.returnEmpty h)
          | some child =>
              match h[child]? with
              | none => none
              | some childNode =>
                  match heapRemoveWalk
                      ((h ++ [childNode]).set ptr
                        { n with children_ := mapSet n.children_ c h.length })
                      h.length (c' :: rest) with
                  | none => none
                  | some (.returnEmpty h') => some (.returnEmpty h')
                  | some (.nullDeref h') => some (.nullDeref h')
                  | some (.done h' pruning) =>
                      match h'[h.length]?, h'[ptr]? with
                      | some clone, some n' =>
                          if pruning && clone.children_.isEmpty && !clone.value_.isSome then
                            some (.done
                              (h'.set ptr { n' with children_ := mapErase n'.children_ c }) true)
                          else some (.done h' false)
                      | _, _ => none

/-- Result of `Trie::Remove`: the memory afterwards with the root pointer of
the returned trie, or the memory at the null dereference of line 99. -/
inductive HeapRemoved where
  | trie (h : TrieHeap) (root_ : Option Nat)
  | nullDeref (h : TrieHeap)

/-- The memory at the end of the call. -/
def HeapRemoved.heap : HeapRemoved → TrieHeap
  | .trie h _ => h
  | .nullDeref h => h

/-- The root pointer of the returned trie (null also when nothing is
returned). -/
def HeapRemoved.root : HeapRemoved → Option Nat
  | .trie _ r => r
  | .nullDeref _ => none

/-- `Trie::Remove(key)` on the trie with root pointer `root_` in the memory
`h`. -/
def heapRemove (h : TrieHeap) (root_ : Option Nat) (key : List Char) : Option HeapRemoved :=
  let rootNode : Option HeapNode :=
    match root_ with
    | none => some { children_ := [], value_ := none }
    | some r => h[r]?
  match rootNode with
  | none => none
  | some rn =>
      match key with
      | [] =>
          some (.trie (h ++ [rn] ++ [({ children_ := rn.children_, value_ := none } : HeapNode)])
            (some (h.length + 1)))
      | c :: rest =>
          match heapRemoveWalk (h ++ [rn]) h.length (c :: rest) with
          | none => none
          | some (.returnEmpty h') => some (.trie h' none)
          | some (.nullDeref h') => some (.nullDeref h')
          | some (.done h' _) => some (.trie h' (some h.length))

/-! ## Buffer pool manager (`src/buffer/buffer_pool_manager.cpp`) -/

/-- Modelled from the spec: the distinguished invalid page identifier
`INVALID_PAGE_ID` (declared in the missing `common/config.h`). -/
def INVALID_PAGE_ID : Int := -1

/-- Modelled from the spec: the class `Page` (missing `storage/page/page.h`):
a fixed-size byte buffer, the page identifier, the pin count (a non-negative
integer) and the dirty flag.  The latch is left out. -/
structure Page where
  data_ : List Nat
  page_id_ : Int
  pin_count_ : Nat
  is_dirty_ : Bool
deriving DecidableEq, Repr

/-- A zeroed buffer of `page_size` bytes, as left by `Page::ResetMemory`. -/
def zeroData (page_size : Nat) : List Nat := List.replicate page_size 0

/-- Modelled from the spec: a frame as constructed by `new Page[pool_size_]`:
zeroed, holding no page, unpinned and clean. -/
def Page.new (page_size : Nat) : Page :=
  { data_ := zeroData page_size, page_id_ := INVALID_PAGE_ID, pin_count_ := 0,
    is_dirty_ := false }

/-- State of a `BufferPoolManager` together with the disk behind its disk
manager (`disk_`, a map from page identifier to page bytes).  `page_size_` is
the compile-time page size.  Page identifiers and frame identifiers are
integers; a `Page *` is represented by the index of the frame. -/
structure BufferPoolManager where
  pool_size_ : Nat
  page_size_ : Nat
  pages_ : Int → Page
  page_table_ : List (Int × Int)
  free_list_ : List Int
  replacer_ : LRUKReplacer
  next_page_id_ : Int
  disk_ : Int → List Nat

/-- `BufferPoolManager::BufferPoolManager(pool_size, disk_manager, replacer_k)`
over a disk with contents `disk`; `next_page_id_` starts at zero. -/
def BufferPoolManager.new (pool_size replacer_k page_size : Nat) (disk : Int → List Nat) :
    BufferPoolManager :=
  { pool_size_ := pool_size, page_size_ := page_size,
    pages_ := fun _ => Page.new page_size,
    page_table_ := [],
    free_list_ := (List.range pool_size).map Int.ofNat,
    replacer_ := LRUKReplacer.new pool_size replacer_k,
    next_page_id_ := 0,
    disk_ := disk }

/-- Assignment to the frame `pages_[fid]`. -/
def BufferPoolManager.setPage (b : BufferPoolManager) (fid : Int) (pg : Page) :
    BufferPoolManager :=
  { b with pages_ := fun g => if g = fid then pg else b.pages_ g }

/-- `DiskManager::WritePage(page_id, data)` on the disk map. -/
def diskWrite (disk : Int → List Nat) (page_id : Int) (data : List Nat) : Int → List Nat :=
  fun q => if q = page_id then data else disk q

/-- Lines 41-47 of `NewPage` and 81-87 of `FetchPage`: the value is the local
`fid`, which stays `-1` when the free list is empty and `Evict` fails. -/
def BufferPoolManager.acquireFrame (b : BufferPoolManager) : Outcome BufferPoolManager Int :=
  match b.free_list_ with
  | fid :: rest => .ret { b with free_list_ := rest } fid
  | [] =>
      match b.replacer_.Evict with
      | .ret r (some id) => .ret { b with replacer_ := r } id
      | .ret r none => .ret { b with replacer_ := r } (-1)
      | .throw r msg => .throw { b with replacer_ := r } msg
      | .undefined => .undefined

/-- The pair of calls `replacer_->RecordAccess(fid); replacer_->SetEvictable(fid, false);`. -/
def BufferPoolManager.recordAndPin (b : BufferPoolManager) (fid : Int) :
    Outcome BufferPoolManager Unit :=
  match b.replacer_.RecordAccess fid with
  | .ret r _ =>
      match r.SetEvictable fid false with
      | .ret r' _ => .ret { b with replacer_ := r' } ()
      | .throw r' msg => .throw { b with replacer_ := r' } msg
      | .undefined => .undefined
  | .throw r msg => .throw { b with replacer_ := r } msg
  | .undefined => .undefined

/-- `BufferPoolManager::NewPage`: `some (page_id, fid)` for the returned
`&pages_[fid]` with `*page_id` set, `none` for `nullptr`. -/
def BufferPoolManager.NewPage (b : BufferPoolManager) :
    Outcome BufferPoolManager (Option (Int × Int)) :=
  match b.acquireFrame with
  | .undefined => .undefined
  | .throw s msg => .throw s msg
  | .ret b1 fid =>
      if fid = -1 then .ret b1 none
      else
        let old := b1.pages_ fid
        let pid := old.page_id_
        let new_page := b1.next_page_id_
        let b2 : BufferPoolManager :=
          { b1 with
            page_table_ := mapSet (mapErase b1.page_table_ pid) new_page fid,
            disk_ := if old.is_dirty_ then diskWrite b1.disk_ pid old.data_ else b1.disk_,
            next_page_id_ := b1.next_page_id_ + 1,
            pages_ := fun g =>
              if g = fid then
                { data_ := zeroData b1.page_size_, page_id_ := new_page, pin_count_ := 1,
                  is_dirty_ := false }
              else b1.pages_ g }
        match b2.recordAndPin fid with
        | .ret b3 _ => .ret b3 (some (new_page, fid))
        | .throw s msg => .throw s msg
        | .undefined => .undefined

/-- `BufferPoolManager::FetchPage`: `some fid` for `&pages_[fid]`, `none` for
`nullptr`. -/
def BufferPoolManager.FetchPage (b : BufferPoolManager) (page_id : Int) :
    Outcome BufferPoolManager (Option Int) :=
  match mapFind b.page_table_ page_id with
  | some fid =>
      let pg := b.pages_ fid
      let b1 := b.setPage fid { pg with pin_count_ := pg.pin_count_ + 1 }
      match b1.recordAndPin fid with
      | .ret b2 _ => .ret b2 (some fid)
      | .throw s msg => .throw s msg
      | .undefined => .undefined
  | none =>
      match b.acquireFrame with
      | .undefined => .undefined
      | .throw s msg => .throw s msg
      | .ret b1 fid =>
          if fid = -1 then .ret b1 none
          else
            let old := b1.pages_ fid
            let pid := old.page_id_
            let disk1 := if old.is_dirty_ then diskWrite b1.disk_ pid old.data_ else b1.disk_
            let b2 : BufferPoolManager :=
              { b1 with
                page_table_ := mapSet (mapErase b1.page_table_ pid) page_id fid,
                disk_ := disk1,
                pages_ := fun g =>
                  if g = fid then
                    { data_ := disk1 page_id, page_id_ := page_id, pin_count_ := 1,
                      is_dirty_ := if old.is_dirty_ then false else old.is_dirty_ }
                  else b1.pages_ g }
            match b2.recordAndPin fid with
            | .ret b3 _ => .ret b3 (some fid)
            | .throw s msg => .throw s msg
            | .undefined => .undefined

/-- `BufferPoolManager::UnpinPage`. -/
def BufferPoolManager.UnpinPage (b : BufferPoolManager) (page_id : Int) (is_dirty : Bool) :
    Outcome BufferPoolManager Bool :=
  match mapFind b.page_table_ page_id with
  | none => .ret b false
  | some fid =>
      if (b.pages_ fid).pin_count_ ≤ 0 then .ret b false
      else
        let pg := b.pages_ fid
        let pg1 : Page :=
          { pg with pin_count_ := pg.pin_count_ - 1,
                    is_dirty_ := if is_dirty then true else pg.is_dirty_ }
        let b1 := b.setPage fid pg1
        if pg1.pin_count_ = 0 then
          match b1.replacer_.SetEvictable fid true with
          | .ret r _ => .ret { b1 with replacer_ := r } true
          | .throw r msg => .throw { b1 with replacer_ := r } msg
          | .undefined => .undefined
        else .ret b1 true

/-- Lines 132-133 and 141-142: write the frame `fid` to the disk as page
`page_id` and clear its dirty flag. -/
def BufferPoolManager.flushFrame (b : BufferPoolManager) (page_id fid : Int) :
    BufferPoolManager :=
  { b with disk_ := diskWrite b.disk_ page_id (b.pages_ fid).data_,
           pages_ := fun g => if g = fid then { (b.pages_ fid) with is_dirty_ := false }
                              else b.pages_ g }

/-- `BufferPoolManager::FlushPage`. -/
def BufferPoolManager.FlushPage (b : BufferPoolManager) (page_id : Int) :
    Outcome BufferPoolManager Bool :=
  match mapFind b.page_table_ page_id with
  | none => .ret b false
  | some fid => .ret (b.flushFrame page_id fid) true

/-- The loop of `FlushAllPages` over the entries of the page table. -/
def flushEntries (b : BufferPoolManager) : List (Int × Int) → BufferPoolManager
  | [] => b
  | e :: rest => flushEntries (b.flushFrame e.1 e.2) rest

/-- `BufferPoolManager::FlushAllPages`. -/
def BufferPoolManager.FlushAllPages (b : BufferPoolManager) : Outcome BufferPoolManager Unit :=
  .ret (flushEntries b b.page_table_) ()

/-- `BufferPoolManager::DeletePage`; `DeallocatePage` does nothing. -/
def BufferPoolManager.DeletePage (b : BufferPoolManager) (page_id : Int) :
    Outcome BufferPoolManager Bool :=
  match mapFind b.page_table_ page_id with
  | none => .ret b true
  | some fid =>
      if (b.pages_ fid).pin_count_ > 0 then .ret b false
      else
        match b.replacer_.Remove fid with
        | .undefined => .undefined
        | .throw r msg => .throw { b with replacer_ := r } msg
        | .ret r _ =>
            .ret { b with
                   replacer_ := r,
                   page_table_ := mapErase b.page_table_ page_id,
                   pages_ := fun g =>
                     if g = fid then
                       { (b.pages_ fid) with data_ := zeroData b.page_size_, pin_count_ := 0,
                                             is_dirty_ := false }
                     else b.pages_ g,
                   free_list_ := b.free_list_ ++ [fid] } true

/-- A caller that holds a pin on frame `fid` overwrites the bytes of the frame
through the `Page *` it was given. -/
def BufferPoolManager.writeFrame (b : BufferPoolManager) (fid : Int) (data : List Nat) :
    BufferPoolManager :=
  b.setPage fid { (b.pages_ fid) with data_ := data }

/-- What a user of the pool can do: the public operations, and writing into a
frame it has pinned. -/
inductive PoolOp where
  | newPage
  | fetchPage (page_id : Int)
  | unpinPage (page_id : Int) (is_dirty : Bool)
  | flushPage (page_id : Int)
  | flushAllPages
  | deletePage (page_id : Int)
  | writeFrame (fid : Int) (data : List Nat)
deriving DecidableEq, Repr

/-- State after one action of a user; `none` when the call has undefined
behaviour or when the frame to be written is not a pinned frame of the pool. -/
def BufferPoolManager.step (b : BufferPoolManager) : PoolOp → Option BufferPoolManager
  | .newPage => b.NewPage.state?
  | .fetchPage p => (b.FetchPage p).state?
  | .unpinPage p d => (b.UnpinPage p d).state?
  | .flushPage p => (b.FlushPage p).state?
  | .flushAllPages => b.FlushAllPages.state?
  | .deletePage p => (b.DeletePage p).state?
  | .writeFrame fid data =>
      if 0 ≤ fid ∧ fid < (b.pool_size_ : Int) ∧ 0 < (b.pages_ fid).pin_count_ then
        some (b.writeFrame fid data)
      else none

/-- State after a sequence of actions. -/
def BufferPoolManager.run : BufferPoolManager → List PoolOp → Option BufferPoolManager
  | b, [] => some b
  | b, op :: ops =>
      match b.step op with
      | none => none
      | some b' => b'.run ops

/-! ## Page guards (`src/storage/page/page_guard.cpp`) -/

/-- What a guard asks of its pool and of the latch of its page: the call
`bpm_->UnpinPage(page_id, is_dirty)` on the pool `bpm`, `page_->RUnlatch()` and
`page_->WUnlatch()`.  A `Page *` is represented by the id of the page held. -/
inductive GuardEvent where
  | unpinPage (bpm : Nat) (page_id : Int) (is_dirty : Bool)
  | rUnlatch (page_id : Int)
  | wUnlatch (page_id : Int)
deriving DecidableEq, Repr

/-- Modelled from the spec: the members of `BasicPageGuard` (declared in the
missing header `storage/page/page_guard.h`): the back-reference to the pool, the
reference to the frame, the dirty flag and the dropped sentinel; `none` is a
null pointer. -/
structure BasicPageGuard where
  bpm_ : Option Nat
  page_ : Option Int
  is_dirty_ : Bool
  is_dropped_ : Bool
deriving DecidableEq, Repr

/-- Modelled from the spec: a default-constructed guard, with null pointers and
both flags false. -/
def BasicPageGuard.empty : BasicPageGuard :=
  { bpm_ := none, page_ := none, is_dirty_ := false, is_dropped_ := false }

/-- Modelled from the spec: the guard `BasicPageGuard(bpm, page)` that the pool
creates on a frame it has pinned. -/
def BasicPageGuard.new (bpm : Nat) (page : Int) : BasicPageGuard :=
  { bpm_ := some bpm, page_ := some page, is_dirty_ := false, is_dropped_ := false }

/-- `BasicPageGuard::Drop` with the events so far; `none` when `bpm_` or
`page_` (read by `PageId()`) is null at the call of `UnpinPage`. -/
def BasicPageGuard.Drop (g : BasicPageGuard) (log : List GuardEvent) :
    Option (BasicPageGuard × List GuardEvent) :=
  if g.is_dropped_ = false then
    match g.bpm_, g.page_ with
    | some bpm, some p =>
        some ({ g with is_dirty_ := false, is_dropped_ := true },
          log ++ [.unpinPage bpm p g.is_dirty_])
    | _, _ => none
  else some (g, log)

/-- `BasicPageGuard::operator=(BasicPageGuard &&that)` on `this`: the guard
assigned to, the source `that` afterwards, and the events. -/
def BasicPageGuard.moveAssign (this that : BasicPageGuard) (log : List GuardEvent) :
    Option (BasicPageGuard × BasicPageGuard × List GuardEvent) :=
  let this1 : BasicPageGuard := { this with bpm_ := that.bpm_ }
  let dropped := if this1.page_.isSome then this1.Drop log else some (this1, log)
  match dropped with
  | none => none
  | some (_, log1) =>
      some ({ bpm_ := that.bpm_, page_ := that.page_, is_dirty_ := that.is_dirty_,
              is_dropped_ := that.is_dropped_ },
        { that with is_dropped_ := true }, log1)

/-- `BasicPageGuard::BasicPageGuard(BasicPageGuard &&that)`: the body is that of
the move assignment, run on a guard whose members have their defaults. -/
def BasicPageGuard.moveConstruct (that : BasicPageGuard) (log : List GuardEvent) :
    Option (BasicPageGuard × BasicPageGuard × List GuardEvent) :=
  BasicPageGuard.moveAssign BasicPageGuard.empty that log

/-- `BasicPageGuard::~BasicPageGuard`. -/
def BasicPageGuard.destroy (g : BasicPageGuard) (log : List GuardEvent) :
    Option (List GuardEvent) :=
  if g.is_dropped_ = false then
    match g.bpm_, g.page_ with
    | some bpm, some p => some (log ++ [.unpinPage bpm p g.is_dirty_])
    | _, _ => none
  else some log

/-- `ReadPageGuard`: its only member is the `BasicPageGuard guard_`. -/
structure ReadPageGuard where
  guard_ : BasicPageGuard
deriving DecidableEq, Repr

/-- Modelled from the spec: the read guard the pool creates on a frame it has
pinned and read-latched. -/
def ReadPageGuard.new (bpm : Nat) (page : Int) : ReadPageGuard :=
  { guard_ := BasicPageGuard.new bpm page }

/-- `ReadPageGuard::ReadPageGuard(ReadPageGuard &&that)`. -/
def ReadPageGuard.moveConstruct (that : ReadPageGuard) (log : List GuardEvent) :
    Option (ReadPageGuard × ReadPageGuard × List GuardEvent) :=
  match BasicPageGuard.moveAssign BasicPageGuard.empty that.guard_ log with
  | none => none
  | some (g, t, log1) => some ({ guard_ := g }, { guard_ := t }, log1)

/-- `ReadPageGuard::operator=(ReadPageGuard &&that)`. -/
def ReadPageGuard.moveAssign (this that : ReadPageGuard) (log : List GuardEvent) :
    Option (ReadPageGuard × ReadPageGuard × List GuardEvent) :=
  let log0 :=
    match this.guard_.page_ with
    | some p => log ++ [.rUnlatch p]
    | none => log
  match BasicPageGuard.moveAssign this.guard_ that.guard_ log0 with
  | none => none
  | some (g, t, log1) => some ({ guard_ := g }, { guard_ := t }, log1)

/-- `ReadPageGuard::Drop`: `guard_.Drop()`, then `guard_.page_->RUnlatch()`
whatever the dropped sentinel says; `none` when `page_` is null. -/
def ReadPageGuard.Drop (g : ReadPageGuard) (log : List GuardEvent) :
    Option (ReadPageGuard × List GuardEvent) :=
  match g.guard_.Drop log with
  | none => none
  | some (g1, log1) =>
      match g1.page_ with
      | none => none
      | some p => some ({ guard_ := g1 }, log1 ++ [.rUnlatch p])

/-- `ReadPageGuard::~ReadPageGuard`, followed by the destructor of the member
`guard_`. -/
def ReadPageGuard.destroy (g : ReadPageGuard) (log : List GuardEvent) :
    Option (List GuardEvent) :=
  if g.guard_.is_dropped_ = false then
    match g.guard_.page_ with
    | none => none
    | some p => g.guard_.destroy (log ++ [.rUnlatch p])
  else g.guard_.destroy log

/-- `WritePageGuard`: its only member is the `BasicPageGuard guard_`. -/
structure WritePageGuard where
  guard_ : BasicPageGuard
deriving DecidableEq, Repr

/-- Modelled from the spec: the write guard the pool creates on a frame it has
pinned and write-latched. -/
def WritePageGuard.new (bpm : Nat) (page : Int) : WritePageGuard :=
  { guard_ := BasicPageGuard.new bpm page }

/-- `WritePageGuard::WritePageGuard(WritePageGuard &&that)`. -/
def WritePageGuard.moveConstruct (that : WritePageGuard) (log : List GuardEvent) :
    Option (WritePageGuard × WritePageGuard × List GuardEvent) :=
  match BasicPageGuard.moveAssign BasicPageGuard.empty that.guard_ log with
  | none => none
  | some (g, t, log1) => some ({ guard_ := g }, { guard_ := t }, log1)

/-- `WritePageGuard::operator=(WritePageGuard &&that)`. -/
def WritePageGuard.moveAssign (this that : WritePageGuard) (log : List GuardEvent) :
    Option (WritePageGuard × WritePageGuard × List GuardEvent) :=
  let log0 :=
    match this.guard_.page_ with
    | some p => log ++ [.wUnlatch p]
    | none => log
  match BasicPageGuard.moveAssign this.guard_ that.guard_ log0 with
  | none => none
  | some (g, t, log1) => some ({ guard_ := g }, { guard_ := t }, log1)

/-- `WritePageGuard::Drop`. -/
def WritePageGuard.Drop (g : WritePageGuard) (log : List GuardEvent) :
    Option (WritePageGuard × List GuardEvent) :=
  match g.guard_.Drop log with
  | none => none
  | some (g1, log1) =>
      match g1.page_ with
      | none => none
      | some p => some ({ guard_ := g1 }, log1 ++ [.wUnlatch p])

/-- `WritePageGuard::~WritePageGuard`, followed by the destructor of the member
`guard_`. -/
def WritePageGuard.destroy (g : WritePageGuard) (log : List GuardEvent) :
    Option (List GuardEvent) :=
  if g.guard_.is_dropped_ = false then
    match g.guard_.page_ with
    | none => none
    | some p => g.guard_.destroy (log ++ [.wUnlatch p])
  else g.guard_.destroy log

/-! ## Vocabulary of the statements -/

/-- Number of `RecordAccess` calls in a sequence of replacer calls. -/
def recordCount : List ReplacerOp → Nat
  | [] => 0
  | .recordAccess _ :: ops => recordCount ops + 1
  | _ :: ops => recordCount ops

/-- The replacer state `r` is reached from a fresh `LRUKReplacer(num_frames, k)`
by the calls `ops`, each with a frame identifier of type `frame_id_t`. -/
def ReplacerReachedBy (num_frames k : Nat) (ops : List ReplacerOp) (r : LRUKReplacer) : Prop :=
  (∀ op ∈ ops, op.Representable) ∧ (LRUKReplacer.new num_frames k).run ops = some r

/-- The replacer state `r` is reachable from a fresh replacer. -/
def ReplacerReachable (num_frames k : Nat) (r : LRUKReplacer) : Prop :=
  ∃ ops, ReplacerReachedBy num_frames k ops r

/-- Number of tracked nodes whose `is_evictable_` flag is set. -/
def evictableCount (store : List (Int × LRUKNode)) : Nat :=
  store.countP (fun e => e.2.is_evictable_)

/-- The front of the history of `a` is an earlier timestamp than that of `b`. -/
def FrontBefore (a b : LRUKNode) : Prop :=
  ∃ ta tb, a.history_.head? = some ta ∧ b.history_.head? = some tb ∧ ta < tb

/-- The frame `f` is the victim the LRU-K policy names in `store`: its node is
evictable; when some evictable node has fewer than `k` recorded accesses, the
node of `f` has fewer than `k` and its oldest timestamp is before that of every
other such node; when every evictable node has `k` recorded accesses, its front
timestamp is before that of every other evictable node. -/
def IsLRUKVictim (k : Nat) (store : List (Int × LRUKNode)) (f : Int) : Prop :=
  ∃ n, (f, n) ∈ store ∧ n.is_evictable_ = true ∧
    ((∃ e ∈ store, e.2.is_evictable_ = true ∧ e.2.history_.length < k) →
      n.history_.length < k ∧
      ∀ e ∈ store, e.2.is_evictable_ = true → e.2.history_.length < k → e.1 ≠ f →
        FrontBefore n e.2) ∧
    ((∀ e ∈ store, e.2.is_evictable_ = true → e.2.history_.length = k) →
      ∀ e ∈ store, e.2.is_evictable_ = true → e.1 ≠ f → FrontBefore n e.2)

/-- Structural invariant of the replacer states reachable from
`LRUKReplacer(num_frames, k)`. -/
structure ReplacerWF (num_frames k : Nat) (r : LRUKReplacer) : Prop where
  size_eq : r.replacer_size_ = num_frames
  k_eq : r.k_ = k
  nodup : (r.node_store_.map Prod.fst).Nodup
  node_ok : ∀ e ∈ r.node_store_,
    e.2.fid_ = e.1 ∧ e.2.k_ = k ∧ toSizeT e.1 < num_frames ∧ FrameIdRepr e.1
  curr_size : r.curr_size_ = evictableCount r.node_store_

/-- Invariant on the timestamps of a replacer state reached with at most
`n` calls of `RecordAccess`. -/
structure ReplacerTimed (k n : Nat) (r : LRUKReplacer) : Prop where
  clock_le : r.current_timestamp_ ≤ n
  hist_ok : ∀ e ∈ r.node_store_,
    e.2.history_ ≠ [] ∧ e.2.history_.length ≤ k ∧ ∀ t ∈ e.2.history_, t ≤ r.current_timestamp_
  disjoint : ∀ e1 ∈ r.node_store_, ∀ e2 ∈ r.node_store_, e1.1 ≠ e2.1 →
    ∀ t ∈ e1.2.history_, t ∉ e2.2.history_

/-- What the locals of the loop of `Evict` record once the nodes `seen` have
been visited: nothing if none of them is evictable, otherwise the evictable
node `e` that the LRU-K policy prefers among them. -/
def EvictSummary (k : Nat) (seen : List (Int × LRUKNode)) (st : EvictScan) : Prop :=
  ((∀ e ∈ seen, e.2.is_evictable_ = false) → st = EvictScan.init) ∧
  ((∃ e ∈ seen, e.2.is_evictable_ = true) →
    ∃ e ∈ seen, e.2.is_evictable_ = true ∧ st.id = e.2.fid_ ∧
      e.2.history_.head? = some st.oldest ∧
      st.less_than_k = decide (e.2.history_.length < k) ∧
      (∀ e' ∈ seen, e'.2.is_evictable_ = true →
        (e'.2.history_.length < k ∨ ¬ e.2.history_.length < k) →
        ∃ t', e'.2.history_.head? = some t' ∧ st.oldest ≤ t') ∧
      (¬ e.2.history_.length < k →
        ∀ e' ∈ seen, e'.2.is_evictable_ = true → ¬ e'.2.history_.length < k))

instance (op : ReplacerOp) : Decidable op.Representable := by
  cases op <;> unfold ReplacerOp.Representable <;> infer_instance

/-- The replacer state after `m` calls `RecordAccess(0)` on a fresh
`LRUKReplacer(1, 1)`, for `m ≥ 1`. -/
def accessedOnly (m : Nat) : LRUKReplacer :=
  { node_store_ := [(0, { history_ := [m], k_ := 1, fid_ := 0, is_evictable_ := false })],
    current_timestamp_ := m, curr_size_ := 0, replacer_size_ := 1, k_ := 1 }

/-- The state `accessedOnly OLDEST_INIT` after `SetEvictable(0, true)`. -/
def sentinelState : LRUKReplacer :=
  { node_store_ := [(0, { history_ := [OLDEST_INIT], k_ := 1, fid_ := 0, is_evictable_ := true })],
    current_timestamp_ := OLDEST_INIT, curr_size_ := 1, replacer_size_ := 1, k_ := 1 }

/-- The state of a fresh `LRUKReplacer(1, 0)` after `RecordAccess(0)` and
`SetEvictable(0, true)`. -/
def zeroKState : LRUKReplacer :=
  { node_store_ := [(0, { history_ := [], k_ := 0, fid_ := 0, is_evictable_ := true })],
    current_timestamp_ := 1, curr_size_ := 1, replacer_size_ := 1, k_ := 0 }

/-- A short run of a fresh `LRUKReplacer(3, 2)`: frame 0 accessed once, frame 1
twice, both made evictable. -/
def sampleReplacerOps : List ReplacerOp :=
  [.recordAccess 0, .recordAccess 1, .recordAccess 1, .setEvictable 0 true, .setEvictable 1 true]

/-- The state after `sampleReplacerOps`. -/
def sampleReplacer : LRUKReplacer :=
  { node_store_ :=
      [(1, { history_ := [2, 3], k_ := 2, fid_ := 1, is_evictable_ := true }),
       (0, { history_ := [1], k_ := 2, fid_ := 0, is_evictable_ := true })],
    current_timestamp_ := 3, curr_size_ := 2, replacer_size_ := 3, k_ := 2 }

/-- The value stored at the node reached from `n` along `key`, if there is
such a node and it is a value node. -/
def valueAt (n : TrieNode) (key : List Char) : Option Value :=
  match trieWalk n key with
  | none => none
  | some m => m.value_

/-- The parent of the terminal node of `key` exists in `t` and has children,
but none for the last character of `key`: the case in which line 99 of
`Trie::Remove` dereferences the null pointer that `children_[key.back()]`
inserts. -/
def MissingLastChild (t : Trie) (key : List Char) : Prop :=
  ∃ r p c, t.root_ = some r ∧ trieWalk r key.dropLast = some p ∧
    key.getLast? = some c ∧ p.children_ ≠ [] ∧ mapFind p.children_ c = none

/-- The trie `empty.Put("ab", 1)`. -/
def sampleTrie : Trie := Trie.empty.Put "ab".toList (.uint32 1)

/-- The trie `empty.Put("ab", 1).Put("ac", 2)` of the specification's
persistence scenario. -/
def sampleTrie2 : Trie := sampleTrie.Put "ac".toList (.uint32 2)

/-- Every pointer stored in a node of the memory points into the memory. -/
def HeapClosed (h : TrieHeap) : Prop :=
  ∀ n ∈ h, ∀ e ∈ n.children_, e.2 < h.length

instance (h : TrieHeap) : Decidable (HeapClosed h) := by
  unfold HeapClosed
  infer_instance

/-- The memory at the end of the walk. -/
def HeapRemoveWalk.heap : HeapRemoveWalk → TrieHeap
  | .returnEmpty h => h
  | .nullDeref h => h
  | .done h _ => h

/-- The memory after `empty.Put("ab", 1)` on the empty memory: the root at
address 0, the node for `a` at 1 and the value node for `ab` at 2. -/
def sampleHeap : TrieHeap :=
  [{ children_ := [('a', 1)], value_ := none },
   { children_ := [('b', 2)], value_ := none },
   { children_ := [], value_ := some (.uint32 1) }]

/-- The pool state `b` is reached from a fresh
`BufferPoolManager(pool_size, disk_manager, replacer_k)` over a disk with
contents `disk` by the user actions `ops`. -/
def PoolReachedBy (pool_size replacer_k page_size : Nat) (disk : Int → List Nat)
    (ops : List PoolOp) (b : BufferPoolManager) : Prop :=
  (BufferPoolManager.new pool_size replacer_k page_size disk).run ops = some b

/-- The pool state `b` is reachable from a fresh pool. -/
def PoolReachable (pool_size replacer_k page_size : Nat) (disk : Int → List Nat)
    (b : BufferPoolManager) : Prop :=
  ∃ ops, PoolReachedBy pool_size replacer_k page_size disk ops b

/-- The frame `f` is marked evictable in the replacer of the pool. -/
def BufferPoolManager.EvictableFrame (b : BufferPoolManager) (f : Int) : Prop :=
  ∃ n, mapFind b.replacer_.node_store_ f = some n ∧ n.is_evictable_ = true

/-- The replacer of the pool tracks the frame `f`. -/
def BufferPoolManager.TrackedFrame (b : BufferPoolManager) (f : Int) : Prop :=
  ∃ n, mapFind b.replacer_.node_store_ f = some n

/-- Invariant of the pool states reachable from a fresh pool of `pool_size`
frames: the replacer is well formed and tracks only frames of the pool, the
free list holds frames of the pool, an evictable frame is unpinned, and every
page-table entry points to a frame of the pool that carries the page id, is
tracked by the replacer and is evictable when unpinned. -/
structure PoolInv (pool_size k : Nat) (b : BufferPoolManager) : Prop where
  size_eq : b.pool_size_ = pool_size
  rep_wf : ReplacerWF pool_size k b.replacer_
  tracked_range : ∀ f n, mapFind b.replacer_.node_store_ f = some n →
    0 ≤ f ∧ f < (pool_size : Int)
  free_range : ∀ f ∈ b.free_list_, 0 ≤ f ∧ f < (pool_size : Int)
  evictable_unpinned : ∀ f n, mapFind b.replacer_.node_store_ f = some n →
    n.is_evictable_ = true → (b.pages_ f).pin_count_ = 0
  table_ok : ∀ e ∈ b.page_table_,
    0 ≤ e.2 ∧ e.2 < (pool_size : Int) ∧ (b.pages_ e.2).page_id_ = e.1 ∧
    ∃ n, mapFind b.replacer_.node_store_ e.2 = some n ∧
      ((b.pages_ e.2).pin_count_ = 0 → n.is_evictable_ = true)

/-- The state after the actions `ops`, or the start state when the run is not
defined. -/
def BufferPoolManager.runD (b : BufferPoolManager) (ops : List PoolOp) : BufferPoolManager :=
  (b.run ops).getD b

/-- A disk whose pages all hold the single byte 0. -/
def zeroDisk : Int → List Nat := fun _ => [0]

/-- A pool of one frame (page size 1, `k = 2`) after `NewPage`: page 0 sits
pinned in frame 0 and the free list is empty. -/
def fullPool : BufferPoolManager := (BufferPoolManager.new 1 2 1 zeroDisk).runD [.newPage]

/-- The pool `fullPool` after `UnpinPage(0, true)`. -/
def idlePool : BufferPoolManager :=
  (BufferPoolManager.new 1 2 1 zeroDisk).runD [.newPage, .unpinPage 0 true]

/-- The action `op`, done in state `b`, neither names the page `p` (a
`FetchPage(p)` apart) nor writes into the frame that holds `p`. -/
def PoolOp.avoids (p : Int) (b : BufferPoolManager) : PoolOp → Bool
  | .newPage => true
  | .fetchPage _ => true
  | .unpinPage q _ => decide (q ≠ p)
  | .flushPage q => decide (q ≠ p)
  | .flushAllPages => true
  | .deletePage q => decide (q ≠ p)
  | .writeFrame fid _ => decide (mapFind b.page_table_ p ≠ some fid)

/-- Every action of the run `ops` from `b` avoids the page `p`. -/
def avoidingRun (p : Int) : BufferPoolManager → List PoolOp → Bool
  | _, [] => true
  | b, op :: ops =>
      op.avoids p b &&
        match b.step op with
        | none => true
        | some b' => avoidingRun p b' ops

/-- The bytes `X` of page `p` are safe in state `b`: `p` is below the next page
id to allocate, and either `p` sits in a frame with contents `X` that is dirty
or already equal to the disk copy, no other frame carrying the id `p`; or `p` is
not mapped, the disk copy is `X` and no frame carries the id `p`. -/
def PageKept (p : Int) (X : List Nat) (b : BufferPoolManager) : Prop :=
  p < b.next_page_id_ ∧
  ((∃ f, mapFind b.page_table_ p = some f ∧ (b.pages_ f).data_ = X ∧
      ((b.pages_ f).is_dirty_ = true ∨ b.disk_ p = X) ∧
      ∀ g, g ≠ f → (b.pages_ g).page_id_ ≠ p) ∨
    (mapFind b.page_table_ p = none ∧ b.disk_ p = X ∧ ∀ g, (b.pages_ g).page_id_ ≠ p))

/-- A fresh pool of one frame over `zeroDisk` (page size 1, `k = 2`). -/
def onePool : BufferPoolManager := BufferPoolManager.new 1 2 1 zeroDisk

/-- `onePool` after `NewPage` (page 0 in frame 0) and a write of the byte 7 into
the pinned frame. -/
def writtenPool : BufferPoolManager := onePool.runD [.newPage, .writeFrame 0 [7]]

/-- `writtenPool` after `UnpinPage(0, true)`. -/
def writtenUnpinned : BufferPoolManager :=
  onePool.runD [.newPage, .writeFrame 0 [7], .unpinPage 0 true]

/-- `writtenUnpinned` after `NewPage` (which evicts page 0) and
`UnpinPage(1, false)`. -/
def writtenEvicted : BufferPoolManager :=
  onePool.runD [.newPage, .writeFrame 0 [7], .unpinPage 0 true, .newPage, .unpinPage 1 false]

/-- `writtenEvicted` after `FetchPage(0)`. -/
def writtenFetched : BufferPoolManager :=
  onePool.runD [.newPage, .writeFrame 0 [7], .unpinPage 0 true, .newPage, .unpinPage 1 false,
    .fetchPage 0]

/-- A fresh pool of two frames over `zeroDisk` (page size 1, `k = 2`). -/
def twoPool : BufferPoolManager := BufferPoolManager.new 2 2 1 zeroDisk

/-- `twoPool` after `FetchPage(0)` of the never allocated page 0 and a write of
the byte 7 into its frame. -/
def strayPool : BufferPoolManager := twoPool.runD [.fetchPage 0, .writeFrame 0 [7]]

/-- `strayPool` after `UnpinPage(0, true)`. -/
def strayUnpinned : BufferPoolManager :=
  twoPool.runD [.fetchPage 0, .writeFrame 0 [7], .unpinPage 0 true]

/-- `strayUnpinned` after `NewPage`, which allocates the page id 0 again. -/
def strayAllocated : BufferPoolManager :=
  twoPool.runD [.fetchPage 0, .writeFrame 0 [7], .unpinPage 0 true, .newPage]

/-- `strayAllocated` after `FetchPage(0)`. -/
def strayFetched : BufferPoolManager :=
  twoPool.runD [.fetchPage 0, .writeFrame 0 [7], .unpinPage 0 true, .newPage, .fetchPage 0]

/-- The action `op` is done in state `b` on live pages only: a `FetchPage(p)`
names a page id that `NewPage` has handed out (`0 ≤ p < next_page_id_`) and that
is not the stale `page_id_` of a frame on the free list (the id of a page
removed by `DeletePage` whose frame has not been used again). -/
def PoolOp.live (b : BufferPoolManager) : PoolOp → Bool
  | .fetchPage p =>
      decide (0 ≤ p) && decide (p < b.next_page_id_) &&
        b.free_list_.all (fun f => decide ((b.pages_ f).page_id_ ≠ p))
  | _ => true

/-- Every action of the run `ops` from `b` is done on live pages only. -/
def liveRun : BufferPoolManager → List PoolOp → Bool
  | _, [] => true
  | b, op :: ops =>
      op.live b &&
        match b.step op with
        | none => true
        | some b' => liveRun b' ops

/-- The pool state `b` is reached from a fresh pool by the actions `ops`, each
done on live pages only. -/
def PoolLiveReachedBy (pool_size replacer_k page_size : Nat) (disk : Int → List Nat)
    (ops : List PoolOp) (b : BufferPoolManager) : Prop :=
  PoolReachedBy pool_size replacer_k page_size disk ops b ∧
    liveRun (BufferPoolManager.new pool_size replacer_k page_size disk) ops = true

/-- The page-table entries whose target is the frame `f`. -/
def BufferPoolManager.entriesOf (b : BufferPoolManager) (f : Int) : List (Int × Int) :=
  b.page_table_.filter (fun e => decide (e.2 = f))

/-- The frame `f` is marked evictable in the replacer of the pool (as a
Boolean). -/
def BufferPoolManager.isEvictable (b : BufferPoolManager) (f : Int) : Bool :=
  match mapFind b.replacer_.node_store_ f with
  | some n => n.is_evictable_
  | none => false

/-- Number of frames of the pool that are the target of a page-table entry and
are marked evictable in the replacer. -/
def BufferPoolManager.mappedEvictableCount (b : BufferPoolManager) : Nat :=
  (List.range b.pool_size_).countP
    (fun i => !(b.entriesOf (Int.ofNat i)).isEmpty && b.isEvictable (Int.ofNat i))

/-- Invariant of the pool states reached by actions on live pages: the page
table has one entry per page id, the free list has no duplicates, every frame
of the pool is on the free list or the target of an entry but not both, the
mapped page ids have been allocated, the `page_id_` left in a frame of the free
list is below the next page id and not mapped, and an evictable frame is
mapped. -/
structure FrameInv (pool_size : Nat) (b : BufferPoolManager) : Prop where
  keys_nodup : (b.page_table_.map Prod.fst).Nodup
  free_nodup : b.free_list_.Nodup
  covered : ∀ f, 0 ≤ f → f < (pool_size : Int) →
    f ∈ b.free_list_ ∨ ∃ p, (p, f) ∈ b.page_table_
  free_unmapped : ∀ f ∈ b.free_list_, ∀ e ∈ b.page_table_, e.2 ≠ f
  next_nonneg : 0 ≤ b.next_page_id_
  mapped_below : ∀ e ∈ b.page_table_, 0 ≤ e.1 ∧ e.1 < b.next_page_id_
  free_below : ∀ f ∈ b.free_list_, (b.pages_ f).page_id_ < b.next_page_id_
  free_stale : ∀ f ∈ b.free_list_, mapFind b.page_table_ (b.pages_ f).page_id_ = none
  evictable_mapped : ∀ f, b.EvictableFrame f → ∃ p, (p, f) ∈ b.page_table_

/-- A run of a two-frame pool on live pages: two pages are created and
unpinned, a third `NewPage` evicts page 0, `FetchPage(0)` brings it back in the
place of page 1, and page 2 is unpinned. -/
def livePoolOps : List PoolOp :=
  [.newPage, .newPage, .unpinPage 0 true, .unpinPage 1 false, .newPage, .fetchPage 0,
    .unpinPage 2 false]

/-- The state after `livePoolOps`: page 2 sits unpinned in frame 0 and page 0
pinned in frame 1. -/
def livePool : BufferPoolManager := twoPool.runD livePoolOps

/-- The run `livePoolOps` followed by `DeletePage(2)`. -/
def livePoolDeletedOps : List PoolOp := livePoolOps ++ [.deletePage 2]

/-- The state after `livePoolDeletedOps`: frame 0 is on the free list, page 0
sits pinned in frame 1. -/
def livePoolDeleted : BufferPoolManager := twoPool.runD livePoolDeletedOps

/-- `FetchPage(0)` of the never allocated page 0, then `NewPage`, which hands
out the page id 0 and maps it to frame 1. -/
def strayOps : List PoolOp := [.fetchPage 0, .newPage]

/-- Page 0 is created, unpinned, deleted and fetched again into frame 1, while
frame 0 on the free list still carries the page id 0; `NewPage` then takes
frame 0 and erases the page-table entry of page 0. -/
def staleOps : List PoolOp :=
  [.newPage, .unpinPage 0 false, .deletePage 0, .fetchPage 0, .newPage]

/-- After `staleOps`, page 1 is unpinned and page 0 is fetched once more, into
frame 0. -/
def staleRefetchOps : List PoolOp := staleOps ++ [.unpinPage 1 false, .fetchPage 0]

/-- The never allocated page 0 is fetched and unpinned, then `NewPage` hands out
the page id 0 and takes over the page-table entry. -/
def strayUnpinnedOps : List PoolOp := [.fetchPage 0, .unpinPage 0 false, .newPage]

/-- The deleted page 0 is fetched again into frame 1 and unpinned, then
`NewPage` takes frame 0 with its stale page id 0 and erases the entry of
page 0. -/
def staleUnpinnedOps : List PoolOp :=
  [.newPage, .unpinPage 0 false, .deletePage 0, .fetchPage 0, .unpinPage 0 false, .newPage]

/-- The events of: a read guard on page 3 of pool 0, `Drop()` called twice, then
destruction. -/
def readGuardDroppedTwice : Option (List GuardEvent) :=
  match (ReadPageGuard.new 0 3).Drop [] with
  | none => none
  | some (g1, log1) =>
      match g1.Drop log1 with
      | none => none
      | some (g2, log2) => g2.destroy log2

/-- The events of: a read guard on page 3 of pool 0 is moved into a new guard,
`Drop()` is called on the moved-from source, then both guards are destroyed. -/
def readGuardSourceDropped : Option (List GuardEvent) :=
  match (ReadPageGuard.new 0 3).moveConstruct [] with
  | none => none
  | some (target, source, log1) =>
      match source.Drop log1 with
      | none => none
      | some (source1, log2) =>
          match target.destroy log2 with
          | none => none
          | some log3 => source1.destroy log3

/-- The events of: a write guard on page 3 of pool 0, `Drop()` called twice,
then destruction. -/
def writeGuardDroppedTwice : Option (List GuardEvent) :=
  match (WritePageGuard.new 0 3).Drop [] with
  | none => none
  | some (g1, log1) =>
      match g1.Drop log1 with
      | none => none
      | some (g2, log2) => g2.destroy log2

/-- The events of: a basic guard on page 3 of pool 0 is moved into a new guard,
`Drop()` is called twice on the source and once on the target, then both are
destroyed. -/
def basicGuardMovedAndDropped : Option (List GuardEvent) :=
  match (BasicPageGuard.new 0 3).moveConstruct [] with
  | none => none
  | some (target, source, log1) =>
      match source.Drop log1 with
      | none => none
      | some (source1, log2) =>
          match source1.Drop log2 with
          | none => none
          | some (source2, log3) =>
              match target.Drop log3 with
              | none => none
              | some (target1, log4) =>
                  match target1.destroy log4 with
                  | none => none
                  | some log5 => source2.destroy log5

/-! # Lemmas and theorems -/

section AssocMapLemmas
variable {κ β : Type} [DecidableEq κ]

theorem mapFind_mapSet (m : List (κ × β)) (k k' : κ) (v : β) :
    mapFind (mapSet m k v) k' = if k = k' then some v else mapFind m k' := by
  induction m with
  | nil => simp [mapSet, mapFind]
  | cons e rest ih =>
      obtain ⟨a, b⟩ := e
      by_cases h : a = k
      · subst h
        by_cases h' : a = k' <;> simp [mapSet, mapFind, h']
      · by_cases h' : a = k'
        · subst h'
          have : ¬ k = a := fun e => h e.symm
          simp [mapSet, mapFind, h, this]
        · simp [mapSet, mapFind, h, h', ih]

theorem mapFind_mapErase (m : List (κ × β)) (k k' : κ) :
    mapFind (mapErase m k) k' = if k = k' then none else mapFind m k' := by
  induction m with
  | nil => simp [mapErase, mapFind]
  | cons e rest ih =>
      obtain ⟨a, b⟩ := e
      by_cases h : a = k
      · subst h
        by_cases h' : a = k'
        · subst h'
          simpa [mapErase, mapFind] using ih
        · simp [mapErase, mapFind, h', ih]
      · by_cases h' : a = k'
        · subst h'
          have : ¬ k = a := fun e => h e.symm
          simp [mapErase, mapFind, h, this]
        · simp [mapErase, mapFind, h, h', ih]

theorem mem_mapErase (m : List (κ × β)) (k : κ) (e : κ × β) :
    e ∈ mapErase m k ↔ e ∈ m ∧ e.1 ≠ k := by
  induction m with
  | nil => simp [mapErase]
  | cons x rest ih =>
      obtain ⟨a, b⟩ := x
      by_cases h : a = k
      · subst h
        simp only [mapErase, if_true, ih, List.mem_cons]
        constructor
        · rintro ⟨h1, h2⟩
          exact ⟨Or.inr h1, h2⟩
        · rintro ⟨h1 | h1, h2⟩
          · exact absurd (by rw [h1]) h2
          · exact ⟨h1, h2⟩
      · simp only [mapErase, h, if_false, ih, List.mem_cons]
        constructor
        · rintro (h1 | ⟨h1, h2⟩)
          · exact ⟨Or.inl h1, by rw [h1]; exact h⟩
          · exact ⟨Or.inr h1, h2⟩
        · rintro ⟨h1 | h1, h2⟩
          · exact Or.inl h1
          · exact Or.inr ⟨h1, h2⟩

theorem mapErase_sublist (m : List (κ × β)) (k : κ) : (mapErase m k).Sublist m := by
  induction m with
  | nil => simp [mapErase]
  | cons x rest ih =>
      obtain ⟨a, b⟩ := x
      by_cases h : a = k
      · simp only [mapErase, h, if_true]
        exact ih.trans (List.sublist_cons_self _ _)
      · simp only [mapErase, h, if_false]
        exact ih.cons₂ _

theorem mapFind_eq_none_iff (m : List (κ × β)) (k : κ) :
    mapFind m k = none ↔ ∀ e ∈ m, e.1 ≠ k := by
  induction m with
  | nil => simp [mapFind]
  | cons e rest ih =>
      obtain ⟨a, b⟩ := e
      by_cases h : a = k <;> simp [mapFind, h, ih]

theorem mem_of_mapFind_eq_some {m : List (κ × β)} {k : κ} {v : β}
    (h : mapFind m k = some v) : (k, v) ∈ m := by
  induction m with
  | nil => simp [mapFind] at h
  | cons e rest ih =>
      obtain ⟨a, b⟩ := e
      by_cases hk : a = k
      · subst hk
        simp [mapFind] at h
        simp [h]
      · simp [mapFind, hk] at h
        exact List.mem_cons_of_mem _ (ih h)

theorem mapFind_eq_some_of_mem {m : List (κ × β)} (hnd : (m.map Prod.fst).Nodup)
    {k : κ} {v : β} (h : (k, v) ∈ m) : mapFind m k = some v := by
  induction m with
  | nil => simp at h
  | cons e rest ih =>
      obtain ⟨a, b⟩ := e
      simp only [List.map_cons, List.nodup_cons] at hnd
      rcases List.mem_cons.mp h with h | h
      · cases h
        simp [mapFind]
      · have hk : a ≠ k := by
          intro e
          subst e
          exact hnd.1 (List.mem_map.mpr ⟨(a, v), h, rfl⟩)
        simp [mapFind, hk, ih hnd.2 h]

theorem map_fst_mapSet (m : List (κ × β)) (k : κ) (v : β) :
    (mapSet m k v).map Prod.fst =
      if k ∈ m.map Prod.fst then m.map Prod.fst else m.map Prod.fst ++ [k] := by
  induction m with
  | nil => simp [mapSet]
  | cons e rest ih =>
      obtain ⟨a, b⟩ := e
      by_cases h : a = k
      · subst h
        simp [mapSet]
      · have h' : ¬ k = a := fun e => h e.symm
        simp only [mapSet, h, if_false, List.map_cons, ih, List.mem_cons, h', false_or]
        split <;> simp

theorem nodup_keys_mapSet {m : List (κ × β)} (hnd : (m.map Prod.fst).Nodup) (k : κ) (v : β) :
    ((mapSet m k v).map Prod.fst).Nodup := by
  rw [map_fst_mapSet]
  split
  · exact hnd
  · rename_i h
    exact List.Nodup.append hnd (List.nodup_singleton k) (by simpa using h)

theorem nodup_keys_mapErase {m : List (κ × β)} (hnd : (m.map Prod.fst).Nodup) (k : κ) :
    ((mapErase m k).map Prod.fst).Nodup := by
  exact hnd.sublist ((mapErase_sublist m k).map _)

theorem mem_mapSet_of_nodup {m : List (κ × β)} (hnd : (m.map Prod.fst).Nodup) (k : κ) (v : β)
    (e : κ × β) : e ∈ mapSet m k v ↔ e = (k, v) ∨ (e ∈ m ∧ e.1 ≠ k) := by
  induction m with
  | nil => simp [mapSet]
  | cons x rest ih =>
      obtain ⟨a, b⟩ := x
      simp only [List.map_cons, List.nodup_cons] at hnd
      by_cases h : a = k
      · subst h
        simp only [mapSet, if_true, List.mem_cons]
        constructor
        · rintro (h | h)
          · exact Or.inl h
          · refine Or.inr ⟨Or.inr h, ?_⟩
            intro he
            exact hnd.1 (List.mem_map.mpr ⟨e, h, he⟩)
        · rintro (h | ⟨h | h, hne⟩)
          · exact Or.inl h
          · exact absurd (by rw [h]) hne
          · exact Or.inr h
      · simp only [mapSet, h, if_false, List.mem_cons, ih hnd.2]
        constructor
        · rintro (h1 | h1 | h1)
          · exact Or.inr ⟨Or.inl h1, by rw [h1]; exact h⟩
          · exact Or.inl h1
          · exact Or.inr ⟨Or.inr h1.1, h1.2⟩
        · rintro (h1 | ⟨h1 | h1, hne⟩)
          · exact Or.inr (Or.inl h1)
          · exact Or.inl h1
          · exact Or.inr (Or.inr ⟨h1, hne⟩)

theorem mem_mapSet_subset (m : List (κ × β)) (k : κ) (v : β) (e : κ × β)
    (h : e ∈ mapSet m k v) : e = (k, v) ∨ e ∈ m := by
  induction m with
  | nil => simpa [mapSet] using h
  | cons x rest ih =>
      obtain ⟨a, b⟩ := x
      by_cases hk : a = k
      · simp only [mapSet, hk, if_true, List.mem_cons] at h
        rcases h with h | h
        · exact Or.inl h
        · exact Or.inr (List.mem_cons_of_mem _ h)
      · simp only [mapSet, hk, if_false, List.mem_cons] at h
        rcases h with h | h
        · exact Or.inr (by simp [h])
        · rcases ih h with h | h
          · exact Or.inl h
          · exact Or.inr (List.mem_cons_of_mem _ h)

end AssocMapLemmas

section ReplacerLemmas

theorem toSizeT_of_nonneg {f : Int} (h0 : 0 ≤ f) (h1 : f < (2 ^ 64 : Int)) :
    toSizeT f = f.toNat := by
  unfold toSizeT SIZE_T_MOD
  congr 1
  norm_num
  exact Int.emod_eq_of_lt h0 h1

theorem toSizeT_inj {a b : Int} (ha : FrameIdRepr a) (hb : FrameIdRepr b)
    (h : toSizeT a = toSizeT b) : a = b := by
  unfold toSizeT SIZE_T_MOD at h
  unfold FrameIdRepr at ha hb
  norm_num at h ha hb
  omega

theorem toSizeT_ne_neg_one {f : Int} {n : Nat} (hn : n < SIZE_T_MOD) (h : toSizeT f < n) :
    f ≠ -1 := by
  rintro rfl
  unfold toSizeT SIZE_T_MOD at *
  norm_num at h
  omega

end ReplacerLemmas
section ReplacerWFLemmas

theorem evictCompare_id {st st' : EvictScan} {n : LRUKNode}
    (h : evictCompare st n = some st') : st'.id = st.id ∨ st'.id = n.fid_ := by
  unfold evictCompare at h
  split at h
  · simp at h
  · split at h <;> simp at h <;> subst h <;> simp

theorem evictVisit_id {k : Nat} {st st' : EvictScan} {n : LRUKNode}
    (h : evictVisit k st n = some st') :
    st'.id = st.id ∨ (n.is_evictable_ = true ∧ st'.id = n.fid_) := by
  unfold evictVisit at h
  by_cases hev : n.is_evictable_ = false
  · simp [hev] at h
    exact Or.inl (by rw [h])
  · have hev' : n.is_evictable_ = true := by simpa using hev
    rw [if_neg hev] at h
    split at h
    · split at h
      · simp at h
        exact Or.inl (by rw [h])
      · rcases evictCompare_id h with h1 | h1
        · exact Or.inl h1
        · exact Or.inr ⟨hev', h1⟩
    · rcases evictCompare_id h with h1 | h1
      · left
        rw [h1]
        split <;> rfl
      · exact Or.inr ⟨hev', h1⟩

theorem evictLoop_id {k : Nat} (l : List (Int × LRUKNode)) {st st' : EvictScan}
    (h : evictLoop k st l = some st') :
    st'.id = st.id ∨ ∃ e ∈ l, e.2.is_evictable_ = true ∧ e.2.fid_ = st'.id := by
  induction l generalizing st with
  | nil =>
      simp [evictLoop] at h
      exact Or.inl (by rw [h])
  | cons x rest ih =>
      simp only [evictLoop] at h
      cases hv : evictVisit k st x.2 with
      | none => simp [hv] at h
      | some st1 =>
          simp only [hv] at h
          rcases ih h with h1 | ⟨e, he, hev, hid⟩
          · rcases evictVisit_id hv with h2 | ⟨h2, h3⟩
            · exact Or.inl (h1.trans h2)
            · exact Or.inr ⟨x, List.mem_cons_self _ _, h2, by rw [h1, h3]⟩
          · exact Or.inr ⟨e, List.mem_cons_of_mem _ he, hev, hid⟩

theorem countP_mapErase_of_mem {β : Type} (p : Int × β → Bool) {m : List (Int × β)}
    (hnd : (m.map Prod.fst).Nodup) {f : Int} {n : β} (hmem : (f, n) ∈ m) :
    (mapErase m f).countP p + (if p (f, n) then 1 else 0) = m.countP p := by
  induction m with
  | nil => simp at hmem
  | cons x rest ih =>
      obtain ⟨a, b⟩ := x
      simp only [List.map_cons, List.nodup_cons] at hnd
      by_cases h : a = f
      · subst h
        have hb : b = n := by
          rcases List.mem_cons.mp hmem with h1 | h1
          · cases h1; rfl
          · exact absurd (List.mem_map.mpr ⟨(a, n), h1, rfl⟩) hnd.1
        subst hb
        have hrest : mapErase rest a = rest := by
          have : ∀ l : List (Int × β), (∀ e ∈ l, e.1 ≠ a) → mapErase l a = l := by
            intro l
            induction l with
            | nil => intro _; rfl
            | cons y t iht =>
                intro hy
                obtain ⟨c, d⟩ := y
                have hc : c ≠ a := hy (c, d) (List.mem_cons_self _ _)
                simp only [mapErase, hc, if_false]
                rw [iht (fun e he => hy e (List.mem_cons_of_mem _ he))]
          apply this
          intro e he hea
          exact hnd.1 (List.mem_map.mpr ⟨e, he, hea⟩)
        simp only [mapErase, if_true, hrest, List.countP_cons]
      · have hmem' : (f, n) ∈ rest := by
          rcases List.mem_cons.mp hmem with h1 | h1
          · cases h1; exact absurd rfl h
          · exact h1
        simp only [mapErase, h, if_false, List.countP_cons]
        have := ih hnd.2 hmem'
        omega

theorem countP_mapSet_of_mem {β : Type} (p : Int × β → Bool) {m : List (Int × β)}
    {f : Int} {n : β} (hfind : mapFind m f = some n) (n' : β) :
    (mapSet m f n').countP p + (if p (f, n) then 1 else 0) =
      m.countP p + (if p (f, n') then 1 else 0) := by
  induction m with
  | nil => simp [mapFind] at hfind
  | cons x rest ih =>
      obtain ⟨a, b⟩ := x
      by_cases h : a = f
      · subst h
        simp only [mapFind, if_true, Option.some.injEq] at hfind
        subst hfind
        simp only [mapSet, if_true, List.countP_cons]
        omega
      · simp only [mapFind, h, if_false] at hfind
        simp only [mapSet, h, if_false, List.countP_cons]
        have := ih hfind
        omega

theorem length_mapSet_of_mem {β : Type} {m : List (Int × β)}
    {f : Int} {n : β} (hfind : mapFind m f = some n) (n' : β) :
    (mapSet m f n').length = m.length := by
  induction m with
  | nil => simp [mapFind] at hfind
  | cons x rest ih =>
      obtain ⟨a, b⟩ := x
      by_cases h : a = f
      · simp [mapSet, h]
      · simp only [mapFind, h, if_false] at hfind
        simp [mapSet, h, ih hfind]

theorem store_length_le {nf : Nat} {store : List (Int × LRUKNode)}
    (hnd : (store.map Prod.fst).Nodup)
    (hok : ∀ e ∈ store, toSizeT e.1 < nf ∧ FrameIdRepr e.1) : store.length ≤ nf := by
  have h1 : ((store.map Prod.fst).map toSizeT).Nodup := by
    apply List.Nodup.map_on _ hnd
    intro a ha b hb hab
    obtain ⟨ea, hea, rfl⟩ := List.mem_map.mp ha
    obtain ⟨eb, heb, rfl⟩ := List.mem_map.mp hb
    exact toSizeT_inj (hok ea hea).2 (hok eb heb).2 hab
  have h2 : ((store.map Prod.fst).map toSizeT).toFinset ⊆ Finset.range nf := by
    intro x hx
    simp only [List.mem_toFinset, List.mem_map] at hx
    obtain ⟨a, ⟨e, he, rfl⟩, rfl⟩ := hx
    exact Finset.mem_range.mpr (hok e he).1
  have h3 := Finset.card_le_card h2
  rw [List.toFinset_card_of_nodup h1] at h3
  simpa using h3

theorem sizeInc_eq {n : Nat} (h : n + 1 < SIZE_T_MOD) : sizeInc n = n + 1 := by
  unfold sizeInc
  exact Nat.mod_eq_of_lt h

theorem sizeDec_eq {n : Nat} (h0 : 0 < n) (h : n < SIZE_T_MOD) : sizeDec n = n - 1 := by
  unfold sizeDec SIZE_T_MOD at *
  omega

end ReplacerWFLemmas
section ReplacerWFSteps

@[simp] theorem PushTimestamp_fid (n : LRUKNode) (ts : Nat) : (n.PushTimestamp ts).fid_ = n.fid_ := rfl
@[simp] theorem PushTimestamp_k (n : LRUKNode) (ts : Nat) : (n.PushTimestamp ts).k_ = n.k_ := rfl
@[simp] theorem PushTimestamp_evictable (n : LRUKNode) (ts : Nat) :
    (n.PushTimestamp ts).is_evictable_ = n.is_evictable_ := rfl

theorem replacerWF_fresh (nf k : Nat) : ReplacerWF nf k (LRUKReplacer.new nf k) where
  size_eq := rfl
  k_eq := rfl
  nodup := by simp [LRUKReplacer.new]
  node_ok := by simp [LRUKReplacer.new]
  curr_size := by simp [LRUKReplacer.new, evictableCount]

theorem replacerWF_count_le {nf k : Nat} {r : LRUKReplacer} (h : ReplacerWF nf k r) :
    evictableCount r.node_store_ ≤ nf :=
  le_trans (List.countP_le_length _)
    (store_length_le h.nodup (fun e he => ⟨(h.node_ok e he).2.2.1, (h.node_ok e he).2.2.2⟩))

theorem replacerWF_recordAccess {nf k : Nat} {r : LRUKReplacer} (h : ReplacerWF nf k r)
    {f : Int} (hf : FrameIdRepr f) {r' : LRUKReplacer}
    (hs : (r.RecordAccess f).state? = some r') : ReplacerWF nf k r' := by
  unfold LRUKReplacer.RecordAccess at hs
  by_cases hrange : toSizeT f ≥ r.replacer_size_
  · simp [hrange, Outcome.state?] at hs
    subst hs
    exact h
  · rw [if_neg hrange] at hs
    have hlt : toSizeT f < nf := by rw [← h.size_eq]; omega
    cases hfind : mapFind r.node_store_ f with
    | none =>
        simp only [hfind, Outcome.state?, Option.some.injEq] at hs
        subst hs
        refine ⟨h.size_eq, h.k_eq, ?_, ?_, ?_⟩
        · simp only [List.map_cons, List.nodup_cons]
          refine ⟨?_, h.nodup⟩
          intro hmem
          obtain ⟨e, he, hef⟩ := List.mem_map.mp hmem
          exact (mapFind_eq_none_iff _ _).mp hfind e he hef
        · intro e he
          rcases List.mem_cons.mp he with he | he
          · subst he
            exact ⟨rfl, h.k_eq, hlt, hf⟩
          · exact h.node_ok e he
        · simp only [evictableCount, List.countP_cons, PushTimestamp_evictable]
          simpa [LRUKNode.new, evictableCount] using h.curr_size
    | some n =>
        simp only [hfind, Outcome.state?, Option.some.injEq] at hs
        subst hs
        have hmem := mem_of_mapFind_eq_some hfind
        refine ⟨h.size_eq, h.k_eq, nodup_keys_mapSet h.nodup _ _, ?_, ?_⟩
        · intro e he
          rcases mem_mapSet_subset _ _ _ _ he with he | he
          · subst he
            have := h.node_ok _ hmem
            exact ⟨this.1, this.2.1, this.2.2.1, this.2.2.2⟩
          · exact h.node_ok e he
        · have := countP_mapSet_of_mem (fun e : Int × LRUKNode => e.2.is_evictable_) hfind
            (n.PushTimestamp (sizeInc r.current_timestamp_))
          simp only [PushTimestamp_evictable] at this
          simp only [evictableCount]
          have h2 := h.curr_size
          simp only [evictableCount] at h2
          omega

theorem replacerWF_setEvictable {nf k : Nat} (hnf : nf < SIZE_T_MOD) {r : LRUKReplacer}
    (h : ReplacerWF nf k r) {f : Int} {b : Bool} {r' : LRUKReplacer}
    (hs : (r.SetEvictable f b).state? = some r') : ReplacerWF nf k r' := by
  unfold LRUKReplacer.SetEvictable at hs
  by_cases hrange : toSizeT f ≥ r.replacer_size_
  · simp [hrange, Outcome.state?] at hs
    subst hs
    exact h
  · rw [if_neg hrange] at hs
    cases hfind : mapFind r.node_store_ f with
    | none =>
        simp only [hfind, Outcome.state?, Option.some.injEq] at hs
        subst hs
        exact h
    | some n =>
        simp only [hfind] at hs
        by_cases hsame : n.is_evictable_ = b
        · simp only [hsame, if_true, Outcome.state?, Option.some.injEq] at hs
          subst hs
          exact h
        · rw [if_neg hsame] at hs
          simp only [Outcome.state?, Option.some.injEq] at hs
          subst hs
          have hmem := mem_of_mapFind_eq_some hfind
          refine ⟨h.size_eq, h.k_eq, nodup_keys_mapSet h.nodup _ _, ?_, ?_⟩
          · intro e he
            rcases mem_mapSet_subset _ _ _ _ he with he | he
            · subst he
              have := h.node_ok _ hmem
              exact ⟨this.1, this.2.1, this.2.2.1, this.2.2.2⟩
            · exact h.node_ok e he
          · have hc := countP_mapSet_of_mem (fun e : Int × LRUKNode => e.2.is_evictable_) hfind
              { n with is_evictable_ := b }
            have h2 := h.curr_size
            have h3 := replacerWF_count_le h
            have h4 : (mapSet r.node_store_ f { n with is_evictable_ := b }).countP
                (fun e : Int × LRUKNode => e.2.is_evictable_) ≤ nf := by
              refine le_trans (List.countP_le_length _) ?_
              rw [length_mapSet_of_mem hfind]
              exact store_length_le h.nodup
                (fun e he => ⟨(h.node_ok e he).2.2.1, (h.node_ok e he).2.2.2⟩)
            simp only [evictableCount] at h2 h3 ⊢
            cases b with
            | true =>
                have hn : n.is_evictable_ = false := by simpa using hsame
                simp only [hn, if_true] at hc ⊢
                simp at hc
                rw [sizeInc_eq (by omega)]
                omega
            | false =>
                have hn : n.is_evictable_ = true := by simpa using hsame
                simp only [hn, if_true] at hc ⊢
                simp at hc
                simp only [Bool.false_eq_true, if_false]
                rw [sizeDec_eq (by omega) (by omega)]
                omega

theorem replacerWF_remove {nf k : Nat} (hnf : nf < SIZE_T_MOD) {r : LRUKReplacer}
    (h : ReplacerWF nf k r) {f : Int} {r' : LRUKReplacer}
    (hs : (r.Remove f).state? = some r') : ReplacerWF nf k r' := by
  unfold LRUKReplacer.Remove at hs
  by_cases hrange : toSizeT f ≥ r.replacer_size_
  · simp [hrange, Outcome.state?] at hs
    subst hs
    exact h
  · rw [if_neg hrange] at hs
    cases hfind : mapFind r.node_store_ f with
    | none =>
        simp only [hfind, Outcome.state?, Option.some.injEq] at hs
        subst hs
        exact h
    | some n =>
        simp only [hfind] at hs
        by_cases hev : n.is_evictable_ = true
        · simp only [hev, if_true, Outcome.state?, Option.some.injEq] at hs
          subst hs
          have hmem := mem_of_mapFind_eq_some hfind
          refine ⟨h.size_eq, h.k_eq, nodup_keys_mapErase h.nodup _, ?_, ?_⟩
          · intro e he
            exact h.node_ok e ((mem_mapErase _ _ _).mp he).1
          · have hc := countP_mapErase_of_mem (fun e : Int × LRUKNode => e.2.is_evictable_)
              h.nodup hmem
            have h2 := h.curr_size
            have h3 := replacerWF_count_le h
            simp only [evictableCount] at h2 h3 ⊢
            simp only [hev, if_true] at hc
            rw [sizeDec_eq (by omega) (by omega)]
            omega
        · rw [if_neg hev] at hs
          simp only [Outcome.state?, Option.some.injEq] at hs
          subst hs
          exact h

theorem replacerWF_evict {nf k : Nat} (hnf : nf < SIZE_T_MOD) {r : LRUKReplacer}
    (h : ReplacerWF nf k r) {r' : LRUKReplacer}
    (hs : r.Evict.state? = some r') : ReplacerWF nf k r' := by
  unfold LRUKReplacer.Evict at hs
  cases hloop : evictLoop r.k_ EvictScan.init r.node_store_ with
  | none => simp [hloop, Outcome.state?] at hs
  | some st =>
      simp only [hloop] at hs
      by_cases hid : st.id = -1
      · simp only [hid, if_true, Outcome.state?, Option.some.injEq] at hs
        subst hs
        exact h
      · rw [if_neg hid] at hs
        simp only [Outcome.state?, Option.some.injEq] at hs
        subst hs
        rcases evictLoop_id _ hloop with h1 | ⟨e, he, hev, hfid⟩
        · exact absurd h1 hid
        · have hkey : e.1 = st.id := by rw [← hfid]; exact (h.node_ok e he).1.symm
          have hmem : (st.id, e.2) ∈ r.node_store_ := by rw [← hkey]; exact he
          refine ⟨h.size_eq, h.k_eq, nodup_keys_mapErase h.nodup _, ?_, ?_⟩
          · intro e' he'
            exact h.node_ok e' ((mem_mapErase _ _ _).mp he').1
          · have hc := countP_mapErase_of_mem (fun e : Int × LRUKNode => e.2.is_evictable_)
              h.nodup hmem
            have h2 := h.curr_size
            have h3 := replacerWF_count_le h
            simp only [evictableCount] at h2 h3 ⊢
            simp only [hev, if_true] at hc
            rw [sizeDec_eq (by omega) (by omega)]
            omega

theorem replacerWF_step {nf k : Nat} (hnf : nf < SIZE_T_MOD) {r : LRUKReplacer}
    (h : ReplacerWF nf k r) {op : ReplacerOp} (hop : op.Representable) {r' : LRUKReplacer}
    (hs : r.step op = some r') : ReplacerWF nf k r' := by
  cases op with
  | recordAccess f => exact replacerWF_recordAccess h hop hs
  | setEvictable f b => exact replacerWF_setEvictable hnf h hs
  | evict => exact replacerWF_evict hnf h hs
  | remove f => exact replacerWF_remove hnf h hs

theorem replacerWF_run {nf k : Nat} (hnf : nf < SIZE_T_MOD) (ops : List ReplacerOp)
    {r : LRUKReplacer} (h : ReplacerWF nf k r) (hops : ∀ op ∈ ops, op.Representable)
    {r' : LRUKReplacer} (hs : r.run ops = some r') : ReplacerWF nf k r' := by
  induction ops generalizing r with
  | nil =>
      simp only [LRUKReplacer.run, Option.some.injEq] at hs
      subst hs
      exact h
  | cons op ops ih =>
      simp only [LRUKReplacer.run] at hs
      cases hstep : r.step op with
      | none => simp [hstep] at hs
      | some r1 =>
          simp only [hstep] at hs
          exact ih (replacerWF_step hnf h (hops op (List.mem_cons_self _ _)) hstep)
            (fun o ho => hops o (List.mem_cons_of_mem _ ho)) hs

theorem replacerReachable_wf {nf k : Nat} (hnf : nf < SIZE_T_MOD) {r : LRUKReplacer}
    (h : ReplacerReachable nf k r) : ReplacerWF nf k r := by
  obtain ⟨ops, hops, hrun⟩ := h
  exact replacerWF_run hnf ops (replacerWF_fresh nf k) hops hrun

end ReplacerWFSteps

section ReplacerTimedSteps

theorem replacerTimed_fresh (k : Nat) (nf : Nat) : ReplacerTimed k 0 (LRUKReplacer.new nf k) where
  clock_le := by simp [LRUKReplacer.new]
  hist_ok := by simp [LRUKReplacer.new]
  disjoint := by simp [LRUKReplacer.new]

theorem replacerTimed_mono {k n m : Nat} {r : LRUKReplacer} (h : ReplacerTimed k n r)
    (hnm : n ≤ m) : ReplacerTimed k m r :=
  ⟨le_trans h.clock_le hnm, h.hist_ok, h.disjoint⟩

/-- The timestamp invariant survives a change of the node store that keeps the
clock and only drops nodes or changes flags. -/
theorem replacerTimed_of_same_histories {k n : Nat} {r r' : LRUKReplacer}
    (h : ReplacerTimed k n r) (hclock : r'.current_timestamp_ = r.current_timestamp_)
    (hsub : ∀ e' ∈ r'.node_store_, ∃ e ∈ r.node_store_,
      e.1 = e'.1 ∧ e.2.history_ = e'.2.history_) : ReplacerTimed k n r' := by
  refine ⟨by rw [hclock]; exact h.clock_le, ?_, ?_⟩
  · intro e' he'
    obtain ⟨e, he, _, hh⟩ := hsub e' he'
    rw [← hh, hclock]
    exact h.hist_ok e he
  · intro e1' he1' e2' he2' hne t ht
    obtain ⟨e1, he1, hk1, hh1⟩ := hsub e1' he1'
    obtain ⟨e2, he2, hk2, hh2⟩ := hsub e2' he2'
    rw [← hh2]
    rw [← hh1] at ht
    exact h.disjoint e1 he1 e2 he2 (by rw [hk1, hk2]; exact hne) t ht

theorem PushTimestamp_history_ne_nil (n : LRUKNode) (ts : Nat) (hk : 1 ≤ n.k_) :
    (n.PushTimestamp ts).history_ ≠ [] := by
  unfold LRUKNode.PushTimestamp
  simp only
  split
  · rename_i hlen
    cases hh : n.history_ with
    | nil => simp [hh] at hlen; omega
    | cons a t => simp
  · simp

theorem PushTimestamp_history_length (n : LRUKNode) (ts : Nat)
    (hlen : n.history_.length ≤ n.k_) : (n.PushTimestamp ts).history_.length ≤ n.k_ := by
  unfold LRUKNode.PushTimestamp
  simp only
  split
  · simp
    omega
  · rename_i h
    simpa using h

theorem PushTimestamp_history_mem (n : LRUKNode) (ts t : Nat)
    (h : t ∈ (n.PushTimestamp ts).history_) : t ∈ n.history_ ∨ t = ts := by
  unfold LRUKNode.PushTimestamp at h
  simp only at h
  split at h
  · have := List.mem_of_mem_tail h
    simpa using this
  · simpa using h

theorem replacerTimed_recordAccess {nf k n : Nat} (hk : 1 ≤ k) (hn : n + 1 < SIZE_T_MOD)
    {r : LRUKReplacer} (hwf : ReplacerWF nf k r) (h : ReplacerTimed k n r)
    {f : Int} {r' : LRUKReplacer}
    (hs : (r.RecordAccess f).state? = some r') : ReplacerTimed k (n + 1) r' := by
  unfold LRUKReplacer.RecordAccess at hs
  by_cases hrange : toSizeT f ≥ r.replacer_size_
  · simp [hrange, Outcome.state?] at hs
    subst hs
    exact replacerTimed_mono h (Nat.le_succ n)
  · rw [if_neg hrange] at hs
    have hclk := h.clock_le
    have hts : sizeInc r.current_timestamp_ = r.current_timestamp_ + 1 :=
      sizeInc_eq (by omega)
    cases hfind : mapFind r.node_store_ f with
    | none =>
        simp only [hfind, Outcome.state?, Option.some.injEq] at hs
        subst hs
        have hnew : ((LRUKNode.new r.k_ f).PushTimestamp (r.current_timestamp_ + 1)).history_
            = [r.current_timestamp_ + 1] := by
          have : ¬ (1 > r.k_) := by rw [hwf.k_eq]; omega
          simp [LRUKNode.PushTimestamp, LRUKNode.new, this]
        refine ⟨by simp only [hts]; omega, ?_, ?_⟩
        · intro e he
          simp only [hts] at he ⊢
          rcases List.mem_cons.mp he with he | he
          · subst he
            simp only [hnew]
            refine ⟨by simp, by simpa using hk, by simp⟩
          · obtain ⟨h1, h2, h3⟩ := h.hist_ok e he
            exact ⟨h1, h2, fun t ht => le_trans (h3 t ht) (Nat.le_succ _)⟩
        · intro e1 he1 e2 he2 hne t ht
          simp only [hts] at he1 he2
          rcases List.mem_cons.mp he1 with he1 | he1 <;> rcases List.mem_cons.mp he2 with he2 | he2
          · subst he1; subst he2; exact absurd rfl hne
          · subst he1
            simp only [hnew, List.mem_singleton] at ht
            subst ht
            intro hmem
            have := (h.hist_ok e2 he2).2.2 _ hmem
            omega
          · subst he2
            simp only [hnew, List.mem_singleton]
            intro heq
            have := (h.hist_ok e1 he1).2.2 _ ht
            omega
          · exact h.disjoint e1 he1 e2 he2 hne t ht
    | some nd =>
        simp only [hfind, Outcome.state?, Option.some.injEq] at hs
        subst hs
        have hmem := mem_of_mapFind_eq_some hfind
        have hndk : nd.k_ = k := (hwf.node_ok _ hmem).2.1
        obtain ⟨hnd1, hnd2, hnd3⟩ := h.hist_ok _ hmem
        simp only at hnd1 hnd2 hnd3
        refine ⟨by simp only [hts]; omega, ?_, ?_⟩
        · intro e he
          simp only [hts] at he ⊢
          rcases (mem_mapSet_of_nodup hwf.nodup _ _ _).mp he with he | ⟨he, _⟩
          · subst he
            refine ⟨PushTimestamp_history_ne_nil _ _ (by rw [hndk]; exact hk), ?_, ?_⟩
            · have := PushTimestamp_history_length nd (r.current_timestamp_ + 1)
                (by rw [hndk]; exact hnd2)
              rw [hndk] at this
              exact this
            · intro t ht
              rcases PushTimestamp_history_mem _ _ _ ht with ht | ht
              · exact le_trans (hnd3 t ht) (Nat.le_succ _)
              · omega
          · obtain ⟨h1, h2, h3⟩ := h.hist_ok e he
            exact ⟨h1, h2, fun t ht => le_trans (h3 t ht) (Nat.le_succ _)⟩
        · intro e1 he1 e2 he2 hne t ht
          simp only [hts] at he1 he2
          rcases (mem_mapSet_of_nodup hwf.nodup _ _ _).mp he1 with he1 | ⟨he1, hk1⟩ <;>
            rcases (mem_mapSet_of_nodup hwf.nodup _ _ _).mp he2 with he2 | ⟨he2, hk2⟩
          · subst he1; subst he2; exact absurd rfl hne
          · subst he1
            rcases PushTimestamp_history_mem _ _ _ ht with ht | ht
            · exact h.disjoint _ hmem e2 he2 (fun e => hk2 e.symm) t ht
            · subst ht
              intro hmem2
              have := (h.hist_ok e2 he2).2.2 _ hmem2
              omega
          · subst he2
            intro hmem2
            rcases PushTimestamp_history_mem _ _ _ hmem2 with hm | hm
            · exact h.disjoint e1 he1 _ hmem hk1 t ht hm
            · have := (h.hist_ok e1 he1).2.2 _ ht
              omega
          · exact h.disjoint e1 he1 e2 he2 hne t ht

theorem replacerTimed_setEvictable {k n : Nat} {r : LRUKReplacer} (h : ReplacerTimed k n r)
    {f : Int} {b : Bool} {r' : LRUKReplacer}
    (hs : (r.SetEvictable f b).state? = some r') : ReplacerTimed k n r' := by
  unfold LRUKReplacer.SetEvictable at hs
  by_cases hrange : toSizeT f ≥ r.replacer_size_
  · simp [hrange, Outcome.state?] at hs
    subst hs
    exact h
  · rw [if_neg hrange] at hs
    cases hfind : mapFind r.node_store_ f with
    | none =>
        simp only [hfind, Outcome.state?, Option.some.injEq] at hs
        subst hs
        exact h
    | some nd =>
        simp only [hfind] at hs
        by_cases hsame : nd.is_evictable_ = b
        · simp only [hsame, if_true, Outcome.state?, Option.some.injEq] at hs
          subst hs
          exact h
        · rw [if_neg hsame] at hs
          simp only [Outcome.state?, Option.some.injEq] at hs
          subst hs
          refine replacerTimed_of_same_histories h rfl ?_
          intro e' he'
          rcases mem_mapSet_subset _ _ _ _ he' with he' | he'
          · subst he'
            exact ⟨_, mem_of_mapFind_eq_some hfind, rfl, rfl⟩
          · exact ⟨e', he', rfl, rfl⟩

theorem replacerTimed_remove {k n : Nat} {r : LRUKReplacer} (h : ReplacerTimed k n r)
    {f : Int} {r' : LRUKReplacer}
    (hs : (r.Remove f).state? = some r') : ReplacerTimed k n r' := by
  unfold LRUKReplacer.Remove at hs
  by_cases hrange : toSizeT f ≥ r.replacer_size_
  · simp [hrange, Outcome.state?] at hs
    subst hs
    exact h
  · rw [if_neg hrange] at hs
    cases hfind : mapFind r.node_store_ f with
    | none =>
        simp only [hfind, Outcome.state?, Option.some.injEq] at hs
        subst hs
        exact h
    | some nd =>
        simp only [hfind] at hs
        by_cases hev : nd.is_evictable_ = true
        · simp only [hev, if_true, Outcome.state?, Option.some.injEq] at hs
          subst hs
          refine replacerTimed_of_same_histories h rfl ?_
          intro e' he'
          exact ⟨e', ((mem_mapErase _ _ _).mp he').1, rfl, rfl⟩
        · rw [if_neg hev] at hs
          simp only [Outcome.state?, Option.some.injEq] at hs
          subst hs
          exact h

theorem replacerTimed_evict {k n : Nat} {r : LRUKReplacer} (h : ReplacerTimed k n r)
    {r' : LRUKReplacer} (hs : r.Evict.state? = some r') : ReplacerTimed k n r' := by
  unfold LRUKReplacer.Evict at hs
  cases hloop : evictLoop r.k_ EvictScan.init r.node_store_ with
  | none => simp [hloop, Outcome.state?] at hs
  | some st =>
      simp only [hloop] at hs
      by_cases hid : st.id = -1
      · simp only [hid, if_true, Outcome.state?, Option.some.injEq] at hs
        subst hs
        exact h
      · rw [if_neg hid] at hs
        simp only [Outcome.state?, Option.some.injEq] at hs
        subst hs
        refine replacerTimed_of_same_histories h rfl ?_
        intro e' he'
        exact ⟨e', ((mem_mapErase _ _ _).mp he').1, rfl, rfl⟩

/-- Both invariants hold after any run whose number of `RecordAccess` calls
stays below the range of `size_t`. -/
theorem replacer_invariants_run {nf k : Nat} (hnf : nf < SIZE_T_MOD) (hk : 1 ≤ k)
    (ops : List ReplacerOp) {n : Nat} {r : LRUKReplacer}
    (hwf : ReplacerWF nf k r) (ht : ReplacerTimed k n r)
    (hops : ∀ op ∈ ops, op.Representable) (hcount : n + recordCount ops < SIZE_T_MOD)
    {r' : LRUKReplacer} (hs : r.run ops = some r') :
    ReplacerWF nf k r' ∧ ReplacerTimed k (n + recordCount ops) r' := by
  induction ops generalizing r n with
  | nil =>
      simp only [LRUKReplacer.run, Option.some.injEq] at hs
      subst hs
      exact ⟨hwf, by simpa [recordCount] using ht⟩
  | cons op ops ih =>
      simp only [LRUKReplacer.run] at hs
      cases hstep : r.step op with
      | none => simp [hstep] at hs
      | some r1 =>
          simp only [hstep] at hs
          have hwf1 := replacerWF_step hnf hwf (hops op (List.mem_cons_self _ _)) hstep
          have hops' : ∀ o ∈ ops, o.Representable := fun o ho => hops o (List.mem_cons_of_mem _ ho)
          cases op with
          | recordAccess f =>
              simp only [recordCount] at hcount ⊢
              have ht1 : ReplacerTimed k (n + 1) r1 :=
                replacerTimed_recordAccess hk (by omega) hwf ht hstep
              have := ih hwf1 ht1 hops' (by omega) hs
              rw [show n + (recordCount ops + 1) = n + 1 + recordCount ops by omega]
              exact this
          | setEvictable f b =>
              simp only [recordCount] at hcount ⊢
              exact ih hwf1 (replacerTimed_setEvictable ht hstep) hops' hcount hs
          | evict =>
              simp only [recordCount] at hcount ⊢
              exact ih hwf1 (replacerTimed_evict ht hstep) hops' hcount hs
          | remove f =>
              simp only [recordCount] at hcount ⊢
              exact ih hwf1 (replacerTimed_remove ht hstep) hops' hcount hs

end ReplacerTimedSteps

section EvictScanLemmas

theorem evictVisit_not_evictable (k : Nat) (st : EvictScan) {n : LRUKNode}
    (hev : n.is_evictable_ = false) : evictVisit k st n = some st := by
  simp [evictVisit, hev]

theorem evictVisit_mature_skip (k : Nat) {st : EvictScan} {n : LRUKNode}
    (hev : n.is_evictable_ = true) (hlen : ¬ n.history_.length < k)
    (hltk : st.less_than_k = true) : evictVisit k st n = some st := by
  have : n.history_.length ≥ k := by omega
  simp [evictVisit, hev, this, hltk]

theorem evictVisit_mature (k : Nat) {st : EvictScan} {n : LRUKNode} {t : Nat}
    (hev : n.is_evictable_ = true) (hlen : ¬ n.history_.length < k)
    (hltk : st.less_than_k = false) (hhead : n.history_.head? = some t) :
    evictVisit k st n =
      some (if t < st.oldest then { st with oldest := t, id := n.fid_ } else st) := by
  have : n.history_.length ≥ k := by omega
  simp only [evictVisit, hev, this, hltk, evictCompare, hhead]
  simp
  split <;> rfl

theorem evictVisit_young_first (k : Nat) {st : EvictScan} {n : LRUKNode} {t : Nat}
    (hev : n.is_evictable_ = true) (hlen : n.history_.length < k)
    (hltk : st.less_than_k = false) (hhead : n.history_.head? = some t) :
    evictVisit k st n =
      some (if t < OLDEST_INIT then { less_than_k := true, oldest := t, id := n.fid_ }
            else { less_than_k := true, oldest := OLDEST_INIT, id := st.id }) := by
  have : ¬ n.history_.length ≥ k := by omega
  simp only [evictVisit, hev, this, hltk, evictCompare, hhead]
  simp
  split <;> rfl

theorem evictVisit_young (k : Nat) {st : EvictScan} {n : LRUKNode} {t : Nat}
    (hev : n.is_evictable_ = true) (hlen : n.history_.length < k)
    (hltk : st.less_than_k = true) (hhead : n.history_.head? = some t) :
    evictVisit k st n =
      some (if t < st.oldest then { st with oldest := t, id := n.fid_ } else st) := by
  have : ¬ n.history_.length ≥ k := by omega
  simp only [evictVisit, hev, this, hltk, evictCompare, hhead]
  simp
  split
  · rw [hltk]
  · rfl

theorem evictSummary_nil (k : Nat) : EvictSummary k [] EvictScan.init :=
  ⟨fun _ => rfl, fun ⟨_, he, _⟩ => absurd he (List.not_mem_nil _)⟩

theorem evictSummary_visit {k : Nat} {seen : List (Int × LRUKNode)} {st : EvictScan}
    (hsum : EvictSummary k seen st) (x : Int × LRUKNode)
    (hx : x.2.is_evictable_ = true → ∃ t, x.2.history_.head? = some t ∧ t < OLDEST_INIT) :
    ∃ st', evictVisit k st x.2 = some st' ∧ EvictSummary k (seen ++ [x]) st' := by
  by_cases hev : x.2.is_evictable_ = true
  swap
  · -- the node is skipped
    have hev' : x.2.is_evictable_ = false := by simpa using hev
    refine ⟨st, evictVisit_not_evictable k st hev', ?_, ?_⟩
    · intro hall
      exact hsum.1 (fun e he => hall e (List.mem_append_left _ he))
    · rintro ⟨e0, he0, hev0⟩
      have he0' : e0 ∈ seen := by
        rcases List.mem_append.mp he0 with h | h
        · exact h
        · simp only [List.mem_singleton] at h
          subst h
          exact absurd hev0 hev
      obtain ⟨e, he, h1, h2, h3, h4, h5, h6⟩ := hsum.2 ⟨e0, he0', hev0⟩
      refine ⟨e, List.mem_append_left _ he, h1, h2, h3, h4, ?_, ?_⟩
      · intro e' he' hev1 hcomp
        rcases List.mem_append.mp he' with h | h
        · exact h5 e' h hev1 hcomp
        · simp only [List.mem_singleton] at h
          subst h
          exact absurd hev1 hev
      · intro hm e' he' hev1
        rcases List.mem_append.mp he' with h | h
        · exact h6 hm e' h hev1
        · simp only [List.mem_singleton] at h
          subst h
          exact absurd hev1 hev
  · obtain ⟨t, hhead, htlt⟩ := hx hev
    have hxmem : x ∈ seen ++ [x] := List.mem_append_right _ (List.mem_singleton_self x)
    by_cases hseen : ∃ e ∈ seen, e.2.is_evictable_ = true
    swap
    · -- first evictable node
      have hinit : st = EvictScan.init := by
        apply hsum.1
        intro e he
        by_contra hne
        exact hseen ⟨e, he, by simpa using hne⟩
      subst hinit
      have honly : ∀ e' ∈ seen ++ [x], e'.2.is_evictable_ = true → e' = x := by
        intro e' he' hev1
        rcases List.mem_append.mp he' with h | h
        · exact absurd ⟨e', h, hev1⟩ hseen
        · simpa using h
      by_cases hy : x.2.history_.length < k
      · refine ⟨_, evictVisit_young_first k hev hy rfl hhead, ?_, ?_⟩
        · intro hall
          rw [hall x hxmem] at hev
          exact absurd hev (by simp)
        · intro _
          rw [if_pos htlt]
          refine ⟨x, hxmem, hev, rfl, hhead, by simp [hy], ?_, ?_⟩
          · intro e' he' hev1 _
            rw [honly e' he' hev1]
            exact ⟨t, hhead, le_refl _⟩
          · intro hm
            exact absurd hy hm
      · refine ⟨_, evictVisit_mature k hev hy rfl hhead, ?_, ?_⟩
        · intro hall
          rw [hall x hxmem] at hev
          exact absurd hev (by simp)
        · intro _
          have : t < EvictScan.init.oldest := htlt
          rw [if_pos this]
          refine ⟨x, hxmem, hev, rfl, hhead, by simp [EvictScan.init, hy], ?_, ?_⟩
          · intro e' he' hev1 _
            rw [honly e' he' hev1]
            exact ⟨t, hhead, le_refl _⟩
          · intro _ e' he' hev1
            rw [honly e' he' hev1]
            exact hy
    · obtain ⟨e, he, h1, h2, h3, h4, h5, h6⟩ := hsum.2 hseen
      have hnotall : ¬ ∀ e ∈ seen ++ [x], e.2.is_evictable_ = false := by
        intro hall
        rw [hall x hxmem] at hev
        exact absurd hev (by simp)
      by_cases hy : x.2.history_.length < k
      · by_cases hey : e.2.history_.length < k
        · -- both young
          have hltk : st.less_than_k = true := by rw [h4]; simp [hey]
          refine ⟨_, evictVisit_young k hev hy hltk hhead, fun hall => absurd hall hnotall, ?_⟩
          intro _
          by_cases hlt : t < st.oldest
          · rw [if_pos hlt]
            refine ⟨x, hxmem, hev, rfl, hhead, by simp [hltk, hy], ?_, ?_⟩
            · intro e' he' hev1 hcomp
              rcases List.mem_append.mp he' with h | h
              · have hy' : e'.2.history_.length < k := by
                  rcases hcomp with h' | h'
                  · exact h'
                  · exact absurd hy h'
                obtain ⟨t', ht', hle⟩ := h5 e' h hev1 (Or.inl hy')
                exact ⟨t', ht', by simp only; omega⟩
              · simp only [List.mem_singleton] at h
                subst h
                exact ⟨t, hhead, le_refl _⟩
            · intro hm
              exact absurd hy hm
          · rw [if_neg hlt]
            refine ⟨e, List.mem_append_left _ he, h1, h2, h3, h4, ?_, ?_⟩
            · intro e' he' hev1 hcomp
              rcases List.mem_append.mp he' with h | h
              · exact h5 e' h hev1 hcomp
              · simp only [List.mem_singleton] at h
                subst h
                exact ⟨t, hhead, by omega⟩
            · intro hm
              exact absurd hey hm
        · -- a young node after mature ones
          have hltk : st.less_than_k = false := by rw [h4]; simp [hey]
          refine ⟨_, evictVisit_young_first k hev hy hltk hhead,
            fun hall => absurd hall hnotall, ?_⟩
          intro _
          rw [if_pos htlt]
          refine ⟨x, hxmem, hev, rfl, hhead, by simp [hy], ?_, ?_⟩
          · intro e' he' hev1 hcomp
            rcases List.mem_append.mp he' with h | h
            · have hy' : e'.2.history_.length < k := by
                rcases hcomp with h' | h'
                · exact h'
                · exact absurd hy h'
              exact absurd hy' (h6 hey e' h hev1)
            · simp only [List.mem_singleton] at h
              subst h
              exact ⟨t, hhead, le_refl _⟩
          · intro hm
            exact absurd hy hm
      · by_cases hey : e.2.history_.length < k
        · -- a mature node after a young one
          have hltk : st.less_than_k = true := by rw [h4]; simp [hey]
          refine ⟨_, evictVisit_mature_skip k hev hy hltk, fun hall => absurd hall hnotall, ?_⟩
          intro _
          refine ⟨e, List.mem_append_left _ he, h1, h2, h3, h4, ?_, ?_⟩
          · intro e' he' hev1 hcomp
            rcases List.mem_append.mp he' with h | h
            · exact h5 e' h hev1 hcomp
            · simp only [List.mem_singleton] at h
              subst h
              rcases hcomp with h' | h'
              · exact absurd h' hy
              · exact absurd hey h'
          · intro hm
            exact absurd hey hm
        · -- both mature
          have hltk : st.less_than_k = false := by rw [h4]; simp [hey]
          refine ⟨_, evictVisit_mature k hev hy hltk hhead, fun hall => absurd hall hnotall, ?_⟩
          intro _
          by_cases hlt : t < st.oldest
          · rw [if_pos hlt]
            refine ⟨x, hxmem, hev, rfl, hhead, by simp [hltk, hy], ?_, ?_⟩
            · intro e' he' hev1 _
              rcases List.mem_append.mp he' with h | h
              · obtain ⟨t', ht', hle⟩ := h5 e' h hev1 (Or.inr hey)
                exact ⟨t', ht', by simp only; omega⟩
              · simp only [List.mem_singleton] at h
                subst h
                exact ⟨t, hhead, le_refl _⟩
            · intro _ e' he' hev1
              rcases List.mem_append.mp he' with h | h
              · exact h6 hey e' h hev1
              · simp only [List.mem_singleton] at h
                subst h
                exact hy
          · rw [if_neg hlt]
            refine ⟨e, List.mem_append_left _ he, h1, h2, h3, h4, ?_, ?_⟩
            · intro e' he' hev1 hcomp
              rcases List.mem_append.mp he' with h | h
              · exact h5 e' h hev1 hcomp
              · simp only [List.mem_singleton] at h
                subst h
                exact ⟨t, hhead, by omega⟩
            · intro hm e' he' hev1
              rcases List.mem_append.mp he' with h | h
              · exact h6 hm e' h hev1
              · simp only [List.mem_singleton] at h
                subst h
                exact hy

theorem evictSummary_loop {k : Nat} (l : List (Int × LRUKNode))
    {seen : List (Int × LRUKNode)} {st : EvictScan} (hsum : EvictSummary k seen st)
    (hl : ∀ x ∈ l, x.2.is_evictable_ = true →
      ∃ t, x.2.history_.head? = some t ∧ t < OLDEST_INIT) :
    ∃ st', evictLoop k st l = some st' ∧ EvictSummary k (seen ++ l) st' := by
  induction l generalizing seen st with
  | nil => exact ⟨st, rfl, by simpa using hsum⟩
  | cons x rest ih =>
      obtain ⟨st1, hv, hsum1⟩ := evictSummary_visit hsum x (hl x (List.mem_cons_self _ _))
      obtain ⟨st', hloop, hsum'⟩ := ih hsum1 (fun y hy => hl y (List.mem_cons_of_mem _ hy))
      refine ⟨st', ?_, ?_⟩
      · simp only [evictLoop, hv]
        exact hloop
      · simpa using hsum'

end EvictScanLemmas

section EvictTheorem

theorem mem_of_head?_eq_some {l : List Nat} {t : Nat} (h : l.head? = some t) : t ∈ l := by
  cases l with
  | nil => simp at h
  | cons a rest =>
      simp only [List.head?_cons, Option.some.injEq] at h
      subst h
      exact List.mem_cons_self _ _

/-- The loop of `Evict` over any ordering `store` of the nodes of a state that
satisfies the invariants. -/
theorem evict_core {nf k n : Nat} (hnf : nf < SIZE_T_MOD) (hn : n < OLDEST_INIT)
    {r : LRUKReplacer} (hwf : ReplacerWF nf k r) (ht : ReplacerTimed k n r)
    {store : List (Int × LRUKNode)} (hperm : store.Perm r.node_store_) :
    ∃ r' res, LRUKReplacer.Evict { r with node_store_ := store } = .ret r' res ∧
      (res = none ↔ ∀ e ∈ r.node_store_, e.2.is_evictable_ = false) ∧
      (∀ f, res = some f → IsLRUKVictim k r.node_store_ f) := by
  have hmem : ∀ e, e ∈ store ↔ e ∈ r.node_store_ := fun e => hperm.mem_iff
  have hgood : ∀ x ∈ store, x.2.is_evictable_ = true →
      ∃ t, x.2.history_.head? = some t ∧ t < OLDEST_INIT := by
    intro x hx _
    obtain ⟨h1, _, h3⟩ := ht.hist_ok x ((hmem x).mp hx)
    cases hh : x.2.history_ with
    | nil => exact absurd hh h1
    | cons a rest =>
        refine ⟨a, rfl, ?_⟩
        have := h3 a (by rw [hh]; exact List.mem_cons_self _ _)
        have := ht.clock_le
        omega
  obtain ⟨st, hloop, hsum⟩ := evictSummary_loop store (evictSummary_nil k) hgood
  simp only [List.nil_append] at hsum
  by_cases hany : ∃ e ∈ store, e.2.is_evictable_ = true
  swap
  · have hall : ∀ e ∈ store, e.2.is_evictable_ = false := by
      intro e he
      by_contra hne
      exact hany ⟨e, he, by simpa using hne⟩
    have hinit := hsum.1 hall
    subst hinit
    refine ⟨{ r with node_store_ := store }, none, ?_, ?_, ?_⟩
    · simp only [LRUKReplacer.Evict, hwf.k_eq, hloop]
      rfl
    · simp only [true_iff]
      exact fun e he => hall e ((hmem e).mpr he)
    · intro f hf
      simp at hf
  · obtain ⟨e, he, h1, h2, h3, h4, h5, h6⟩ := hsum.2 hany
    have heR := (hmem e).mp he
    obtain ⟨hfid, _, hrange, _⟩ := hwf.node_ok e heR
    have hid : st.id = e.1 := by rw [h2, hfid]
    have hne : st.id ≠ -1 := by rw [hid]; exact toSizeT_ne_neg_one hnf hrange
    refine ⟨{ r with node_store_ := mapErase store e.1, curr_size_ := sizeDec r.curr_size_ },
      some e.1, ?_, ?_, ?_⟩
    · rw [hid] at hne
      simp only [LRUKReplacer.Evict, hwf.k_eq, hloop, hid, if_neg hne]
    · simp only [false_iff, reduceCtorEq]
      intro hall
      rw [hall e heR] at h1
      exact absurd h1 (by simp)
    · intro f hf
      simp only [Option.some.injEq] at hf
      subst hf
      have hstrict : ∀ e' ∈ r.node_store_, e'.2.is_evictable_ = true →
          (e'.2.history_.length < k ∨ ¬ e.2.history_.length < k) → e'.1 ≠ e.1 →
          FrontBefore e.2 e'.2 := by
        intro e' he' hev' hcomp hkey
        obtain ⟨t', ht', hle⟩ := h5 e' ((hmem e').mpr he') hev' hcomp
        refine ⟨st.oldest, t', h3, ht', ?_⟩
        have hdis := ht.disjoint e heR e' he' (fun h => hkey h.symm) st.oldest
          (mem_of_head?_eq_some h3)
        have : st.oldest ≠ t' := by
          intro heq
          rw [heq] at hdis
          exact hdis (mem_of_head?_eq_some ht')
        omega
      refine ⟨e.2, heR, h1, ?_, ?_⟩
      · rintro ⟨y, hy, hyev, hyoung⟩
        have hey : e.2.history_.length < k := by
          by_contra hm
          exact h6 hm y ((hmem y).mpr hy) hyev hyoung
        exact ⟨hey, fun e' he' hev' hy' hkey => hstrict e' he' hev' (Or.inl hy') hkey⟩
      · intro hallk e' he' hev' hkey
        have : ¬ e.2.history_.length < k := by
          rw [hallk e heR h1]
          exact Nat.lt_irrefl k
        exact hstrict e' he' hev' (Or.inr this) hkey

theorem frontBefore_asymm {a b : LRUKNode} (h : FrontBefore a b) : ¬ FrontBefore b a := by
  obtain ⟨ta, tb, h1, h2, h3⟩ := h
  rintro ⟨tb', ta', h4, h5, h6⟩
  rw [h1] at h5
  rw [h2] at h4
  simp only [Option.some.injEq] at h4 h5
  omega

/-- The LRU-K victim of a state satisfying the invariants is unique. -/
theorem lrukVictim_unique {k n : Nat} {r : LRUKReplacer}
    (ht : ReplacerTimed k n r) {f g : Int}
    (hf : IsLRUKVictim k r.node_store_ f) (hg : IsLRUKVictim k r.node_store_ g) : f = g := by
  by_contra hne
  obtain ⟨nf', hfm, hfev, hfy, hfa⟩ := hf
  obtain ⟨ng, hgm, hgev, hgy, hga⟩ := hg
  by_cases hy : ∃ e ∈ r.node_store_, e.2.is_evictable_ = true ∧ e.2.history_.length < k
  · obtain ⟨hf1, hf2⟩ := hfy hy
    obtain ⟨hg1, hg2⟩ := hgy hy
    have h1 := hf2 (g, ng) hgm hgev hg1 (fun h => hne h.symm)
    have h2 := hg2 (f, nf') hfm hfev hf1 hne
    exact frontBefore_asymm h1 h2
  · have hall : ∀ e ∈ r.node_store_, e.2.is_evictable_ = true → e.2.history_.length = k := by
      intro e he hev
      have h1 := (ht.hist_ok e he).2.1
      have h2 : ¬ e.2.history_.length < k := fun h => hy ⟨e, he, hev, h⟩
      omega
    have h1 := hfa hall (g, ng) hgm hgev (fun h => hne h.symm)
    have h2 := hga hall (f, nf') hfm hfev hne
    exact frontBefore_asymm h1 h2

theorem accessedOnly_step (m : Nat) (hlt : m + 1 < SIZE_T_MOD) :
    (accessedOnly m).step (.recordAccess 0) = some (accessedOnly (m + 1)) := by
  have h1 : ¬ toSizeT 0 ≥ 1 := by decide
  simp only [LRUKReplacer.step, LRUKReplacer.RecordAccess, accessedOnly, h1, if_false, mapFind,
    if_true, Outcome.state?, sizeInc_eq hlt, mapSet, LRUKNode.PushTimestamp]
  simp

theorem accessedOnly_run (n m : Nat) (hlt : m + n < SIZE_T_MOD) :
    (accessedOnly m).run (List.replicate n (.recordAccess 0)) = some (accessedOnly (m + n)) := by
  induction n generalizing m with
  | zero => rfl
  | succ n ih =>
      simp only [List.replicate_succ, LRUKReplacer.run, accessedOnly_step m (by omega)]
      rw [ih (m + 1) (by omega)]
      congr 2
      omega

theorem replacer_run_append (r : LRUKReplacer) (ops1 ops2 : List ReplacerOp) :
    r.run (ops1 ++ ops2) = (r.run ops1).bind (fun r1 => r1.run ops2) := by
  induction ops1 generalizing r with
  | nil => rfl
  | cons op ops ih =>
      simp only [List.cons_append, LRUKReplacer.run]
      cases r.step op with
      | none => rfl
      | some r1 => exact ih r1

theorem fresh_run_accesses (m : Nat) (hm : 1 ≤ m) (hlt : m < SIZE_T_MOD) :
    (LRUKReplacer.new 1 1).run (List.replicate m (.recordAccess 0)) = some (accessedOnly m) := by
  obtain ⟨n, rfl⟩ : ∃ n, m = n + 1 := ⟨m - 1, by omega⟩
  have h0 : (LRUKReplacer.new 1 1).step (.recordAccess 0) = some (accessedOnly 1) := by decide
  rw [List.replicate_succ]
  show (match (LRUKReplacer.new 1 1).step (.recordAccess 0) with
    | none => none
    | some r' => r'.run (List.replicate n (.recordAccess 0))) = _
  rw [h0]
  show (accessedOnly 1).run (List.replicate n (.recordAccess 0)) = _
  rw [accessedOnly_run n 1 (by omega)]
  congr 2
  omega

theorem sentinel_run :
    (LRUKReplacer.new 1 1).run
      (List.replicate OLDEST_INIT (.recordAccess 0) ++ [.setEvictable 0 true])
      = some sentinelState := by
  rw [replacer_run_append, fresh_run_accesses OLDEST_INIT (by decide) (by decide)]
  decide

end EvictTheorem

section ReplacerCallLemmas

theorem mapFind_eq_some_iff_mem {β : Type} {m : List (Int × β)}
    (hnd : (m.map Prod.fst).Nodup) (k : Int) (v : β) :
    mapFind m k = some v ↔ (k, v) ∈ m :=
  ⟨mem_of_mapFind_eq_some, mapFind_eq_some_of_mem hnd⟩

/-- `Evict` never throws. -/
theorem evict_no_throw (r s : LRUKReplacer) (msg : String) : r.Evict ≠ .throw s msg := by
  unfold LRUKReplacer.Evict
  cases evictLoop r.k_ EvictScan.init r.node_store_ with
  | none => simp
  | some st =>
      simp only
      split <;> simp

/-- With no evictable node `Evict` returns none and leaves the state as it is. -/
theorem evict_none_of_no_evictable (r : LRUKReplacer)
    (h : ∀ e ∈ r.node_store_, e.2.is_evictable_ = false) : r.Evict = .ret r none := by
  have hloop : ∀ (l : List (Int × LRUKNode)) (st : EvictScan),
      (∀ e ∈ l, e.2.is_evictable_ = false) → evictLoop r.k_ st l = some st := by
    intro l
    induction l with
    | nil => intro st _; rfl
    | cons x rest ih =>
        intro st hl
        simp only [evictLoop, evictVisit_not_evictable r.k_ st (hl x (List.mem_cons_self _ _))]
        exact ih st (fun e he => hl e (List.mem_cons_of_mem _ he))
  unfold LRUKReplacer.Evict
  rw [hloop _ _ h]
  rfl

/-- What a returning `Evict` does to a well-formed replacer. -/
theorem evict_ret_spec {nf k : Nat} {r r' : LRUKReplacer} (hwf : ReplacerWF nf k r)
    {res : Option Int} (h : r.Evict = .ret r' res) :
    (res = none → r' = r) ∧
    (∀ f, res = some f →
      (∃ n, mapFind r.node_store_ f = some n ∧ n.is_evictable_ = true) ∧
      r'.node_store_ = mapErase r.node_store_ f ∧
      r'.replacer_size_ = r.replacer_size_ ∧ r'.k_ = r.k_) := by
  unfold LRUKReplacer.Evict at h
  cases hloop : evictLoop r.k_ EvictScan.init r.node_store_ with
  | none => simp [hloop] at h
  | some st =>
      simp only [hloop] at h
      by_cases hid : st.id = -1
      · simp only [hid, if_true, Outcome.ret.injEq] at h
        obtain ⟨h1, h2⟩ := h
        subst h1 h2
        exact ⟨fun _ => rfl, fun f hf => by simp at hf⟩
      · rw [if_neg hid] at h
        simp only [Outcome.ret.injEq] at h
        obtain ⟨h1, h2⟩ := h
        subst h1 h2
        refine ⟨fun hn => by simp at hn, ?_⟩
        intro f hf
        simp only [Option.some.injEq] at hf
        subst hf
        rcases evictLoop_id _ hloop with h1 | ⟨e, he, hev, hfid⟩
        · exact absurd h1 hid
        · have hkey : e.1 = st.id := by rw [← hfid]; exact (hwf.node_ok e he).1.symm
          refine ⟨⟨e.2, ?_, hev⟩, rfl, rfl, rfl⟩
          apply mapFind_eq_some_of_mem hwf.nodup
          rw [← hkey]
          exact he

/-- `RecordAccess` on a frame id that passes the range check. -/
theorem recordAccess_ret_spec (r : LRUKReplacer) (f : Int)
    (hrange : toSizeT f < r.replacer_size_) :
    ∃ r' n', r.RecordAccess f = .ret r' () ∧
      mapFind r'.node_store_ f = some n' ∧
      (n'.is_evictable_ = match mapFind r.node_store_ f with
        | none => false
        | some n => n.is_evictable_) ∧
      (∀ g, g ≠ f → mapFind r'.node_store_ g = mapFind r.node_store_ g) ∧
      r'.replacer_size_ = r.replacer_size_ := by
  have hr : ¬ toSizeT f ≥ r.replacer_size_ := by omega
  unfold LRUKReplacer.RecordAccess
  rw [if_neg hr]
  cases hfind : mapFind r.node_store_ f with
  | none =>
      refine ⟨_, (LRUKNode.new r.k_ f).PushTimestamp (sizeInc r.current_timestamp_), rfl,
        by simp [mapFind], rfl, ?_, rfl⟩
      intro g hg
      have : ¬ f = g := fun e => hg e.symm
      simp [mapFind, this]
  | some n =>
      refine ⟨_, n.PushTimestamp (sizeInc r.current_timestamp_), rfl,
        by simp [mapFind_mapSet], rfl, ?_, rfl⟩
      intro g hg
      have : ¬ f = g := fun e => hg e.symm
      simp [mapFind_mapSet, this]

/-- `SetEvictable` on a tracked frame id that passes the range check. -/
theorem setEvictable_ret_spec (r : LRUKReplacer) (f : Int) (b : Bool) (n : LRUKNode)
    (hrange : toSizeT f < r.replacer_size_) (hfind : mapFind r.node_store_ f = some n) :
    ∃ r' n', r.SetEvictable f b = .ret r' () ∧
      mapFind r'.node_store_ f = some n' ∧ n'.is_evictable_ = b ∧
      (∀ g, g ≠ f → mapFind r'.node_store_ g = mapFind r.node_store_ g) ∧
      r'.replacer_size_ = r.replacer_size_ := by
  have hr : ¬ toSizeT f ≥ r.replacer_size_ := by omega
  unfold LRUKReplacer.SetEvictable
  rw [if_neg hr]
  simp only [hfind]
  by_cases hsame : n.is_evictable_ = b
  · rw [if_pos hsame]
    exact ⟨r, n, rfl, hfind, hsame, fun _ _ => rfl, rfl⟩
  · rw [if_neg hsame]
    refine ⟨_, { n with is_evictable_ := b }, rfl, by simp [mapFind_mapSet], rfl, ?_, rfl⟩
    intro g hg
    have : ¬ f = g := fun e => hg e.symm
    simp [mapFind_mapSet, this]

/-- `Remove` on a frame id that passes the range check and is untracked or
evictable. -/
theorem remove_ret_spec (r : LRUKReplacer) (f : Int)
    (hrange : toSizeT f < r.replacer_size_)
    (hok : ∀ n, mapFind r.node_store_ f = some n → n.is_evictable_ = true) :
    ∃ r', r.Remove f = .ret r' () ∧
      mapFind r'.node_store_ f = none ∧
      (∀ g, g ≠ f → mapFind r'.node_store_ g = mapFind r.node_store_ g) ∧
      r'.replacer_size_ = r.replacer_size_ := by
  have hr : ¬ toSizeT f ≥ r.replacer_size_ := by omega
  unfold LRUKReplacer.Remove
  rw [if_neg hr]
  cases hfind : mapFind r.node_store_ f with
  | none => exact ⟨r, rfl, hfind, fun _ _ => rfl, rfl⟩
  | some n =>
      simp only [hok n hfind, if_true]
      refine ⟨_, rfl, by simp [mapFind_mapErase], ?_, rfl⟩
      intro g hg
      have : ¬ f = g := fun e => hg e.symm
      simp [mapFind_mapErase, this]

theorem toSizeT_of_range {f : Int} {n : Nat} (h0 : 0 ≤ f) (h1 : f < (n : Int))
    (hn : n ≤ 2 ^ 63) : toSizeT f < n ∧ FrameIdRepr f := by
  unfold toSizeT SIZE_T_MOD FrameIdRepr
  norm_num
  omega

end ReplacerCallLemmas

section ReplacerSizeSteps

/-- One call changes the number of evictable nodes by at most one. -/
theorem evictableCount_step {nf k : Nat} {r : LRUKReplacer} (h : ReplacerWF nf k r)
    {op : ReplacerOp} {r' : LRUKReplacer} (hs : r.step op = some r') :
    evictableCount r'.node_store_ + 1 = evictableCount r.node_store_ ∨
    evictableCount r'.node_store_ = evictableCount r.node_store_ ∨
    evictableCount r'.node_store_ = evictableCount r.node_store_ + 1 := by
  cases op with
  | recordAccess f =>
      right; left
      simp only [LRUKReplacer.step, LRUKReplacer.RecordAccess] at hs
      by_cases hrange : toSizeT f ≥ r.replacer_size_
      · simp [hrange, Outcome.state?] at hs
        subst hs
        rfl
      · rw [if_neg hrange] at hs
        cases hfind : mapFind r.node_store_ f with
        | none =>
            simp only [hfind, Outcome.state?, Option.some.injEq] at hs
            subst hs
            simp [evictableCount, List.countP_cons, LRUKNode.new]
        | some n =>
            simp only [hfind, Outcome.state?, Option.some.injEq] at hs
            subst hs
            have := countP_mapSet_of_mem (fun e : Int × LRUKNode => e.2.is_evictable_) hfind
              (n.PushTimestamp (sizeInc r.current_timestamp_))
            simp only [PushTimestamp_evictable] at this
            simp only [evictableCount]
            omega
  | setEvictable f b =>
      simp only [LRUKReplacer.step, LRUKReplacer.SetEvictable] at hs
      by_cases hrange : toSizeT f ≥ r.replacer_size_
      · simp [hrange, Outcome.state?] at hs
        subst hs
        exact Or.inr (Or.inl rfl)
      · rw [if_neg hrange] at hs
        cases hfind : mapFind r.node_store_ f with
        | none =>
            simp only [hfind, Outcome.state?, Option.some.injEq] at hs
            subst hs
            exact Or.inr (Or.inl rfl)
        | some n =>
            simp only [hfind] at hs
            by_cases hsame : n.is_evictable_ = b
            · simp only [hsame, if_true, Outcome.state?, Option.some.injEq] at hs
              subst hs
              exact Or.inr (Or.inl rfl)
            · rw [if_neg hsame] at hs
              simp only [Outcome.state?, Option.some.injEq] at hs
              subst hs
              have hc := countP_mapSet_of_mem (fun e : Int × LRUKNode => e.2.is_evictable_)
                hfind { n with is_evictable_ := b }
              simp only [evictableCount]
              cases b with
              | true =>
                  have hn : n.is_evictable_ = false := by simpa using hsame
                  simp only [hn, if_true] at hc
                  simp at hc
                  omega
              | false =>
                  have hn : n.is_evictable_ = true := by simpa using hsame
                  simp only [hn, if_true] at hc
                  simp at hc
                  omega
  | evict =>
      simp only [LRUKReplacer.step, LRUKReplacer.Evict] at hs
      cases hloop : evictLoop r.k_ EvictScan.init r.node_store_ with
      | none => simp [hloop, Outcome.state?] at hs
      | some st =>
          simp only [hloop] at hs
          by_cases hid : st.id = -1
          · simp only [hid, if_true, Outcome.state?, Option.some.injEq] at hs
            subst hs
            exact Or.inr (Or.inl rfl)
          · rw [if_neg hid] at hs
            simp only [Outcome.state?, Option.some.injEq] at hs
            subst hs
            rcases evictLoop_id _ hloop with h1 | ⟨e, he, hev, hfid⟩
            · exact absurd h1 hid
            · have hkey : e.1 = st.id := by rw [← hfid]; exact (h.node_ok e he).1.symm
              have hmem : (st.id, e.2) ∈ r.node_store_ := by rw [← hkey]; exact he
              have hc := countP_mapErase_of_mem (fun e : Int × LRUKNode => e.2.is_evictable_)
                h.nodup hmem
              simp only [hev, if_true] at hc
              simp only [evictableCount]
              omega
  | remove f =>
      simp only [LRUKReplacer.step, LRUKReplacer.Remove] at hs
      by_cases hrange : toSizeT f ≥ r.replacer_size_
      · simp [hrange, Outcome.state?] at hs
        subst hs
        exact Or.inr (Or.inl rfl)
      · rw [if_neg hrange] at hs
        cases hfind : mapFind r.node_store_ f with
        | none =>
            simp only [hfind, Outcome.state?, Option.some.injEq] at hs
            subst hs
            exact Or.inr (Or.inl rfl)
        | some n =>
            simp only [hfind] at hs
            by_cases hev : n.is_evictable_ = true
            · simp only [hev, if_true, Outcome.state?, Option.some.injEq] at hs
              subst hs
              have hmem := mem_of_mapFind_eq_some hfind
              have hc := countP_mapErase_of_mem (fun e : Int × LRUKNode => e.2.is_evictable_)
                h.nodup hmem
              simp only [hev, if_true] at hc
              simp only [evictableCount]
              omega
            · rw [if_neg hev] at hs
              simp only [Outcome.state?, Option.some.injEq] at hs
              subst hs
              exact Or.inr (Or.inl rfl)

end ReplacerSizeSteps

section TrieLemmas

@[simp] theorem trieNode_clone_eq (n : TrieNode) : n.Clone = n := by
  cases n; rfl

@[simp] theorem trieNode_children_mk (c : List (Char × TrieNode)) (v : Option Value) :
    (TrieNode.mk c v).children_ = c := rfl

@[simp] theorem trieNode_value_mk (c : List (Char × TrieNode)) (v : Option Value) :
    (TrieNode.mk c v).value_ = v := rfl

@[simp] theorem valueAt_nil (n : TrieNode) : valueAt n [] = n.value_ := rfl

theorem valueAt_cons (n : TrieNode) (c : Char) (rest : List Char) :
    valueAt n (c :: rest) =
      match mapFind n.children_ c with
      | none => none
      | some child => valueAt child rest := by
  unfold valueAt
  simp only [trieWalk]
  cases mapFind n.children_ c <;> rfl

theorem valueAt_leaf (v : Option Value) (c : Char) (rest : List Char) :
    valueAt (.mk [] v) (c :: rest) = none := by
  simp [valueAt_cons, mapFind]

/-- Below the node itself the walk only looks at the children. -/
theorem valueAt_cons_congr {n m : TrieNode} (h : n.children_ = m.children_) (c : Char)
    (rest : List Char) : valueAt n (c :: rest) = valueAt m (c :: rest) := by
  rw [valueAt_cons, valueAt_cons, h]

theorem trie_get_eq (t : Trie) (T : PayloadType) (key : List Char) :
    t.Get T key =
      match t.root_ with
      | none => none
      | some root =>
          match valueAt root key with
          | none => none
          | some v => if v.type = T then some v else none := by
  unfold Trie.Get valueAt
  cases t.root_ with
  | none => rfl
  | some root =>
      simp only
      cases trieWalk root key <;> rfl

/-- Replacing the child for `c` by `child` changes the value at a key only
below `c`. -/
theorem valueAt_setChild (n : TrieNode) (c : Char) (child : TrieNode) (key' : List Char) :
    valueAt (.mk (mapSet n.children_ c child) n.value_) key' =
      match key' with
      | [] => n.value_
      | d :: rest => if d = c then valueAt child rest else valueAt n (d :: rest) := by
  cases key' with
  | nil => rfl
  | cons d rest =>
      simp only [valueAt_cons, trieNode_children_mk, mapFind_mapSet]
      by_cases h : d = c
      · subst h
        simp
      · have : ¬ c = d := fun e => h e.symm
        simp [h, this]

theorem valueAt_eraseChild (n : TrieNode) (c : Char) (key' : List Char) :
    valueAt (.mk (mapErase n.children_ c) n.value_) key' =
      match key' with
      | [] => n.value_
      | d :: rest => if d = c then none else valueAt n (d :: rest) := by
  cases key' with
  | nil => rfl
  | cons d rest =>
      simp only [valueAt_cons, trieNode_children_mk, mapFind_mapErase]
      by_cases h : d = c
      · subst h
        simp
      · have : ¬ c = d := fun e => h e.symm
        simp [h, this]

theorem valueAt_putLast (n : TrieNode) (c : Char) (val : Value) (key' : List Char) :
    valueAt (putLast n c val) key' = if key' = [c] then some val else valueAt n key' := by
  unfold putLast
  cases hfind : mapFind n.children_ c with
  | none =>
      simp only [valueAt_setChild]
      cases key' with
      | nil => simp
      | cons d rest =>
          by_cases h : d = c
          · subst h
            cases rest with
            | nil => simp
            | cons e r => simp [valueAt_cons, hfind, mapFind]
          · simp [h]
  | some old =>
      simp only [valueAt_setChild]
      cases key' with
      | nil => simp
      | cons d rest =>
          by_cases h : d = c
          · subst h
            cases rest with
            | nil => simp
            | cons e r =>
                simp only [if_true, List.cons.injEq, true_and, reduceCtorEq, if_false]
                rw [valueAt_cons n d, hfind]
                exact valueAt_cons_congr rfl e r
          · simp [h]

theorem valueAt_putCreate (val : Value) :
    ∀ (key : List Char) (n : TrieNode) (key' : List Char), key ≠ [] →
      (2 ≤ key.length → ∀ c ∈ key.head?, mapFind n.children_ c = none) →
      valueAt (putCreate val n key) key' = if key' = key then some val else valueAt n key'
  | [], _, _, h, _ => absurd rfl h
  | [c], n, key', _, _ => by
      simp only [putCreate]
      exact valueAt_putLast n c val key'
  | c :: c' :: rest, n, key', _, hmiss => by
      have hfind : mapFind n.children_ c = none := hmiss (by simp) c (by simp)
      simp only [putCreate, valueAt_setChild]
      cases key' with
      | nil => simp
      | cons d r =>
          by_cases h : d = c
          · subst h
            simp only [if_true, List.cons.injEq, true_and]
            rw [valueAt_putCreate val (c' :: rest) (.mk [] none) r (by simp)
              (fun _ e he => by simp [mapFind])]
            by_cases hr : r = c' :: rest
            · simp [hr]
            · simp only [hr, if_false]
              rw [valueAt_cons n d, hfind]
              cases r with
              | nil => rfl
              | cons e r' => exact valueAt_leaf _ _ _
          · simp [h]

theorem valueAt_putClone (val : Value) :
    ∀ (key : List Char) (n : TrieNode) (key' : List Char), key ≠ [] →
      valueAt (putClone val n key) key' = if key' = key then some val else valueAt n key'
  | [], _, _, h => absurd rfl h
  | [c], n, key', _ => by
      simp only [putClone]
      exact valueAt_putLast n c val key'
  | c :: c' :: rest, n, key', _ => by
      simp only [putClone]
      cases hfind : mapFind n.children_ c with
      | none =>
          simp only
          exact valueAt_putCreate val (c :: c' :: rest) n key' (by simp)
            (fun _ e he => by
              simp only [List.head?_cons, Option.mem_def, Option.some.injEq] at he
              subst he
              exact hfind)
      | some child =>
          simp only [valueAt_setChild, trieNode_clone_eq]
          cases key' with
          | nil => simp
          | cons d r =>
              by_cases h : d = c
              · subst h
                simp only [if_true, List.cons.injEq, true_and]
                rw [valueAt_putClone val (c' :: rest) child r (by simp)]
                by_cases hr : r = c' :: rest
                · simp [hr]
                · simp only [hr, if_false]
                  rw [valueAt_cons n d, hfind]
              · simp [h]

/-- What `Put` does to the value found at any key. -/
theorem valueAt_Put (t : Trie) (key : List Char) (val : Value) (key' : List Char) :
    ∃ root', (t.Put key val).root_ = some root' ∧
      valueAt root' key' =
        if key' = key then some val
        else match t.root_ with
          | none => none
          | some root => valueAt root key' := by
  have hfresh : ∀ k : List Char, valueAt (.mk [] none) k = none := by
    intro k
    cases k with
    | nil => rfl
    | cons c r => exact valueAt_leaf _ _ _
  cases key with
  | nil =>
      refine ⟨_, rfl, ?_⟩
      cases key' with
      | nil => simp
      | cons d r =>
          simp only [reduceCtorEq, if_false]
          cases ht : t.root_ with
          | none => simp [valueAt_leaf]
          | some root =>
              simp only [trieNode_clone_eq]
              exact valueAt_cons_congr rfl d r
  | cons c rest =>
      refine ⟨_, rfl, ?_⟩
      rw [valueAt_putClone val (c :: rest) _ key' (by simp)]
      cases ht : t.root_ with
      | none => simp [hfresh]
      | some root => simp

end TrieLemmas

section TrieRemoveLemmas

theorem removeLast_present {n : TrieNode} {c : Char} {v : Value}
    (h : valueAt n [c] = some v) :
    ∃ n', removeLast n c = .done n' true ∧
      ∀ key', valueAt n' key' = if key' = [c] then none else valueAt n key' := by
  rw [valueAt_cons] at h
  cases hfind : mapFind n.children_ c with
  | none => simp [hfind] at h
  | some term =>
      simp only [hfind, valueAt_nil] at h
      have hne : n.children_.isEmpty = false := by
        cases hc : n.children_ with
        | nil => simp [hc, mapFind] at hfind
        | cons _ _ => rfl
      have hval : term.is_value_node_ = true := by simp [TrieNode.is_value_node_, h]
      refine ⟨.mk (mapSet n.children_ c (.mk term.children_ none)) n.value_,
        by simp [removeLast, hne, hfind, hval], ?_⟩
      intro key'
      rw [valueAt_setChild]
      cases key' with
      | nil => simp
      | cons d rest =>
          by_cases hd : d = c
          · subst hd
            cases rest with
            | nil => simp
            | cons e r =>
                simp only [if_true, List.cons.injEq, true_and, reduceCtorEq, if_false]
                rw [valueAt_cons n d, hfind]
                exact valueAt_cons_congr rfl e r
          · simp [hd]

theorem removeLast_absent {n : TrieNode} {c : Char} (h : valueAt n [c] = none) :
    removeLast n c = .returnEmpty ∨
      (removeLast n c = .nullDeref ∧ n.children_ ≠ [] ∧ mapFind n.children_ c = none) := by
  rw [valueAt_cons] at h
  unfold removeLast
  cases hc : n.children_ with
  | nil => left; rfl
  | cons x xs =>
      rw [← hc]
      have hne : n.children_.isEmpty = false := by rw [hc]; rfl
      simp only [hne, Bool.false_eq_true, if_false]
      cases hfind : mapFind n.children_ c with
      | none =>
          right
          exact ⟨rfl, by rw [hc]; simp, rfl⟩
      | some term =>
          left
          simp only [hfind, valueAt_nil] at h
          simp [TrieNode.is_value_node_, h]

theorem removeWalk_present :
    ∀ (key : List Char) (n : TrieNode) (v : Value), key ≠ [] → valueAt n key = some v →
      ∃ n' p, removeWalk n key = .done n' p ∧
        ∀ key', valueAt n' key' = if key' = key then none else valueAt n key'
  | [], _, _, h, _ => absurd rfl h
  | [c], n, v, _, hv => by
      obtain ⟨n', h1, h2⟩ := removeLast_present hv
      exact ⟨n', true, by simpa [removeWalk] using h1, h2⟩
  | c :: c' :: rest, n, v, _, hv => by
      rw [valueAt_cons] at hv
      cases hfind : mapFind n.children_ c with
      | none => simp [hfind] at hv
      | some child =>
          simp only [hfind] at hv
          obtain ⟨child', p, hw, hspec⟩ := removeWalk_present (c' :: rest) child v (by simp) hv
          simp only [removeWalk, hfind, trieNode_clone_eq, hw]
          by_cases hprune : (p && child'.children_.isEmpty && !child'.is_value_node_) = true
          · simp only [hprune, if_true]
            refine ⟨_, true, rfl, ?_⟩
            intro key'
            rw [valueAt_eraseChild]
            cases key' with
            | nil => simp
            | cons d r =>
                by_cases hd : d = c
                · subst hd
                  simp only [if_true, List.cons.injEq, true_and]
                  rw [valueAt_cons n d, hfind]
                  simp only
                  -- the pruned copy holds no value at any key
                  have hnone : valueAt child' r = none := by
                    simp only [Bool.and_eq_true, Bool.not_eq_true', List.isEmpty_iff] at hprune
                    cases r with
                    | nil =>
                        have := hprune.2
                        simpa [TrieNode.is_value_node_] using this
                    | cons e r' =>
                        rw [valueAt_cons, hprune.1.2]
                        rfl
                  rw [hspec r] at hnone
                  by_cases hr : r = c' :: rest
                  · simp [hr]
                  · simp only [hr, if_false] at hnone ⊢
                    exact hnone.symm
                · simp [hd]
          · simp only [hprune, Bool.false_eq_true, if_false]
            refine ⟨_, false, rfl, ?_⟩
            intro key'
            rw [valueAt_setChild]
            cases key' with
            | nil => simp
            | cons d r =>
                by_cases hd : d = c
                · subst hd
                  simp only [if_true, List.cons.injEq, true_and]
                  rw [hspec r, valueAt_cons n d, hfind]
                · simp [hd]

theorem removeWalk_absent :
    ∀ (key : List Char) (n : TrieNode), key ≠ [] → valueAt n key = none →
      removeWalk n key = .returnEmpty ∨
        (removeWalk n key = .nullDeref ∧
          ∃ p c, trieWalk n key.dropLast = some p ∧ key.getLast? = some c ∧
            p.children_ ≠ [] ∧ mapFind p.children_ c = none)
  | [], _, h, _ => absurd rfl h
  | [c], n, _, hv => by
      rcases removeLast_absent hv with h | ⟨h1, h2, h3⟩
      · left
        simpa [removeWalk] using h
      · right
        exact ⟨by simpa [removeWalk] using h1, n, c, rfl, rfl, h2, h3⟩
  | c :: c' :: rest, n, _, hv => by
      rw [valueAt_cons] at hv
      cases hfind : mapFind n.children_ c with
      | none =>
          left
          simp [removeWalk, hfind]
      | some child =>
          simp only [hfind] at hv
          rcases removeWalk_absent (c' :: rest) child (by simp) hv with h | ⟨h1, p, c0, h2, h3, h4, h5⟩
          · left
            simp [removeWalk, hfind, h]
          · right
            refine ⟨by simp [removeWalk, hfind, h1], p, c0, ?_, ?_, h4, h5⟩
            · simp only [List.dropLast_cons₂, trieWalk, hfind]
              simpa using h2
            · simpa using h3

end TrieRemoveLemmas

section HeapLemmas

theorem heapClosed_lookup {h : TrieHeap} (hc : HeapClosed h) {a : Nat} {n : HeapNode}
    (hn : h[a]? = some n) {c : Char} {b : Nat} (hb : mapFind n.children_ c = some b) :
    b < h.length :=
  hc n (List.getElem?_mem hn) (c, b) (mem_of_mapFind_eq_some hb)

theorem heap_children_mapSet {h : TrieHeap} (hc : HeapClosed h) {a : Nat} {n : HeapNode}
    (hn : h[a]? = some n) (c : Char) :
    ∀ e ∈ mapSet n.children_ c h.length, e.2 < h.length + 1 := by
  intro e he
  rcases mem_mapSet_subset _ _ _ _ he with h1 | h1
  · rw [h1]
    exact Nat.lt_succ_self _
  · exact Nat.lt_succ_of_lt (hc n (List.getElem?_mem hn) e h1)

/-- Allocating the node `x` and then writing `y` into the node at `ptr` leaves
every node below `n0 ≤ ptr` as it is. -/
theorem heap_store_fresh {h : TrieHeap} (hc : HeapClosed h) {ptr n0 : Nat}
    (hp : ptr < h.length) (hn : n0 ≤ ptr) (x y : HeapNode)
    (hx : ∀ e ∈ x.children_, e.2 < h.length + 1)
    (hy : ∀ e ∈ y.children_, e.2 < h.length + 1) :
    HeapClosed ((h ++ [x]).set ptr y) ∧ ((h ++ [x]).set ptr y).length = h.length + 1 ∧
    (∀ a, a < n0 → ((h ++ [x]).set ptr y)[a]? = h[a]?) := by
  have hlen : ((h ++ [x]).set ptr y).length = h.length + 1 := by
    rw [List.length_set, List.length_append]
    rfl
  refine ⟨?_, hlen, ?_⟩
  · intro n hn' e he
    rw [hlen]
    rcases List.mem_or_eq_of_mem_set hn' with h1 | h1
    · rcases List.mem_append.mp h1 with h2 | h2
      · exact Nat.lt_succ_of_lt (hc n h2 e he)
      · simp only [List.mem_singleton] at h2
        rw [h2] at he
        exact hx e he
    · rw [h1] at he
      exact hy e he
  · intro a ha
    rw [List.getElem?_set_ne (by omega), List.getElem?_append_left (by omega)]

/-- Writing `y` into the node at `ptr` leaves every node below `n0 ≤ ptr` as it
is. -/
theorem heap_set_fresh {h : TrieHeap} (hc : HeapClosed h) (ptr n0 : Nat) (hn : n0 ≤ ptr)
    (y : HeapNode) (hy : ∀ e ∈ y.children_, e.2 < h.length) :
    HeapClosed (h.set ptr y) ∧ (h.set ptr y).length = h.length ∧
    (∀ a, a < n0 → (h.set ptr y)[a]? = h[a]?) := by
  refine ⟨?_, List.length_set _ _ _, ?_⟩
  · intro n hn' e he
    rw [List.length_set]
    rcases List.mem_or_eq_of_mem_set hn' with h1 | h1
    · exact hc n h1 e he
    · rw [h1] at he
      exact hy e he
  · intro a ha
    rw [List.getElem?_set_ne (by omega)]

theorem heapPutLast_spec {h : TrieHeap} (hc : HeapClosed h) {ptr n0 : Nat}
    (hp : ptr < h.length) (hn : n0 ≤ ptr) (c : Char) (val : Value) :
    ∃ h', heapPutLast h ptr c val = some h' ∧ HeapClosed h' ∧ h.length ≤ h'.length ∧
      ∀ a, a < n0 → h'[a]? = h[a]? := by
  have hget : h[ptr]? = some h[ptr] := List.getElem?_eq_getElem hp
  cases hfind : mapFind h[ptr].children_ c with
  | none =>
      obtain ⟨a1, a2, a3⟩ := heap_store_fresh hc hp hn
        { children_ := [], value_ := some val }
        { children_ := mapSet h[ptr].children_ c h.length, value_ := h[ptr].value_ }
        (fun e he => absurd he (List.not_mem_nil e)) (heap_children_mapSet hc hget c)
      simp only [heapPutLast, hget, hfind]
      exact ⟨_, rfl, a1, by omega, a3⟩
  | some old =>
      have hold : old < h.length := heapClosed_lookup hc hget hfind
      have hgo : h[old]? = some h[old] := List.getElem?_eq_getElem hold
      obtain ⟨a1, a2, a3⟩ := heap_store_fresh hc hp hn
        { children_ := h[old].children_, value_ := some val }
        { children_ := mapSet h[ptr].children_ c h.length, value_ := h[ptr].value_ }
        (fun e he => Nat.lt_succ_of_lt (hc _ (List.getElem?_mem hgo) e he))
        (heap_children_mapSet hc hget c)
      simp only [heapPutLast, hget, hfind, hgo]
      exact ⟨_, rfl, a1, by omega, a3⟩

theorem heapPutCreate_spec (val : Value) (key : List Char) :
    ∀ {h : TrieHeap}, HeapClosed h → ∀ (ptr n0 : Nat), ptr < h.length → n0 ≤ ptr →
    ∃ h', heapPutCreate val h ptr key = some h' ∧ HeapClosed h' ∧ h.length ≤ h'.length ∧
      ∀ a, a < n0 → h'[a]? = h[a]? := by
  induction key with
  | nil =>
      intro h hc ptr n0 _ _
      exact ⟨h, rfl, hc, le_refl _, fun _ _ => rfl⟩
  | cons c rest ih =>
      intro h hc ptr n0 hp hn
      cases rest with
      | nil => exact heapPutLast_spec hc hp hn c val
      | cons c' rest' =>
          have hget : h[ptr]? = some h[ptr] := List.getElem?_eq_getElem hp
          obtain ⟨a1, a2, a3⟩ := heap_store_fresh hc hp hn
            { children_ := [], value_ := none }
            { children_ := mapSet h[ptr].children_ c h.length, value_ := h[ptr].value_ }
            (fun e he => absurd he (List.not_mem_nil e)) (heap_children_mapSet hc hget c)
          obtain ⟨h', b1, b2, b3, b4⟩ := ih a1 h.length n0
            (by rw [a2]; exact Nat.lt_succ_self _) (by omega)
          simp only [heapPutCreate, hget]
          exact ⟨h', b1, b2, by omega, fun a ha => (b4 a ha).trans (a3 a ha)⟩

theorem heapPutClone_spec (val : Value) (key : List Char) :
    ∀ {h : TrieHeap}, HeapClosed h → ∀ (ptr n0 : Nat), ptr < h.length → n0 ≤ ptr →
    ∃ h', heapPutClone val h ptr key = some h' ∧ HeapClosed h' ∧ h.length ≤ h'.length ∧
      ∀ a, a < n0 → h'[a]? = h[a]? := by
  induction key with
  | nil =>
      intro h hc ptr n0 _ _
      exact ⟨h, rfl, hc, le_refl _, fun _ _ => rfl⟩
  | cons c rest ih =>
      intro h hc ptr n0 hp hn
      cases rest with
      | nil => exact heapPutLast_spec hc hp hn c val
      | cons c' rest' =>
          have hget : h[ptr]? = some h[ptr] := List.getElem?_eq_getElem hp
          cases hfind : mapFind h[ptr].children_ c with
          | none =>
              simp only [heapPutClone, hget, hfind]
              exact heapPutCreate_spec val (c :: c' :: rest') hc ptr n0 hp hn
          | some child =>
              have hch : child < h.length := heapClosed_lookup hc hget hfind
              have hgc : h[child]? = some h[child] := List.getElem?_eq_getElem hch
              obtain ⟨a1, a2, a3⟩ := heap_store_fresh hc hp hn h[child]
                { children_ := mapSet h[ptr].children_ c h.length, value_ := h[ptr].value_ }
                (fun e he => Nat.lt_succ_of_lt (hc _ (List.getElem?_mem hgc) e he))
                (heap_children_mapSet hc hget c)
              obtain ⟨h', b1, b2, b3, b4⟩ := ih a1 h.length n0
                (by rw [a2]; exact Nat.lt_succ_self _) (by omega)
              simp only [heapPutClone, hget, hfind, hgc]
              exact ⟨h', b1, b2, by omega, fun a ha => (b4 a ha).trans (a3 a ha)⟩

/-- Allocating the copy of the root: the new memory is closed and keeps every
old node. -/
theorem heap_alloc_root {h : TrieHeap} (hc : HeapClosed h) (rn : HeapNode)
    (hrn : ∀ e ∈ rn.children_, e.2 < h.length) :
    HeapClosed (h ++ [rn]) ∧ (h ++ [rn]).length = h.length + 1 ∧
    ∀ a, a < h.length → (h ++ [rn])[a]? = h[a]? := by
  have hlen : (h ++ [rn]).length = h.length + 1 := by
    rw [List.length_append]
    rfl
  refine ⟨?_, hlen, fun a ha => List.getElem?_append_left ha⟩
  intro n hn e he
  rw [hlen]
  rcases List.mem_append.mp hn with h1 | h1
  · exact Nat.lt_succ_of_lt (hc n h1 e he)
  · simp only [List.mem_singleton] at h1
    rw [h1] at he
    exact Nat.lt_succ_of_lt (hrn e he)

/-- The node that `Put` and `Remove` copy the root from: it exists, and its
children are nodes of the memory. -/
theorem heap_root_node {h : TrieHeap} (hc : HeapClosed h) {root_ : Option Nat}
    (hroot : ∀ r, root_ = some r → r < h.length) :
    ∃ rn, (match root_ with
        | none => some ({ children_ := [], value_ := none } : HeapNode)
        | some r => h[r]?) = some rn ∧
      ∀ e ∈ rn.children_, e.2 < h.length := by
  cases root_ with
  | none => exact ⟨_, rfl, fun e he => absurd he (List.not_mem_nil e)⟩
  | some r =>
      have hr := hroot r rfl
      have hget : h[r]? = some h[r] := List.getElem?_eq_getElem hr
      exact ⟨h[r], hget, fun e he => hc _ (List.getElem?_mem hget) e he⟩

/-- `Put` on a closed memory returns, and the memory it leaves is closed,
contains the new root and keeps every old node as it was. -/
theorem heapPut_spec {h : TrieHeap} (hc : HeapClosed h) {root_ : Option Nat}
    (hroot : ∀ r, root_ = some r → r < h.length) (key : List Char) (val : Value) :
    ∃ h' root', heapPut h root_ key val = some (h', root') ∧ HeapClosed h' ∧
      root' < h'.length ∧ h.length ≤ h'.length ∧ ∀ a, a < h.length → h'[a]? = h[a]? := by
  obtain ⟨rn, hrn, hch⟩ := heap_root_node hc hroot
  obtain ⟨a1, a2, a3⟩ := heap_alloc_root hc rn hch
  unfold heapPut
  simp only [hrn]
  cases key with
  | nil =>
      obtain ⟨b1, b2, b3⟩ := heap_alloc_root a1 { children_ := rn.children_, value_ := some val }
        (fun e he => by rw [a2]; exact Nat.lt_succ_of_lt (hch e he))
      refine ⟨_, _, rfl, b1, by rw [b2, a2]; omega, by rw [b2, a2]; omega, ?_⟩
      intro a ha
      rw [b3 a (by omega), a3 a ha]
  | cons c rest =>
      obtain ⟨h', b1, b2, b3, b4⟩ := heapPutClone_spec val (c :: rest) a1 h.length
        h.length (by rw [a2]; exact Nat.lt_succ_self _) (le_refl _)
      simp only [b1]
      exact ⟨h', _, rfl, b2, by omega, by omega, fun a ha => (b4 a ha).trans (a3 a ha)⟩

theorem heapRemoveLast_spec {h : TrieHeap} (hc : HeapClosed h) {ptr n0 : Nat}
    (hp : ptr < h.length) (hn : n0 ≤ ptr) (c : Char) :
    ∃ w, heapRemoveLast h ptr c = some w ∧ HeapClosed w.heap ∧ h.length ≤ w.heap.length ∧
      ∀ a, a < n0 → w.heap[a]? = h[a]? := by
  have hget : h[ptr]? = some h[ptr] := List.getElem?_eq_getElem hp
  by_cases hempty : h[ptr].children_.isEmpty = true
  · simp only [heapRemoveLast, hget, hempty, if_true]
    exact ⟨_, rfl, hc, le_refl _, fun _ _ => rfl⟩
  · cases hfind : mapFind h[ptr].children_ c with
    | none =>
        simp only [heapRemoveLast, hget, hempty, hfind]
        exact ⟨_, rfl, hc, le_refl _, fun _ _ => rfl⟩
    | some term =>
        have ht : term < h.length := heapClosed_lookup hc hget hfind
        have hgt : h[term]? = some h[term] := List.getElem?_eq_getElem ht
        by_cases hval : h[term].value_.isSome = false
        · simp only [heapRemoveLast, hget, hempty, hfind, hgt, hval, if_true]
          exact ⟨_, rfl, hc, le_refl _, fun _ _ => rfl⟩
        · obtain ⟨a1, a2, a3⟩ := heap_store_fresh hc hp hn
            { children_ := h[term].children_, value_ := none }
            { children_ := mapSet h[ptr].children_ c h.length, value_ := h[ptr].value_ }
            (fun e he => Nat.lt_succ_of_lt (hc _ (List.getElem?_mem hgt) e he))
            (heap_children_mapSet hc hget c)
          simp only [heapRemoveLast, hget, hempty, hfind, hgt, hval]
          exact ⟨_, rfl, a1, by simp only [HeapRemoveWalk.heap]; omega, a3⟩

theorem heapRemoveWalk_spec (key : List Char) :
    ∀ {h : TrieHeap}, HeapClosed h → ∀ (ptr n0 : Nat), ptr < h.length → n0 ≤ ptr →
    ∃ w, heapRemoveWalk h ptr key = some w ∧ HeapClosed w.heap ∧ h.length ≤ w.heap.length ∧
      ∀ a, a < n0 → w.heap[a]? = h[a]? := by
  induction key with
  | nil =>
      intro h hc ptr n0 _ _
      exact ⟨_, rfl, hc, le_refl _, fun _ _ => rfl⟩
  | cons c rest ih =>
      intro h hc ptr n0 hp hn
      cases rest with
      | nil => exact heapRemoveLast_spec hc hp hn c
      | cons c' rest' =>
          have hget : h[ptr]? = some h[ptr] := List.getElem?_eq_getElem hp
          cases hfind : mapFind h[ptr].children_ c with
          | none =>
              simp only [heapRemoveWalk, hget, hfind]
              exact ⟨_, rfl, hc, le_refl _, fun _ _ => rfl⟩
          | some child =>
              have hch : child < h.length := heapClosed_lookup hc hget hfind
              have hgc : h[child]? = some h[child] := List.getElem?_eq_getElem hch
              obtain ⟨a1, a2, a3⟩ := heap_store_fresh hc hp hn h[child]
                { children_ := mapSet h[ptr].children_ c h.length, value_ := h[ptr].value_ }
                (fun e he => Nat.lt_succ_of_lt (hc _ (List.getElem?_mem hgc) e he))
                (heap_children_mapSet hc hget c)
              obtain ⟨w, b1, b2, b3, b4⟩ := ih a1 h.length n0
                (by rw [a2]; exact Nat.lt_succ_self _) (by omega)
              simp only [heapRemoveWalk, hget, hfind, hgc, b1]
              cases w with
              | returnEmpty h' =>
                  simp only [HeapRemoveWalk.heap] at b2 b3 b4
                  exact ⟨_, rfl, b2, by simp only [HeapRemoveWalk.heap]; omega,
                    fun a ha => (b4 a ha).trans (a3 a ha)⟩
              | nullDeref h' =>
                  simp only [HeapRemoveWalk.heap] at b2 b3 b4
                  exact ⟨_, rfl, b2, by simp only [HeapRemoveWalk.heap]; omega,
                    fun a ha => (b4 a ha).trans (a3 a ha)⟩
              | done h' pruning =>
                  simp only [HeapRemoveWalk.heap] at b2 b3 b4
                  have hl1 : h.length < h'.length := by omega
                  have hl2 : ptr < h'.length := by omega
                  have hg1 : h'[h.length]? = some h'[h.length] := List.getElem?_eq_getElem hl1
                  have hg2 : h'[ptr]? = some h'[ptr] := List.getElem?_eq_getElem hl2
                  simp only [hg1, hg2]
                  split
                  · obtain ⟨d1, d2, d3⟩ := heap_set_fresh b2 ptr n0 hn
                      { children_ := mapErase h'[ptr].children_ c, value_ := h'[ptr].value_ }
                      (fun e he => b2 _ (List.getElem?_mem hg2) e
                        ((mem_mapErase _ _ _).mp he).1)
                    refine ⟨_, rfl, d1, by simp only [HeapRemoveWalk.heap]; omega, ?_⟩
                    intro a ha
                    simp only [HeapRemoveWalk.heap]
                    rw [d3 a ha, b4 a ha, a3 a ha]
                  · exact ⟨_, rfl, b2, by simp only [HeapRemoveWalk.heap]; omega,
                      fun a ha => (b4 a ha).trans (a3 a ha)⟩

/-- `Remove` on a closed memory comes to an end (a returned trie or the null
dereference of line 99), and the memory at that point is closed and keeps every
old node as it was. -/
theorem heapRemove_spec {h : TrieHeap} (hc : HeapClosed h) {root_ : Option Nat}
    (hroot : ∀ r, root_ = some r → r < h.length) (key : List Char) :
    ∃ res, heapRemove h root_ key = some res ∧ HeapClosed res.heap ∧
      (∀ r, res.root = some r → r < res.heap.length) ∧ h.length ≤ res.heap.length ∧
      ∀ a, a < h.length → res.heap[a]? = h[a]? := by
  obtain ⟨rn, hrn, hch⟩ := heap_root_node hc hroot
  obtain ⟨a1, a2, a3⟩ := heap_alloc_root hc rn hch
  unfold heapRemove
  simp only [hrn]
  cases key with
  | nil =>
      obtain ⟨b1, b2, b3⟩ := heap_alloc_root a1 { children_ := rn.children_, value_ := none }
        (fun e he => by rw [a2]; exact Nat.lt_succ_of_lt (hch e he))
      refine ⟨_, rfl, b1, ?_, ?_, ?_⟩
      · intro r hr
        simp only [HeapRemoved.root, Option.some.injEq] at hr
        simp only [HeapRemoved.heap]
        rw [b2, a2]
        omega
      · simp only [HeapRemoved.heap]
        rw [b2, a2]
        omega
      · intro a ha
        simp only [HeapRemoved.heap]
        rw [b3 a (by omega), a3 a ha]
  | cons c rest =>
      obtain ⟨w, b1, b2, b3, b4⟩ := heapRemoveWalk_spec (c :: rest) a1 h.length
        h.length (by rw [a2]; exact Nat.lt_succ_self _) (le_refl _)
      simp only [b1]
      cases w with
      | returnEmpty h' =>
          simp only [HeapRemoveWalk.heap] at b2 b3 b4
          refine ⟨_, rfl, b2, ?_, by simp only [HeapRemoved.heap]; omega,
            fun a ha => (b4 a ha).trans (a3 a ha)⟩
          intro r hr
          simp [HeapRemoved.root] at hr
      | nullDeref h' =>
          simp only [HeapRemoveWalk.heap] at b2 b3 b4
          refine ⟨_, rfl, b2, ?_, by simp only [HeapRemoved.heap]; omega,
            fun a ha => (b4 a ha).trans (a3 a ha)⟩
          intro r hr
          simp [HeapRemoved.root] at hr
      | done h' pruning =>
          simp only [HeapRemoveWalk.heap] at b2 b3 b4
          refine ⟨_, rfl, b2, ?_, by simp only [HeapRemoved.heap]; omega,
            fun a ha => (b4 a ha).trans (a3 a ha)⟩
          intro r hr
          simp only [HeapRemoved.root, Option.some.injEq] at hr
          simp only [HeapRemoved.heap]
          omega

/-- A walk from an old node meets only old nodes, so it is the same in every
memory that keeps the old nodes. -/
theorem heapWalk_keeps {h h' : TrieHeap} (hc : HeapClosed h)
    (hkeep : ∀ a, a < h.length → h'[a]? = h[a]?) (key : List Char) :
    ∀ a, a < h.length → heapWalk h' a key = heapWalk h a key := by
  induction key with
  | nil =>
      intro a ha
      exact hkeep a ha
  | cons c rest ih =>
      intro a ha
      have hget : h[a]? = some h[a] := List.getElem?_eq_getElem ha
      simp only [heapWalk, hkeep a ha, hget]
      cases hfind : mapFind h[a].children_ c with
      | none => rfl
      | some b => exact ih b (heapClosed_lookup hc hget hfind)

theorem heapGet_keeps {h h' : TrieHeap} (hc : HeapClosed h)
    (hkeep : ∀ a, a < h.length → h'[a]? = h[a]?) {t : Option Nat}
    (ht : ∀ r, t = some r → r < h.length) (T : PayloadType) (key : List Char) :
    heapGet h' t T key = heapGet h t T key := by
  cases t with
  | none => rfl
  | some r =>
      simp only [heapGet, heapWalk_keeps hc hkeep key r (ht r rfl)]

end HeapLemmas

section PoolInvariant

theorem poolInv_fresh (pool_size k page_size : Nat) (disk : Int → List Nat) :
    PoolInv pool_size k (BufferPoolManager.new pool_size k page_size disk) where
  size_eq := rfl
  rep_wf := replacerWF_fresh pool_size k
  tracked_range := by
    intro f n h
    simp [BufferPoolManager.new, LRUKReplacer.new, mapFind] at h
  free_range := by
    intro f hf
    simp only [BufferPoolManager.new, List.mem_map, List.mem_range] at hf
    obtain ⟨i, hi, rfl⟩ := hf
    exact ⟨Int.ofNat_nonneg i, Int.ofNat_lt.mpr hi⟩
  evictable_unpinned := by
    intro f n h
    simp [BufferPoolManager.new, LRUKReplacer.new, mapFind] at h
  table_ok := by
    intro e he
    simp [BufferPoolManager.new] at he

/-- The frame hunt of `NewPage` / `FetchPage` in a state satisfying the
invariant: it fails leaving the state as it is, or yields a frame of the pool
and touches only the free list and the replacer node of that frame, or runs
into the undefined behaviour of `Evict`. -/
theorem lt_size_of_le {ps : Nat} (hps : ps ≤ 2 ^ 63) : ps < SIZE_T_MOD := by
  unfold SIZE_T_MOD
  omega

theorem acquireFrame_spec {ps k : Nat} (hps : ps ≤ 2 ^ 63) {b : BufferPoolManager}
    (hinv : PoolInv ps k b) :
    b.acquireFrame = .ret b (-1) ∨ b.acquireFrame = .undefined ∨
    ∃ b1 fid, b.acquireFrame = .ret b1 fid ∧ 0 ≤ fid ∧ fid < (ps : Int) ∧
      b1.pages_ = b.pages_ ∧ b1.page_table_ = b.page_table_ ∧ b1.disk_ = b.disk_ ∧
      b1.next_page_id_ = b.next_page_id_ ∧ b1.pool_size_ = b.pool_size_ ∧
      b1.page_size_ = b.page_size_ ∧ ReplacerWF ps k b1.replacer_ ∧
      (∀ g, g ≠ fid →
        mapFind b1.replacer_.node_store_ g = mapFind b.replacer_.node_store_ g) ∧
      (∀ x ∈ b1.free_list_, x ∈ b.free_list_) ∧
      (b.free_list_ = fid :: b1.free_list_ ∨
        (b.free_list_ = [] ∧ b1.free_list_ = [] ∧ b.EvictableFrame fid)) := by
  unfold BufferPoolManager.acquireFrame
  cases hfl : b.free_list_ with
  | cons fid rest =>
      right; right
      have hr := hinv.free_range fid (by rw [hfl]; exact List.mem_cons_self _ _)
      refine ⟨{ b with free_list_ := rest }, fid, rfl, hr.1, hr.2, rfl, rfl, rfl, rfl, rfl, rfl,
        hinv.rep_wf, fun _ _ => rfl, ?_, Or.inl rfl⟩
      intro x hx
      exact List.mem_cons_of_mem _ hx
  | nil =>
      simp only
      have hb : ({ b with free_list_ := [] } : BufferPoolManager) = b := by
        cases b
        simp only at hfl
        subst hfl
        rfl
      cases hev : b.replacer_.Evict with
      | undefined => right; left; rfl
      | throw s msg => exact absurd hev (evict_no_throw _ _ _)
      | ret r res =>
          obtain ⟨h1, h2⟩ := evict_ret_spec hinv.rep_wf hev
          cases res with
          | none =>
              left
              have := h1 rfl
              subst this
              simp only
              exact congrArg (fun x => Outcome.ret x (-1 : Int)) hb
          | some fid =>
              right; right
              obtain ⟨⟨n, hn, hnev⟩, hstore, hsz, hk⟩ := h2 fid rfl
              have hr := hinv.tracked_range fid n hn
              refine ⟨{ b with replacer_ := r, free_list_ := [] }, fid, rfl, hr.1, hr.2, rfl, rfl,
                rfl, rfl, rfl, rfl, ?_, ?_, ?_, Or.inr ⟨trivial, rfl, n, hn, hnev⟩⟩
              · have : b.replacer_.Evict.state? = some r := by rw [hev]; rfl
                exact replacerWF_evict (lt_size_of_le hps) hinv.rep_wf this
              · intro g hg
                have : ¬ fid = g := fun e => hg e.symm
                simp [hstore, mapFind_mapErase, this]
              · intro x hx
                simp at hx

end PoolInvariant
section PoolInstall

/-- The two replacer calls that follow every pin of frame `fid`: on a
well-formed replacer and a frame of the pool they return, leave the node of
`fid` tracked and not evictable, and touch no other node. -/
theorem recordAndPin_spec {ps k : Nat} (hps : ps ≤ 2 ^ 63) (b : BufferPoolManager)
    (hwf : ReplacerWF ps k b.replacer_) {fid : Int} (h0 : 0 ≤ fid) (h1 : fid < (ps : Int)) :
    ∃ r' n', b.recordAndPin fid = .ret { b with replacer_ := r' } () ∧
      ReplacerWF ps k r' ∧ mapFind r'.node_store_ fid = some n' ∧ n'.is_evictable_ = false ∧
      ∀ g, g ≠ fid → mapFind r'.node_store_ g = mapFind b.replacer_.node_store_ g := by
  obtain ⟨hlt, hrepr⟩ := toSizeT_of_range h0 h1 hps
  have hsz := hwf.size_eq
  obtain ⟨r1, n1, hra, hf1, _, ho1, hs1⟩ := recordAccess_ret_spec b.replacer_ fid (by rw [hsz]; exact hlt)
  have hwf1 : ReplacerWF ps k r1 :=
    replacerWF_recordAccess hwf hrepr (by rw [hra]; rfl)
  obtain ⟨r2, n2, hse, hf2, hev2, ho2, _⟩ :=
    setEvictable_ret_spec r1 fid false n1 (by rw [hs1, hsz]; exact hlt) hf1
  have hwf2 : ReplacerWF ps k r2 :=
    replacerWF_setEvictable (lt_size_of_le hps) hwf1 (by rw [hse]; rfl)
  refine ⟨r2, n2, ?_, hwf2, hf2, hev2, fun g hg => (ho2 g hg).trans (ho1 g hg)⟩
  simp only [BufferPoolManager.recordAndPin, hra, hse]

/-- Installing a page in the frame `fid` obtained by `acquireFrame` (the common
tail of `NewPage` and `FetchPage`) keeps the invariant, and its replacer calls
return. -/
theorem poolInv_install {ps k : Nat} (hps : ps ≤ 2 ^ 63) {b b1 : BufferPoolManager}
    (hinv : PoolInv ps k b) {fid : Int} (h0 : 0 ≤ fid) (h1 : fid < (ps : Int))
    (hpages : b1.pages_ = b.pages_) (hpt : b1.page_table_ = b.page_table_)
    (hpsz : b1.pool_size_ = b.pool_size_) (hwf1 : ReplacerWF ps k b1.replacer_)
    (hstore1 : ∀ g, g ≠ fid →
      mapFind b1.replacer_.node_store_ g = mapFind b.replacer_.node_store_ g)
    (hfree1 : ∀ x ∈ b1.free_list_, x ∈ b.free_list_)
    (q next : Int) (disk' : Int → List Nat) (data : List Nat) (dirty : Bool) :
    ∃ r', BufferPoolManager.recordAndPin
        { b1 with
          page_table_ := mapSet (mapErase b1.page_table_ (b1.pages_ fid).page_id_) q fid,
          disk_ := disk', next_page_id_ := next,
          pages_ := fun g =>
            if g = fid then
              { data_ := data, page_id_ := q, pin_count_ := 1, is_dirty_ := dirty }
            else b1.pages_ g } fid
      = .ret
        { b1 with
          page_table_ := mapSet (mapErase b1.page_table_ (b1.pages_ fid).page_id_) q fid,
          disk_ := disk', next_page_id_ := next,
          pages_ := fun g =>
            if g = fid then
              { data_ := data, page_id_ := q, pin_count_ := 1, is_dirty_ := dirty }
            else b1.pages_ g,
          replacer_ := r' } () ∧
      PoolInv ps k
        { b1 with
          page_table_ := mapSet (mapErase b1.page_table_ (b1.pages_ fid).page_id_) q fid,
          disk_ := disk', next_page_id_ := next,
          pages_ := fun g =>
            if g = fid then
              { data_ := data, page_id_ := q, pin_count_ := 1, is_dirty_ := dirty }
            else b1.pages_ g,
          replacer_ := r' } ∧
      (∃ n', mapFind r'.node_store_ fid = some n' ∧ n'.is_evictable_ = false) ∧
      (∀ g, g ≠ fid →
        mapFind r'.node_store_ g = mapFind b1.replacer_.node_store_ g) := by
  obtain ⟨r', n', hcall, hwf', hf', hev', ho'⟩ := recordAndPin_spec hps
    { b1 with
      page_table_ := mapSet (mapErase b1.page_table_ (b1.pages_ fid).page_id_) q fid,
      disk_ := disk', next_page_id_ := next,
      pages_ := fun g =>
        if g = fid then
          { data_ := data, page_id_ := q, pin_count_ := 1, is_dirty_ := dirty }
        else b1.pages_ g } hwf1 h0 h1
  simp only at ho'
  refine ⟨r', hcall, ?_, ⟨n', hf', hev'⟩, ho'⟩
  refine ⟨?_, hwf', ?_, ?_, ?_, ?_⟩
  · show b1.pool_size_ = ps
    rw [hpsz]
    exact hinv.size_eq
  · intro f n hfn
    simp only at hfn
    by_cases hf : f = fid
    · subst hf
      exact ⟨h0, h1⟩
    · rw [ho' f hf, hstore1 f hf] at hfn
      exact hinv.tracked_range f n hfn
  · intro f hf
    exact hinv.free_range f (hfree1 f hf)
  · intro f n hfn hev
    simp only at hfn ⊢
    by_cases hf : f = fid
    · subst hf
      rw [hf'] at hfn
      simp only [Option.some.injEq] at hfn
      subst hfn
      rw [hev'] at hev
      exact absurd hev (by simp)
    · rw [ho' f hf, hstore1 f hf] at hfn
      simp only [hf, if_false, hpages]
      exact hinv.evictable_unpinned f n hfn hev
  · intro e he
    simp only at he ⊢
    rcases mem_mapSet_subset _ _ _ _ he with he | he
    · subst he
      exact ⟨h0, h1, by simp, n', hf', by simp⟩
    · obtain ⟨hmem, hkey⟩ := (mem_mapErase _ _ _).mp he
      rw [hpt] at hmem
      obtain ⟨t0, t1, t2, n, t3, t4⟩ := hinv.table_ok e hmem
      have hne : e.2 ≠ fid := by
        intro heq
        apply hkey
        rw [← t2, heq, hpages]
      simp only [hne, if_false, hpages]
      refine ⟨t0, t1, t2, n, ?_, t4⟩
      rw [ho' e.2 hne, hstore1 e.2 hne]
      exact t3

end PoolInstall
section PoolOutcomes

/-- `NewPage` in a state satisfying the invariant: it fails leaving the state
as it is, runs into the undefined behaviour of `Evict`, or returns the next
page id in a frame of the pool, with the state described field by field. -/
theorem newPage_outcome {ps k : Nat} (hps : ps ≤ 2 ^ 63) {b : BufferPoolManager}
    (hinv : PoolInv ps k b) :
    b.NewPage = .ret b none ∨ b.NewPage = .undefined ∨
    ∃ b' fid, b.NewPage = .ret b' (some (b.next_page_id_, fid)) ∧ PoolInv ps k b' ∧
      0 ≤ fid ∧ fid < (ps : Int) ∧
      b'.page_table_ =
        mapSet (mapErase b.page_table_ (b.pages_ fid).page_id_) b.next_page_id_ fid ∧
      b'.pages_ = (fun g =>
        if g = fid then
          { data_ := zeroData b.page_size_, page_id_ := b.next_page_id_, pin_count_ := 1,
            is_dirty_ := false }
        else b.pages_ g) ∧
      b'.disk_ = (if (b.pages_ fid).is_dirty_ then
          diskWrite b.disk_ (b.pages_ fid).page_id_ (b.pages_ fid).data_
        else b.disk_) ∧
      b'.next_page_id_ = b.next_page_id_ + 1 ∧
      b'.pool_size_ = b.pool_size_ ∧ b'.page_size_ = b.page_size_ ∧
      (∀ g, g ≠ fid →
        mapFind b'.replacer_.node_store_ g = mapFind b.replacer_.node_store_ g) ∧
      (∃ n', mapFind b'.replacer_.node_store_ fid = some n' ∧ n'.is_evictable_ = false) ∧
      (b.free_list_ = fid :: b'.free_list_ ∨
        (b.free_list_ = [] ∧ b'.free_list_ = [] ∧ b.EvictableFrame fid)) := by
  rcases acquireFrame_spec hps hinv with h | h | ⟨b1, fid, hacq, h0, h1, hpages, hpt, hdisk, hnext,
    hpsz, hpgsz, hwf1, hstore1, hfree1, hsrc⟩
  · left
    simp [BufferPoolManager.NewPage, h]
  · right; left
    simp [BufferPoolManager.NewPage, h]
  · right; right
    have hne : fid ≠ -1 := by omega
    obtain ⟨r', hcall, hinv', hB, hA⟩ := poolInv_install hps hinv h0 h1 hpages hpt hpsz hwf1 hstore1
      hfree1 b1.next_page_id_ (b1.next_page_id_ + 1)
      (if (b1.pages_ fid).is_dirty_ then
        diskWrite b1.disk_ (b1.pages_ fid).page_id_ (b1.pages_ fid).data_ else b1.disk_)
      (zeroData b1.page_size_) false
    refine ⟨_, fid, ?_, hinv', h0, h1, ?_, ?_, ?_, ?_, ?_, ?_,
      fun g hg => (hA g hg).trans (hstore1 g hg), hB, hsrc⟩
    · simp only [BufferPoolManager.NewPage, hacq, if_neg hne, hcall]
      rw [hnext]
    · simp only [hpt, hpages, hnext]
    · simp only [hpages, hpgsz, hnext]
    · simp only [hpages, hdisk]
    · simp only [hnext]
    · exact hpsz
    · exact hpgsz

/-- `FetchPage` of a mapped page in a state satisfying the invariant. -/
theorem fetchPage_hit_outcome {ps k : Nat} (hps : ps ≤ 2 ^ 63) {b : BufferPoolManager}
    (hinv : PoolInv ps k b) {q fid : Int} (hmap : mapFind b.page_table_ q = some fid) :
    ∃ b', b.FetchPage q = .ret b' (some fid) ∧ PoolInv ps k b' ∧
      b'.page_table_ = b.page_table_ ∧
      b'.pages_ = (fun g =>
        if g = fid then { (b.pages_ fid) with pin_count_ := (b.pages_ fid).pin_count_ + 1 }
        else b.pages_ g) ∧
      b'.disk_ = b.disk_ ∧ b'.next_page_id_ = b.next_page_id_ ∧
      b'.free_list_ = b.free_list_ ∧
      b'.pool_size_ = b.pool_size_ ∧ b'.page_size_ = b.page_size_ ∧
      (∀ g, g ≠ fid →
        mapFind b'.replacer_.node_store_ g = mapFind b.replacer_.node_store_ g) ∧
      (∃ n', mapFind b'.replacer_.node_store_ fid = some n' ∧ n'.is_evictable_ = false) := by
  have hmem := mem_of_mapFind_eq_some hmap
  obtain ⟨t0, t1, t2, n, t3, t4⟩ := hinv.table_ok _ hmem
  simp only at t0 t1 t2 t3 t4
  obtain ⟨r', n', hcall, hwf', hf', hev', ho'⟩ := recordAndPin_spec hps
    (b.setPage fid { (b.pages_ fid) with pin_count_ := (b.pages_ fid).pin_count_ + 1 })
    hinv.rep_wf t0 t1
  simp only [BufferPoolManager.setPage] at hcall ho'
  refine ⟨{ b with
      pages_ := fun g =>
        if g = fid then { (b.pages_ fid) with pin_count_ := (b.pages_ fid).pin_count_ + 1 }
        else b.pages_ g,
      replacer_ := r' }, ?_, ?_, rfl, rfl, rfl, rfl, rfl, rfl, rfl, ho', ⟨n', hf', hev'⟩⟩
  · simp only [BufferPoolManager.FetchPage, hmap, BufferPoolManager.setPage, hcall]
  · refine ⟨hinv.size_eq, hwf', ?_, hinv.free_range, ?_, ?_⟩
    · intro f m hfm
      simp only at hfm
      by_cases hf : f = fid
      · subst hf
        exact ⟨t0, t1⟩
      · rw [ho' f hf] at hfm
        exact hinv.tracked_range f m hfm
    · intro f m hfm hev
      simp only at hfm ⊢
      by_cases hf : f = fid
      · subst hf
        rw [hf'] at hfm
        simp only [Option.some.injEq] at hfm
        subst hfm
        rw [hev'] at hev
        exact absurd hev (by simp)
      · rw [ho' f hf] at hfm
        simp only [hf, if_false]
        exact hinv.evictable_unpinned f m hfm hev
    · intro e he
      simp only at he ⊢
      obtain ⟨s0, s1, s2, m, s3, s4⟩ := hinv.table_ok e he
      by_cases hf : e.2 = fid
      · rw [hf]
        simp only [if_true]
        refine ⟨t0, t1, ?_, n', hf', fun h => by omega⟩
        rw [← hf]
        exact s2
      · simp only [hf, if_false]
        refine ⟨s0, s1, s2, m, ?_, s4⟩
        rw [ho' e.2 hf]
        exact s3

/-- `FetchPage` of an unmapped page in a state satisfying the invariant. -/
theorem fetchPage_miss_outcome {ps k : Nat} (hps : ps ≤ 2 ^ 63) {b : BufferPoolManager}
    (hinv : PoolInv ps k b) {q : Int} (hmap : mapFind b.page_table_ q = none) :
    b.FetchPage q = .ret b none ∨ b.FetchPage q = .undefined ∨
    ∃ b' fid, b.FetchPage q = .ret b' (some fid) ∧ PoolInv ps k b' ∧
      0 ≤ fid ∧ fid < (ps : Int) ∧
      b'.page_table_ = mapSet (mapErase b.page_table_ (b.pages_ fid).page_id_) q fid ∧
      b'.disk_ = (if (b.pages_ fid).is_dirty_ then
          diskWrite b.disk_ (b.pages_ fid).page_id_ (b.pages_ fid).data_
        else b.disk_) ∧
      b'.pages_ = (fun g =>
        if g = fid then
          { data_ := b'.disk_ q, page_id_ := q, pin_count_ := 1, is_dirty_ := false }
        else b.pages_ g) ∧
      b'.next_page_id_ = b.next_page_id_ ∧
      b'.pool_size_ = b.pool_size_ ∧ b'.page_size_ = b.page_size_ ∧
      (∀ g, g ≠ fid →
        mapFind b'.replacer_.node_store_ g = mapFind b.replacer_.node_store_ g) ∧
      (∃ n', mapFind b'.replacer_.node_store_ fid = some n' ∧ n'.is_evictable_ = false) ∧
      (b.free_list_ = fid :: b'.free_list_ ∨
        (b.free_list_ = [] ∧ b'.free_list_ = [] ∧ b.EvictableFrame fid)) := by
  rcases acquireFrame_spec hps hinv with h | h | ⟨b1, fid, hacq, h0, h1, hpages, hpt, hdisk, hnext,
    hpsz, hpgsz, hwf1, hstore1, hfree1, hsrc⟩
  · left
    simp [BufferPoolManager.FetchPage, hmap, h]
  · right; left
    simp [BufferPoolManager.FetchPage, hmap, h]
  · right; right
    have hne : fid ≠ -1 := by omega
    obtain ⟨r', hcall, hinv', hB, hA⟩ := poolInv_install hps hinv h0 h1 hpages hpt hpsz hwf1 hstore1
      hfree1 q b1.next_page_id_
      (if (b1.pages_ fid).is_dirty_ then
        diskWrite b1.disk_ (b1.pages_ fid).page_id_ (b1.pages_ fid).data_ else b1.disk_)
      ((if (b1.pages_ fid).is_dirty_ then
        diskWrite b1.disk_ (b1.pages_ fid).page_id_ (b1.pages_ fid).data_ else b1.disk_) q)
      (if (b1.pages_ fid).is_dirty_ then false else (b1.pages_ fid).is_dirty_)
    refine ⟨_, fid, ?_, hinv', h0, h1, ?_, ?_, ?_, ?_, ?_, ?_,
      fun g hg => (hA g hg).trans (hstore1 g hg), hB, hsrc⟩
    · simp only [BufferPoolManager.FetchPage, hmap, hacq, if_neg hne, hcall]
    · simp only [hpt, hpages]
    · simp only [hpages, hdisk]
    · simp only [hpages]
      funext g
      by_cases hg : g = fid
      · simp only [hg, if_true]
        cases (b.pages_ fid).is_dirty_ <;> simp
      · simp only [hg, if_false]
    · exact hnext
    · exact hpsz
    · exact hpgsz

end PoolOutcomes

section PoolOutcomes2

/-- `UnpinPage` of a mapped, pinned page in a state satisfying the invariant. -/
theorem unpinPage_outcome {ps k : Nat} (hps : ps ≤ 2 ^ 63) {b : BufferPoolManager}
    (hinv : PoolInv ps k b) {q fid : Int} (is_dirty : Bool)
    (hmap : mapFind b.page_table_ q = some fid) (hpin : 0 < (b.pages_ fid).pin_count_) :
    ∃ b', b.UnpinPage q is_dirty = .ret b' true ∧ PoolInv ps k b' ∧
      b'.page_table_ = b.page_table_ ∧
      b'.pages_ = (fun g =>
        if g = fid then
          { (b.pages_ fid) with
            pin_count_ := (b.pages_ fid).pin_count_ - 1,
            is_dirty_ := if is_dirty then true else (b.pages_ fid).is_dirty_ }
        else b.pages_ g) ∧
      b'.disk_ = b.disk_ ∧ b'.next_page_id_ = b.next_page_id_ ∧
      b'.free_list_ = b.free_list_ ∧
      b'.pool_size_ = b.pool_size_ ∧ b'.page_size_ = b.page_size_ ∧
      (∀ g, g ≠ fid →
        mapFind b'.replacer_.node_store_ g = mapFind b.replacer_.node_store_ g) ∧
      (b'.EvictableFrame fid ↔ (b.pages_ fid).pin_count_ - 1 = 0) := by
  have hmem := mem_of_mapFind_eq_some hmap
  obtain ⟨t0, t1, t2, n, t3, t4⟩ := hinv.table_ok _ hmem
  simp only at t0 t1 t2 t3 t4
  have hnle : ¬ (b.pages_ fid).pin_count_ ≤ 0 := by omega
  obtain ⟨hlt, hrepr⟩ := toSizeT_of_range t0 t1 hps
  by_cases hzero : (b.pages_ fid).pin_count_ - 1 = 0
  · -- the last pin is released: the frame becomes evictable
    obtain ⟨r', n', hse, hf', hev', ho', _⟩ := setEvictable_ret_spec b.replacer_ fid true n
      (by rw [hinv.rep_wf.size_eq]; exact hlt) t3
    have hwf' : ReplacerWF ps k r' :=
      replacerWF_setEvictable (lt_size_of_le hps) hinv.rep_wf (by rw [hse]; rfl)
    refine ⟨{ b with
        pages_ := fun g =>
          if g = fid then
            { (b.pages_ fid) with
              pin_count_ := (b.pages_ fid).pin_count_ - 1,
              is_dirty_ := if is_dirty then true else (b.pages_ fid).is_dirty_ }
          else b.pages_ g,
        replacer_ := r' }, ?_, ?_, rfl, rfl, rfl, rfl, rfl, rfl, rfl, ho', ?_⟩
    · simp only [BufferPoolManager.UnpinPage, hmap, if_neg hnle, BufferPoolManager.setPage,
        hzero, if_true, hse]
    · refine ⟨hinv.size_eq, hwf', ?_, hinv.free_range, ?_, ?_⟩
      · intro f m hfm
        simp only at hfm
        by_cases hf : f = fid
        · subst hf
          exact ⟨t0, t1⟩
        · rw [ho' f hf] at hfm
          exact hinv.tracked_range f m hfm
      · intro f m hfm hev
        simp only at hfm ⊢
        by_cases hf : f = fid
        · subst hf
          simp only [if_true]
          exact hzero
        · rw [ho' f hf] at hfm
          simp only [hf, if_false]
          exact hinv.evictable_unpinned f m hfm hev
      · intro e he
        simp only at he ⊢
        obtain ⟨s0, s1, s2, m, s3, s4⟩ := hinv.table_ok e he
        by_cases hf : e.2 = fid
        · rw [hf]
          simp only [if_true]
          refine ⟨t0, t1, ?_, n', hf', fun _ => hev'⟩
          rw [← hf]
          exact s2
        · simp only [hf, if_false]
          refine ⟨s0, s1, s2, m, ?_, s4⟩
          rw [ho' e.2 hf]
          exact s3
    · simp only [BufferPoolManager.EvictableFrame, hzero, iff_true]
      exact ⟨n', hf', hev'⟩
  · -- other pins remain: the replacer is not called
    refine ⟨{ b with
        pages_ := fun g =>
          if g = fid then
            { (b.pages_ fid) with
              pin_count_ := (b.pages_ fid).pin_count_ - 1,
              is_dirty_ := if is_dirty then true else (b.pages_ fid).is_dirty_ }
          else b.pages_ g }, ?_, ?_, rfl, rfl, rfl, rfl, rfl, rfl, rfl, fun _ _ => rfl, ?_⟩
    · simp only [BufferPoolManager.UnpinPage, hmap, if_neg hnle, BufferPoolManager.setPage,
        hzero, if_false]
    · refine ⟨hinv.size_eq, hinv.rep_wf, hinv.tracked_range, hinv.free_range, ?_, ?_⟩
      · intro f m hfm hev
        simp only at hfm ⊢
        have := hinv.evictable_unpinned f m hfm hev
        by_cases hf : f = fid
        · subst hf
          omega
        · simp only [hf, if_false]
          exact this
      · intro e he
        simp only at he ⊢
        obtain ⟨s0, s1, s2, m, s3, s4⟩ := hinv.table_ok e he
        by_cases hf : e.2 = fid
        · rw [hf]
          simp only [if_true]
          refine ⟨t0, t1, ?_, n, t3, fun h => absurd h hzero⟩
          rw [← hf]
          exact s2
        · simp only [hf, if_false]
          exact ⟨s0, s1, s2, m, s3, s4⟩
    · simp only [BufferPoolManager.EvictableFrame, hzero, iff_false]
      rintro ⟨m, hm, hev⟩
      have := hinv.evictable_unpinned fid m hm hev
      omega

/-- `DeletePage` of a mapped, unpinned page in a state satisfying the
invariant. -/
theorem deletePage_outcome {ps k : Nat} (hps : ps ≤ 2 ^ 63) {b : BufferPoolManager}
    (hinv : PoolInv ps k b) {q fid : Int}
    (hmap : mapFind b.page_table_ q = some fid) (hpin : (b.pages_ fid).pin_count_ = 0) :
    ∃ b', b.DeletePage q = .ret b' true ∧ PoolInv ps k b' ∧
      b'.page_table_ = mapErase b.page_table_ q ∧
      b'.pages_ = (fun g =>
        if g = fid then
          { (b.pages_ fid) with data_ := zeroData b.page_size_, pin_count_ := 0,
                                is_dirty_ := false }
        else b.pages_ g) ∧
      b'.disk_ = b.disk_ ∧ b'.next_page_id_ = b.next_page_id_ ∧
      b'.free_list_ = b.free_list_ ++ [fid] ∧
      b'.pool_size_ = b.pool_size_ ∧ b'.page_size_ = b.page_size_ ∧
      mapFind b'.replacer_.node_store_ fid = none ∧
      (∀ g, g ≠ fid →
        mapFind b'.replacer_.node_store_ g = mapFind b.replacer_.node_store_ g) := by
  have hmem := mem_of_mapFind_eq_some hmap
  obtain ⟨t0, t1, t2, n, t3, t4⟩ := hinv.table_ok _ hmem
  simp only at t0 t1 t2 t3 t4
  have hngt : ¬ (b.pages_ fid).pin_count_ > 0 := by omega
  obtain ⟨hlt, hrepr⟩ := toSizeT_of_range t0 t1 hps
  obtain ⟨r', hrm, hf', ho', _⟩ := remove_ret_spec b.replacer_ fid
    (by rw [hinv.rep_wf.size_eq]; exact hlt)
    (by
      intro m hm
      rw [t3] at hm
      simp only [Option.some.injEq] at hm
      subst hm
      exact t4 hpin)
  have hwf' : ReplacerWF ps k r' :=
    replacerWF_remove (lt_size_of_le hps) hinv.rep_wf (by rw [hrm]; rfl)
  refine ⟨{ b with
      replacer_ := r',
      page_table_ := mapErase b.page_table_ q,
      pages_ := fun g =>
        if g = fid then
          { (b.pages_ fid) with data_ := zeroData b.page_size_, pin_count_ := 0,
                                is_dirty_ := false }
        else b.pages_ g,
      free_list_ := b.free_list_ ++ [fid] }, ?_, ?_, rfl, rfl, rfl, rfl, rfl, rfl, rfl, hf', ho'⟩
  · simp only [BufferPoolManager.DeletePage, hmap, if_neg hngt, hrm]
  · refine ⟨hinv.size_eq, hwf', ?_, ?_, ?_, ?_⟩
    · intro f m hfm
      simp only at hfm
      by_cases hf : f = fid
      · subst hf
        exact ⟨t0, t1⟩
      · rw [ho' f hf] at hfm
        exact hinv.tracked_range f m hfm
    · intro f hf
      simp only [List.mem_append, List.mem_singleton] at hf
      rcases hf with hf | hf
      · exact hinv.free_range f hf
      · subst hf
        exact ⟨t0, t1⟩
    · intro f m hfm hev
      simp only at hfm ⊢
      by_cases hf : f = fid
      · subst hf
        simp
      · rw [ho' f hf] at hfm
        simp only [hf, if_false]
        exact hinv.evictable_unpinned f m hfm hev
    · intro e he
      simp only at he ⊢
      obtain ⟨hmem', hkey⟩ := (mem_mapErase _ _ _).mp he
      obtain ⟨s0, s1, s2, m, s3, s4⟩ := hinv.table_ok e hmem'
      have hf : e.2 ≠ fid := by
        intro heq
        apply hkey
        rw [← s2, heq, t2]
      simp only [hf, if_false]
      refine ⟨s0, s1, s2, m, ?_, s4⟩
      rw [ho' e.2 hf]
      exact s3

/-- A change of the frames that keeps every pin count and page id, and nothing
else of what the invariant speaks about, keeps the invariant. -/
theorem poolInv_of_same_meta {ps k : Nat} {b b' : BufferPoolManager} (hinv : PoolInv ps k b)
    (hsz : b'.pool_size_ = b.pool_size_) (hrep : b'.replacer_ = b.replacer_)
    (hpt : b'.page_table_ = b.page_table_) (hfree : b'.free_list_ = b.free_list_)
    (hpin : ∀ g, (b'.pages_ g).pin_count_ = (b.pages_ g).pin_count_)
    (hpid : ∀ g, (b'.pages_ g).page_id_ = (b.pages_ g).page_id_) : PoolInv ps k b' := by
  refine ⟨by rw [hsz]; exact hinv.size_eq, by rw [hrep]; exact hinv.rep_wf, ?_, ?_, ?_, ?_⟩
  · rw [hrep]
    exact hinv.tracked_range
  · rw [hfree]
    exact hinv.free_range
  · intro f n hfn hev
    rw [hrep] at hfn
    rw [hpin]
    exact hinv.evictable_unpinned f n hfn hev
  · intro e he
    rw [hpt] at he
    rw [hrep, hpin, hpid]
    exact hinv.table_ok e he

theorem flushFrame_meta (b : BufferPoolManager) (q fid : Int) :
    (b.flushFrame q fid).pool_size_ = b.pool_size_ ∧
    (b.flushFrame q fid).page_size_ = b.page_size_ ∧
    (b.flushFrame q fid).replacer_ = b.replacer_ ∧
    (b.flushFrame q fid).page_table_ = b.page_table_ ∧
    (b.flushFrame q fid).free_list_ = b.free_list_ ∧
    (b.flushFrame q fid).next_page_id_ = b.next_page_id_ ∧
    (∀ g, ((b.flushFrame q fid).pages_ g).pin_count_ = (b.pages_ g).pin_count_) ∧
    (∀ g, ((b.flushFrame q fid).pages_ g).page_id_ = (b.pages_ g).page_id_) ∧
    (∀ g, ((b.flushFrame q fid).pages_ g).data_ = (b.pages_ g).data_) := by
  refine ⟨rfl, rfl, rfl, rfl, rfl, rfl, ?_, ?_, ?_⟩ <;>
  · intro g
    simp only [BufferPoolManager.flushFrame]
    by_cases hg : g = fid
    · simp [hg]
    · simp [hg]

theorem flushEntries_meta (l : List (Int × Int)) (b : BufferPoolManager) :
    (flushEntries b l).pool_size_ = b.pool_size_ ∧
    (flushEntries b l).page_size_ = b.page_size_ ∧
    (flushEntries b l).replacer_ = b.replacer_ ∧
    (flushEntries b l).page_table_ = b.page_table_ ∧
    (flushEntries b l).free_list_ = b.free_list_ ∧
    (flushEntries b l).next_page_id_ = b.next_page_id_ ∧
    (∀ g, ((flushEntries b l).pages_ g).pin_count_ = (b.pages_ g).pin_count_) ∧
    (∀ g, ((flushEntries b l).pages_ g).page_id_ = (b.pages_ g).page_id_) ∧
    (∀ g, ((flushEntries b l).pages_ g).data_ = (b.pages_ g).data_) := by
  induction l generalizing b with
  | nil => exact ⟨rfl, rfl, rfl, rfl, rfl, rfl, fun _ => rfl, fun _ => rfl, fun _ => rfl⟩
  | cons e rest ih =>
      obtain ⟨a1, a2, a3, a4, a5, a6, a7, a8, a9⟩ := ih (b.flushFrame e.1 e.2)
      obtain ⟨c1, c2, c3, c4, c5, c6, c7, c8, c9⟩ := flushFrame_meta b e.1 e.2
      simp only [flushEntries]
      exact ⟨a1.trans c1, a2.trans c2, a3.trans c3, a4.trans c4, a5.trans c5, a6.trans c6,
        fun g => (a7 g).trans (c7 g), fun g => (a8 g).trans (c8 g),
        fun g => (a9 g).trans (c9 g)⟩

/-- The invariant survives every action of a user of the pool. -/
theorem poolInv_step {ps k : Nat} (hps : ps ≤ 2 ^ 63) {b b' : BufferPoolManager}
    (hinv : PoolInv ps k b) (op : PoolOp) (hs : b.step op = some b') : PoolInv ps k b' := by
  cases op with
  | newPage =>
      simp only [BufferPoolManager.step] at hs
      rcases newPage_outcome hps hinv with h | h | ⟨b1, fid, h, hinv1, _⟩
      · rw [h] at hs
        simp only [Outcome.state?, Option.some.injEq] at hs
        subst hs
        exact hinv
      · rw [h] at hs
        simp [Outcome.state?] at hs
      · rw [h] at hs
        simp only [Outcome.state?, Option.some.injEq] at hs
        subst hs
        exact hinv1
  | fetchPage q =>
      simp only [BufferPoolManager.step] at hs
      cases hmap : mapFind b.page_table_ q with
      | some fid =>
          obtain ⟨b1, h, hinv1, _⟩ := fetchPage_hit_outcome hps hinv hmap
          rw [h] at hs
          simp only [Outcome.state?, Option.some.injEq] at hs
          subst hs
          exact hinv1
      | none =>
          rcases fetchPage_miss_outcome hps hinv hmap with h | h | ⟨b1, fid, h, hinv1, _⟩
          · rw [h] at hs
            simp only [Outcome.state?, Option.some.injEq] at hs
            subst hs
            exact hinv
          · rw [h] at hs
            simp [Outcome.state?] at hs
          · rw [h] at hs
            simp only [Outcome.state?, Option.some.injEq] at hs
            subst hs
            exact hinv1
  | unpinPage q d =>
      simp only [BufferPoolManager.step] at hs
      cases hmap : mapFind b.page_table_ q with
      | none =>
          simp only [BufferPoolManager.UnpinPage, hmap, Outcome.state?, Option.some.injEq] at hs
          subst hs
          exact hinv
      | some fid =>
          by_cases hpin : 0 < (b.pages_ fid).pin_count_
          · obtain ⟨b1, h, hinv1, _⟩ := unpinPage_outcome hps hinv d hmap hpin
            rw [h] at hs
            simp only [Outcome.state?, Option.some.injEq] at hs
            subst hs
            exact hinv1
          · have : (b.pages_ fid).pin_count_ ≤ 0 := by omega
            simp only [BufferPoolManager.UnpinPage, hmap, this, if_true, Outcome.state?,
              Option.some.injEq] at hs
            subst hs
            exact hinv
  | flushPage q =>
      simp only [BufferPoolManager.step] at hs
      cases hmap : mapFind b.page_table_ q with
      | none =>
          simp only [BufferPoolManager.FlushPage, hmap, Outcome.state?, Option.some.injEq] at hs
          subst hs
          exact hinv
      | some fid =>
          simp only [BufferPoolManager.FlushPage, hmap, Outcome.state?, Option.some.injEq] at hs
          subst hs
          obtain ⟨c1, _, c3, c4, c5, _, c7, c8, _⟩ := flushFrame_meta b q fid
          exact poolInv_of_same_meta hinv c1 c3 c4 c5 c7 c8
  | flushAllPages =>
      simp only [BufferPoolManager.step, BufferPoolManager.FlushAllPages, Outcome.state?,
        Option.some.injEq] at hs
      subst hs
      obtain ⟨c1, _, c3, c4, c5, _, c7, c8, _⟩ := flushEntries_meta b.page_table_ b
      exact poolInv_of_same_meta hinv c1 c3 c4 c5 c7 c8
  | deletePage q =>
      simp only [BufferPoolManager.step] at hs
      cases hmap : mapFind b.page_table_ q with
      | none =>
          simp only [BufferPoolManager.DeletePage, hmap, Outcome.state?, Option.some.injEq] at hs
          subst hs
          exact hinv
      | some fid =>
          by_cases hpin : (b.pages_ fid).pin_count_ > 0
          · simp only [BufferPoolManager.DeletePage, hmap, hpin, if_true, Outcome.state?,
              Option.some.injEq] at hs
            subst hs
            exact hinv
          · obtain ⟨b1, h, hinv1, _⟩ := deletePage_outcome hps hinv hmap (by omega)
            rw [h] at hs
            simp only [Outcome.state?, Option.some.injEq] at hs
            subst hs
            exact hinv1
  | writeFrame fid data =>
      simp only [BufferPoolManager.step] at hs
      split at hs
      · simp only [Option.some.injEq] at hs
        subst hs
        refine poolInv_of_same_meta hinv rfl rfl rfl rfl ?_ ?_ <;>
        · intro g
          simp only [BufferPoolManager.writeFrame, BufferPoolManager.setPage]
          by_cases hg : g = fid
          · simp [hg]
          · simp [hg]
      · simp at hs

theorem poolInv_run {ps k : Nat} (hps : ps ≤ 2 ^ 63) (ops : List PoolOp)
    {b b' : BufferPoolManager} (hinv : PoolInv ps k b) (hs : b.run ops = some b') :
    PoolInv ps k b' := by
  induction ops generalizing b with
  | nil =>
      simp only [BufferPoolManager.run, Option.some.injEq] at hs
      subst hs
      exact hinv
  | cons op ops ih =>
      simp only [BufferPoolManager.run] at hs
      cases hstep : b.step op with
      | none => simp [hstep] at hs
      | some b1 =>
          simp only [hstep] at hs
          exact ih (poolInv_step hps hinv op hstep) hs

theorem poolReachable_inv {ps k page_size : Nat} {disk : Int → List Nat} (hps : ps ≤ 2 ^ 63)
    {b : BufferPoolManager} (h : PoolReachable ps k page_size disk b) : PoolInv ps k b := by
  obtain ⟨ops, hrun⟩ := h
  exact poolInv_run hps ops (poolInv_fresh ps k page_size disk) hrun

end PoolOutcomes2

section RoundTrip

/-- `PageKept` survives a change that keeps the mapping of `p`, the disk copy
of `p`, every page id, and the contents and dirtiness of the frame of `p`. -/
theorem pageKept_of_same {p : Int} {X : List Nat} {b b' : BufferPoolManager}
    (h : PageKept p X b) (hnext : b.next_page_id_ ≤ b'.next_page_id_)
    (hmap : mapFind b'.page_table_ p = mapFind b.page_table_ p)
    (hdisk : b'.disk_ p = b.disk_ p)
    (hpid : ∀ g, (b'.pages_ g).page_id_ = (b.pages_ g).page_id_)
    (hframe : ∀ f, mapFind b.page_table_ p = some f →
      (b'.pages_ f).data_ = (b.pages_ f).data_ ∧
      ((b.pages_ f).is_dirty_ = true → (b'.pages_ f).is_dirty_ = true)) :
    PageKept p X b' := by
  obtain ⟨hn, hcase⟩ := h
  refine ⟨lt_of_lt_of_le hn hnext, ?_⟩
  rcases hcase with ⟨f, hf, hX, hd, hsole⟩ | ⟨hf, hd, hnone⟩
  · left
    obtain ⟨h1, h2⟩ := hframe f hf
    refine ⟨f, by rw [hmap]; exact hf, by rw [h1]; exact hX, ?_, ?_⟩
    · rcases hd with hd | hd
      · exact Or.inl (h2 hd)
      · exact Or.inr (by rw [hdisk]; exact hd)
    · intro g hg
      rw [hpid]
      exact hsole g hg
  · right
    exact ⟨by rw [hmap]; exact hf, by rw [hdisk]; exact hd, fun g => by rw [hpid]; exact hnone g⟩

/-- Installing a page `q ≠ p` in a frame (the tail of `NewPage` and of a
missing `FetchPage`) keeps the bytes of `p` safe: if the frame held `p`, they
are written back first should the frame be dirty. -/
theorem pageKept_install {ps k : Nat} {p : Int} {X : List Nat} {b b' : BufferPoolManager}
    (hinv : PoolInv ps k b) (h : PageKept p X b) {q fid : Int} (hq : q ≠ p)
    (hnext : b.next_page_id_ ≤ b'.next_page_id_)
    (hpt : b'.page_table_ = mapSet (mapErase b.page_table_ (b.pages_ fid).page_id_) q fid)
    (hdisk : b'.disk_ = (if (b.pages_ fid).is_dirty_ then
        diskWrite b.disk_ (b.pages_ fid).page_id_ (b.pages_ fid).data_ else b.disk_))
    (hpid : (b'.pages_ fid).page_id_ = q)
    (hpages : ∀ g, g ≠ fid → b'.pages_ g = b.pages_ g) : PageKept p X b' := by
  obtain ⟨hn, hcase⟩ := h
  refine ⟨lt_of_lt_of_le hn hnext, ?_⟩
  have hqp : ¬ q = p := hq
  rcases hcase with ⟨f, hf, hX, hd, hsole⟩ | ⟨hf, hd, hnone⟩
  · have hpf : (b.pages_ f).page_id_ = p := (hinv.table_ok _ (mem_of_mapFind_eq_some hf)).2.2.1
    by_cases hfid : fid = f
    · -- the frame of `p` is the victim
      subst hfid
      right
      refine ⟨?_, ?_, ?_⟩
      · rw [hpt, mapFind_mapSet, if_neg hqp, hpf, mapFind_mapErase]
        simp
      · rw [hdisk, hpf]
        rcases hd with hd | hd
        · simp [hd, diskWrite, hX]
        · by_cases hdirty : (b.pages_ fid).is_dirty_ = true
          · simp [hdirty, diskWrite, hX]
          · simp [hdirty, hd]
      · intro g
        by_cases hg : g = fid
        · rw [hg, hpid]
          exact hq
        · rw [hpages g hg]
          exact hsole g hg
    · left
      have hpid' : (b.pages_ fid).page_id_ ≠ p := hsole fid hfid
      have hpid'' : ¬ (b.pages_ fid).page_id_ = p := hpid'
      have hff : f ≠ fid := fun e => hfid e.symm
      refine ⟨f, ?_, ?_, ?_, ?_⟩
      · rw [hpt, mapFind_mapSet, if_neg hqp, mapFind_mapErase, if_neg hpid'']
        exact hf
      · rw [hpages f hff]
        exact hX
      · rw [hpages f hff, hdisk]
        rcases hd with hd | hd
        · exact Or.inl hd
        · right
          by_cases hdirty : (b.pages_ fid).is_dirty_ = true
          · have : ¬ p = (b.pages_ fid).page_id_ := fun e => hpid' e.symm
            simp [hdirty, diskWrite, this, hd]
          · simp [hdirty, hd]
      · intro g hg
        by_cases hgf : g = fid
        · rw [hgf, hpid]
          exact hq
        · rw [hpages g hgf]
          exact hsole g hg
  · right
    have hpid' : ¬ (b.pages_ fid).page_id_ = p := hnone fid
    refine ⟨?_, ?_, ?_⟩
    · rw [hpt, mapFind_mapSet, if_neg hqp, mapFind_mapErase, if_neg hpid']
      exact hf
    · rw [hdisk]
      by_cases hdirty : (b.pages_ fid).is_dirty_ = true
      · have : ¬ p = (b.pages_ fid).page_id_ := fun e => hpid' e.symm
        simp [hdirty, diskWrite, this, hd]
      · simp [hdirty, hd]
    · intro g
      by_cases hgf : g = fid
      · rw [hgf, hpid]
        exact hq
      · rw [hpages g hgf]
        exact hnone g

/-- The disk copy of `p` after `FlushAllPages` over the entries `l`, when every
entry for `p` points to a frame with contents `X`. -/
theorem flushEntries_disk (p : Int) (X : List Nat) (l : List (Int × Int))
    (b : BufferPoolManager)
    (hX : ∀ e ∈ l, e.1 = p → (b.pages_ e.2).data_ = X) :
    ((∃ e ∈ l, e.1 = p) → (flushEntries b l).disk_ p = X) ∧
    ((∀ e ∈ l, e.1 ≠ p) → (flushEntries b l).disk_ p = b.disk_ p) := by
  induction l generalizing b with
  | nil =>
      exact ⟨fun ⟨e, he, _⟩ => absurd he (List.not_mem_nil _), fun _ => rfl⟩
  | cons x rest ih =>
      have hdata := (flushFrame_meta b x.1 x.2).2.2.2.2.2.2.2.2
      have hX' : ∀ e ∈ rest, e.1 = p → ((b.flushFrame x.1 x.2).pages_ e.2).data_ = X := by
        intro e he hep
        rw [hdata]
        exact hX e (List.mem_cons_of_mem _ he) hep
      obtain ⟨ih1, ih2⟩ := ih (b.flushFrame x.1 x.2) hX'
      simp only [flushEntries]
      constructor
      · rintro ⟨e, he, hep⟩
        by_cases hrest : ∃ e' ∈ rest, e'.1 = p
        · exact ih1 hrest
        · have hnone : ∀ e' ∈ rest, e'.1 ≠ p := fun e' he' hp => hrest ⟨e', he', hp⟩
          rw [ih2 hnone]
          have hx : x.1 = p := by
            rcases List.mem_cons.mp he with h | h
            · rw [← h]; exact hep
            · exact absurd hep (hnone e h)
          simp [BufferPoolManager.flushFrame, diskWrite, hx,
            hX x (List.mem_cons_self _ _) hx]
      · intro hall
        rw [ih2 (fun e he => hall e (List.mem_cons_of_mem _ he))]
        have hx : ¬ p = x.1 := fun e => hall x (List.mem_cons_self _ _) e.symm
        simp [BufferPoolManager.flushFrame, diskWrite, hx]

end RoundTrip

section RoundTripSteps

/-- Two page-table entries for different pages point to different frames. -/
theorem frame_ne_of_page_ne {ps k : Nat} {b : BufferPoolManager} (hinv : PoolInv ps k b)
    {p q f g : Int} (hp : mapFind b.page_table_ p = some f)
    (hq : mapFind b.page_table_ q = some g) (hne : q ≠ p) : f ≠ g := by
  intro heq
  have h1 := (hinv.table_ok _ (mem_of_mapFind_eq_some hp)).2.2.1
  have h2 := (hinv.table_ok _ (mem_of_mapFind_eq_some hq)).2.2.1
  simp only at h1 h2
  rw [heq, h2] at h1
  exact hne h1

/-- The bytes of `p` stay safe under every action that avoids `p`. -/
theorem pageKept_step {ps k : Nat} (hps : ps ≤ 2 ^ 63) {p : Int} {X : List Nat}
    {b b' : BufferPoolManager} (hinv : PoolInv ps k b) (h : PageKept p X b) (op : PoolOp)
    (hav : op.avoids p b = true) (hs : b.step op = some b') : PageKept p X b' := by
  cases op with
  | newPage =>
      simp only [BufferPoolManager.step] at hs
      rcases newPage_outcome hps hinv with ho | ho | ⟨b1, fid, ho, _, _, _, hpt, hpages, hdisk,
        hnext, _, _⟩
      · rw [ho] at hs
        simp only [Outcome.state?, Option.some.injEq] at hs
        subst hs
        exact h
      · rw [ho] at hs
        simp [Outcome.state?] at hs
      · rw [ho] at hs
        simp only [Outcome.state?, Option.some.injEq] at hs
        subst hs
        have hq : b.next_page_id_ ≠ p := by
          have := h.1
          omega
        refine pageKept_install hinv h hq (by rw [hnext]; omega) hpt hdisk ?_ ?_
        · rw [hpages]
          simp
        · intro g hg
          rw [hpages]
          simp [hg]
  | fetchPage q =>
      simp only [BufferPoolManager.step] at hs
      cases hmap : mapFind b.page_table_ q with
      | some fid =>
          obtain ⟨b1, ho, _, hpt, hpages, hdisk, hnext, _⟩ := fetchPage_hit_outcome hps hinv hmap
          rw [ho] at hs
          simp only [Outcome.state?, Option.some.injEq] at hs
          subst hs
          refine pageKept_of_same h (by rw [hnext]) (by rw [hpt]) (by rw [hdisk]) ?_ ?_
          · intro g
            rw [hpages]
            by_cases hg : g = fid
            · simp [hg]
            · simp [hg]
          · intro f _
            rw [hpages]
            by_cases hg : f = fid
            · simp [hg]
            · simp [hg]
      | none =>
          rcases fetchPage_miss_outcome hps hinv hmap with ho | ho | ⟨b1, fid, ho, _, _, _, hpt,
            hdisk, hpages, hnext, _, _⟩
          · rw [ho] at hs
            simp only [Outcome.state?, Option.some.injEq] at hs
            subst hs
            exact h
          · rw [ho] at hs
            simp [Outcome.state?] at hs
          · rw [ho] at hs
            simp only [Outcome.state?, Option.some.injEq] at hs
            subst hs
            by_cases hq : q = p
            · -- the page itself is read back from the disk
              subst hq
              obtain ⟨hn, hcase⟩ := h
              refine ⟨by rw [hnext]; exact hn, ?_⟩
              rcases hcase with ⟨f, hf, _⟩ | ⟨_, hd, hnone⟩
              · rw [hmap] at hf
                simp at hf
              · left
                have hpid' : ¬ q = (b.pages_ fid).page_id_ := fun e => hnone fid e.symm
                have hdq : b1.disk_ q = X := by
                  rw [hdisk]
                  by_cases hdirty : (b.pages_ fid).is_dirty_ = true
                  · simp [hdirty, diskWrite, hpid', hd]
                  · simp [hdirty, hd]
                refine ⟨fid, ?_, ?_, Or.inr hdq, ?_⟩
                · rw [hpt, mapFind_mapSet]
                  simp
                · rw [hpages]
                  simp [hdq]
                · intro g hg
                  rw [hpages]
                  simp only [hg, if_false]
                  exact hnone g
            · refine pageKept_install hinv h hq (by rw [hnext]) hpt hdisk ?_ ?_
              · rw [hpages]
                simp
              · intro g hg
                rw [hpages]
                simp [hg]
  | unpinPage q d =>
      simp only [PoolOp.avoids, decide_eq_true_eq] at hav
      simp only [BufferPoolManager.step] at hs
      cases hmap : mapFind b.page_table_ q with
      | none =>
          simp only [BufferPoolManager.UnpinPage, hmap, Outcome.state?, Option.some.injEq] at hs
          subst hs
          exact h
      | some fid =>
          by_cases hpin : 0 < (b.pages_ fid).pin_count_
          · obtain ⟨b1, ho, _, hpt, hpages, hdisk, hnext, _⟩ :=
              unpinPage_outcome hps hinv d hmap hpin
            rw [ho] at hs
            simp only [Outcome.state?, Option.some.injEq] at hs
            subst hs
            refine pageKept_of_same h (by rw [hnext]) (by rw [hpt]) (by rw [hdisk]) ?_ ?_
            · intro g
              rw [hpages]
              by_cases hg : g = fid
              · simp [hg]
              · simp [hg]
            · intro f hf
              have hne := frame_ne_of_page_ne hinv hf hmap hav
              rw [hpages]
              simp [hne]
          · have : (b.pages_ fid).pin_count_ ≤ 0 := by omega
            simp only [BufferPoolManager.UnpinPage, hmap, this, if_true, Outcome.state?,
              Option.some.injEq] at hs
            subst hs
            exact h
  | flushPage q =>
      simp only [PoolOp.avoids, decide_eq_true_eq] at hav
      simp only [BufferPoolManager.step] at hs
      cases hmap : mapFind b.page_table_ q with
      | none =>
          simp only [BufferPoolManager.FlushPage, hmap, Outcome.state?, Option.some.injEq] at hs
          subst hs
          exact h
      | some fid =>
          simp only [BufferPoolManager.FlushPage, hmap, Outcome.state?, Option.some.injEq] at hs
          subst hs
          obtain ⟨_, _, _, c4, _, c6, _, c8, c9⟩ := flushFrame_meta b q fid
          refine pageKept_of_same h (by rw [c6]) (by rw [c4]) ?_ c8 ?_
          · have : ¬ p = q := fun e => hav e.symm
            simp [BufferPoolManager.flushFrame, diskWrite, this]
          · intro f hf
            have hne := frame_ne_of_page_ne hinv hf hmap hav
            refine ⟨c9 f, ?_⟩
            simp [BufferPoolManager.flushFrame, hne]
  | flushAllPages =>
      simp only [BufferPoolManager.step, BufferPoolManager.FlushAllPages, Outcome.state?,
        Option.some.injEq] at hs
      subst hs
      obtain ⟨_, _, _, c4, _, c6, _, c8, c9⟩ := flushEntries_meta b.page_table_ b
      obtain ⟨hn, hcase⟩ := h
      refine ⟨by rw [c6]; exact hn, ?_⟩
      rcases hcase with ⟨f, hf, hX, _, hsole⟩ | ⟨hf, hd, hnone⟩
      · left
        have hall : ∀ e ∈ b.page_table_, e.1 = p → (b.pages_ e.2).data_ = X := by
          intro e he hep
          have hpid := (hinv.table_ok e he).2.2.1
          have : e.2 = f := by
            by_contra hne
            exact hsole e.2 hne (by rw [hpid, hep])
          rw [this]
          exact hX
        have hd := (flushEntries_disk p X b.page_table_ b hall).1
          ⟨(p, f), mem_of_mapFind_eq_some hf, rfl⟩
        refine ⟨f, by rw [c4]; exact hf, by rw [c9]; exact hX, Or.inr hd, ?_⟩
        intro g hg
        rw [c8]
        exact hsole g hg
      · right
        have hall : ∀ e ∈ b.page_table_, e.1 ≠ p := (mapFind_eq_none_iff _ _).mp hf
        have hd' := (flushEntries_disk p X b.page_table_ b
          (fun e he hep => absurd hep (hall e he))).2 hall
        exact ⟨by rw [c4]; exact hf, by rw [hd']; exact hd, fun g => by rw [c8]; exact hnone g⟩
  | deletePage q =>
      simp only [PoolOp.avoids, decide_eq_true_eq] at hav
      simp only [BufferPoolManager.step] at hs
      cases hmap : mapFind b.page_table_ q with
      | none =>
          simp only [BufferPoolManager.DeletePage, hmap, Outcome.state?, Option.some.injEq] at hs
          subst hs
          exact h
      | some fid =>
          by_cases hpin : (b.pages_ fid).pin_count_ > 0
          · simp only [BufferPoolManager.DeletePage, hmap, hpin, if_true, Outcome.state?,
              Option.some.injEq] at hs
            subst hs
            exact h
          · obtain ⟨b1, ho, _, hpt, hpages, hdisk, hnext, _⟩ :=
              deletePage_outcome hps hinv hmap (by omega)
            rw [ho] at hs
            simp only [Outcome.state?, Option.some.injEq] at hs
            subst hs
            refine pageKept_of_same h (by rw [hnext]) ?_ (by rw [hdisk]) ?_ ?_
            · have : ¬ q = p := hav
              rw [hpt, mapFind_mapErase, if_neg this]
            · intro g
              rw [hpages]
              by_cases hg : g = fid
              · simp [hg]
              · simp [hg]
            · intro f hf
              have hne := frame_ne_of_page_ne hinv hf hmap hav
              rw [hpages]
              simp [hne]
  | writeFrame fid data =>
      simp only [PoolOp.avoids, decide_eq_true_eq] at hav
      simp only [BufferPoolManager.step] at hs
      split at hs
      · simp only [Option.some.injEq] at hs
        subst hs
        refine pageKept_of_same h (le_refl _) rfl rfl ?_ ?_
        · intro g
          simp only [BufferPoolManager.writeFrame, BufferPoolManager.setPage]
          by_cases hg : g = fid
          · simp [hg]
          · simp [hg]
        · intro f hf
          have hne : f ≠ fid := by
            intro e
            apply hav
            rw [hf, e]
          simp [BufferPoolManager.writeFrame, BufferPoolManager.setPage, hne]
      · simp at hs

theorem pageKept_run {ps k : Nat} (hps : ps ≤ 2 ^ 63) {p : Int} {X : List Nat}
    (ops : List PoolOp) {b b' : BufferPoolManager} (hinv : PoolInv ps k b)
    (h : PageKept p X b) (hav : avoidingRun p b ops = true) (hs : b.run ops = some b') :
    PageKept p X b' ∧ PoolInv ps k b' := by
  induction ops generalizing b with
  | nil =>
      simp only [BufferPoolManager.run, Option.some.injEq] at hs
      subst hs
      exact ⟨h, hinv⟩
  | cons op ops ih =>
      simp only [BufferPoolManager.run] at hs
      simp only [avoidingRun, Bool.and_eq_true] at hav
      cases hstep : b.step op with
      | none => simp [hstep] at hs
      | some b1 =>
          simp only [hstep] at hs hav
          exact ih (poolInv_step hps hinv op hstep) (pageKept_step hps hinv h op hav.1 hstep)
            hav.2 hs

end RoundTripSteps

section FramePartition

theorem frameInv_fresh (pool_size k page_size : Nat) (disk : Int → List Nat) :
    FrameInv pool_size (BufferPoolManager.new pool_size k page_size disk) where
  keys_nodup := List.nodup_nil
  free_nodup := by
    show ((List.range pool_size).map Int.ofNat).Nodup
    exact List.Nodup.map (fun a b h => Int.ofNat.inj h) (List.nodup_range pool_size)
  covered := by
    intro f h0 h1
    left
    show f ∈ (List.range pool_size).map Int.ofNat
    refine List.mem_map.mpr ⟨f.toNat, List.mem_range.mpr (by omega), ?_⟩
    show ((f.toNat : Nat) : Int) = f
    omega
  free_unmapped := by
    intro f _ e he
    exact absurd he (List.not_mem_nil e)
  next_nonneg := le_refl 0
  mapped_below := by
    intro e he
    exact absurd he (List.not_mem_nil e)
  free_below := by
    intro f _
    show (-1 : Int) < 0
    omega
  free_stale := fun _ _ => rfl
  evictable_mapped := by
    rintro f ⟨n, hn, _⟩
    simp [BufferPoolManager.new, LRUKReplacer.new, mapFind] at hn

/-- A step that changes neither the page table, the free list, the next page id
nor any `page_id_`, and makes only mapped frames evictable, keeps the
invariant. -/
theorem frameInv_of_same_table {ps : Nat} {b b' : BufferPoolManager} (hfr : FrameInv ps b)
    (hpt : b'.page_table_ = b.page_table_) (hfree : b'.free_list_ = b.free_list_)
    (hnext : b'.next_page_id_ = b.next_page_id_)
    (hpid : ∀ g, (b'.pages_ g).page_id_ = (b.pages_ g).page_id_)
    (hev : ∀ f, b'.EvictableFrame f → b.EvictableFrame f ∨ ∃ p, (p, f) ∈ b.page_table_) :
    FrameInv ps b' := by
  refine ⟨by rw [hpt]; exact hfr.keys_nodup, by rw [hfree]; exact hfr.free_nodup, ?_, ?_,
    by rw [hnext]; exact hfr.next_nonneg, ?_, ?_, ?_, ?_⟩
  · rw [hfree, hpt]
    exact hfr.covered
  · rw [hfree, hpt]
    exact hfr.free_unmapped
  · rw [hpt, hnext]
    exact hfr.mapped_below
  · intro f hf
    rw [hfree] at hf
    rw [hpid, hnext]
    exact hfr.free_below f hf
  · intro f hf
    rw [hfree] at hf
    rw [hpid, hpt]
    exact hfr.free_stale f hf
  · intro f hf
    rw [hpt]
    rcases hev f hf with h | h
    · exact hfr.evictable_mapped f h
    · exact h

/-- Installing the page `q` in the frame `fid` taken from the free list or from
the replacer (the common tail of `NewPage` and `FetchPage`) keeps the
invariant, if `q` is not mapped, is below the next page id and is not the stale
id of a frame of the free list. -/
theorem frameInv_install {ps k : Nat} {b b' : BufferPoolManager} (hinv : PoolInv ps k b)
    (hfr : FrameInv ps b) {fid q : Int}
    (hpt : b'.page_table_ = mapSet (mapErase b.page_table_ (b.pages_ fid).page_id_) q fid)
    (hpid : ∀ g, g ≠ fid → (b'.pages_ g).page_id_ = (b.pages_ g).page_id_)
    (hnext : b.next_page_id_ ≤ b'.next_page_id_)
    (hq0 : 0 ≤ q) (hq1 : q < b'.next_page_id_)
    (hqnew : mapFind b.page_table_ q = none)
    (hqfree : ∀ f ∈ b.free_list_, (b.pages_ f).page_id_ ≠ q)
    (hA : ∀ g, g ≠ fid →
      mapFind b'.replacer_.node_store_ g = mapFind b.replacer_.node_store_ g)
    (hB : ∃ n', mapFind b'.replacer_.node_store_ fid = some n' ∧ n'.is_evictable_ = false)
    (hsrc : b.free_list_ = fid :: b'.free_list_ ∨
      (b.free_list_ = [] ∧ b'.free_list_ = [] ∧ b.EvictableFrame fid)) :
    FrameInv ps b' := by
  have hkeep : ∀ e ∈ b.page_table_, e.2 ≠ fid → e.1 ≠ (b.pages_ fid).page_id_ := by
    intro e he hne heq
    rcases hsrc with h | ⟨_, _, h⟩
    · have hmem : fid ∈ b.free_list_ := by rw [h]; exact List.mem_cons_self _ _
      have := hfr.free_stale fid hmem
      exact (mapFind_eq_none_iff _ _).mp this e he heq
    · obtain ⟨p, hp⟩ := hfr.evictable_mapped fid h
      have hp2 := (hinv.table_ok _ hp).2.2.1
      simp only at hp2
      have h1 := mapFind_eq_some_of_mem hfr.keys_nodup hp
      have h2 : mapFind b.page_table_ e.1 = some e.2 := mapFind_eq_some_of_mem hfr.keys_nodup he
      rw [heq, hp2, h1] at h2
      simp only [Option.some.injEq] at h2
      exact hne h2.symm
  have hkeep2 : ∀ e ∈ b.page_table_, e.1 ≠ (b.pages_ fid).page_id_ → e.2 ≠ fid := by
    intro e he hne heq
    have := (hinv.table_ok e he).2.2.1
    rw [heq] at this
    exact hne this.symm
  have hmem' : ∀ e, e ∈ b'.page_table_ ↔ e = (q, fid) ∨ (e ∈ b.page_table_ ∧ e.2 ≠ fid) := by
    intro e
    rw [hpt, mem_mapSet_of_nodup (nodup_keys_mapErase hfr.keys_nodup _), mem_mapErase]
    constructor
    · rintro (h | ⟨⟨h1, h2⟩, _⟩)
      · exact Or.inl h
      · exact Or.inr ⟨h1, hkeep2 e h1 h2⟩
    · rintro (h | ⟨h1, h2⟩)
      · exact Or.inl h
      · exact Or.inr ⟨⟨h1, hkeep e h1 h2⟩, (mapFind_eq_none_iff _ _).mp hqnew e h1⟩
  have hfree' : ∀ f, f ∈ b'.free_list_ → f ∈ b.free_list_ ∧ f ≠ fid := by
    intro f hf
    rcases hsrc with h | ⟨_, h, _⟩
    · have hnd := hfr.free_nodup
      rw [h] at hnd ⊢
      refine ⟨List.mem_cons_of_mem _ hf, ?_⟩
      rintro rfl
      exact (List.nodup_cons.mp hnd).1 hf
    · rw [h] at hf
      exact absurd hf (List.not_mem_nil f)
  refine ⟨?_, ?_, ?_, ?_, le_trans hfr.next_nonneg hnext, ?_, ?_, ?_, ?_⟩
  · rw [hpt]
    exact nodup_keys_mapSet (nodup_keys_mapErase hfr.keys_nodup _) _ _
  · rcases hsrc with h | ⟨_, h, _⟩
    · have hnd := hfr.free_nodup
      rw [h] at hnd
      exact (List.nodup_cons.mp hnd).2
    · rw [h]
      exact List.nodup_nil
  · intro f h0 h1
    by_cases hf : f = fid
    · right
      exact ⟨q, (hmem' _).mpr (Or.inl (by rw [hf]))⟩
    · rcases hfr.covered f h0 h1 with h | ⟨p, hp⟩
      · left
        rcases hsrc with hs | ⟨hs, _, _⟩
        · rw [hs] at h
          rcases List.mem_cons.mp h with h | h
          · exact absurd h hf
          · exact h
        · rw [hs] at h
          exact absurd h (List.not_mem_nil f)
      · right
        exact ⟨p, (hmem' _).mpr (Or.inr ⟨hp, hf⟩)⟩
  · intro f hf e he
    obtain ⟨hf1, hf2⟩ := hfree' f hf
    rcases (hmem' e).mp he with h | ⟨h, _⟩
    · rw [h]
      exact fun heq => hf2 heq.symm
    · exact hfr.free_unmapped f hf1 e h
  · intro e he
    rcases (hmem' e).mp he with h | ⟨h, _⟩
    · rw [h]
      exact ⟨hq0, hq1⟩
    · have := hfr.mapped_below e h
      exact ⟨this.1, lt_of_lt_of_le this.2 hnext⟩
  · intro f hf
    obtain ⟨hf1, hf2⟩ := hfree' f hf
    rw [hpid f hf2]
    exact lt_of_lt_of_le (hfr.free_below f hf1) hnext
  · intro f hf
    obtain ⟨hf1, hf2⟩ := hfree' f hf
    rw [hpid f hf2, hpt, mapFind_mapSet, mapFind_mapErase]
    have h1 : ¬ q = (b.pages_ f).page_id_ := fun h => hqfree f hf1 h.symm
    rw [if_neg h1]
    split
    · rfl
    · exact hfr.free_stale f hf1
  · rintro f ⟨n, hn, hev⟩
    by_cases hf : f = fid
    · exact ⟨q, (hmem' _).mpr (Or.inl (by rw [hf]))⟩
    · rw [hA f hf] at hn
      obtain ⟨p, hp⟩ := hfr.evictable_mapped f ⟨n, hn, hev⟩
      exact ⟨p, (hmem' _).mpr (Or.inr ⟨hp, hf⟩)⟩

/-- `DeletePage` of a mapped, unpinned page keeps the invariant: its frame goes
to the free list with the deleted id left in `page_id_`. -/
theorem frameInv_delete {ps k : Nat} {b b' : BufferPoolManager} (hinv : PoolInv ps k b)
    (hfr : FrameInv ps b) {fid q : Int} (hmap : mapFind b.page_table_ q = some fid)
    (hpt : b'.page_table_ = mapErase b.page_table_ q)
    (hpid : ∀ g, (b'.pages_ g).page_id_ = (b.pages_ g).page_id_)
    (hnext : b'.next_page_id_ = b.next_page_id_)
    (hfree : b'.free_list_ = b.free_list_ ++ [fid])
    (hgone : mapFind b'.replacer_.node_store_ fid = none)
    (hA : ∀ g, g ≠ fid →
      mapFind b'.replacer_.node_store_ g = mapFind b.replacer_.node_store_ g) :
    FrameInv ps b' := by
  have hmem := mem_of_mapFind_eq_some hmap
  have hfpid : (b.pages_ fid).page_id_ = q := (hinv.table_ok _ hmem).2.2.1
  have honly : ∀ e ∈ b.page_table_, e.1 ≠ q ↔ e.2 ≠ fid := by
    intro e he
    constructor
    · intro hne heq
      have := (hinv.table_ok e he).2.2.1
      rw [heq, hfpid] at this
      exact hne this.symm
    · intro hne heq
      have h2 : mapFind b.page_table_ e.1 = some e.2 := mapFind_eq_some_of_mem hfr.keys_nodup he
      rw [heq, hmap] at h2
      simp only [Option.some.injEq] at h2
      exact hne h2.symm
  have hnotfree : fid ∉ b.free_list_ := fun h => hfr.free_unmapped fid h _ hmem rfl
  refine ⟨?_, ?_, ?_, ?_, by rw [hnext]; exact hfr.next_nonneg, ?_, ?_, ?_, ?_⟩
  · rw [hpt]
    exact nodup_keys_mapErase hfr.keys_nodup _
  · rw [hfree]
    refine List.Nodup.append hfr.free_nodup (List.nodup_singleton _) ?_
    intro x hx hx'
    simp only [List.mem_singleton] at hx'
    subst hx'
    exact hnotfree hx
  · intro f h0 h1
    rw [hfree, hpt]
    rcases hfr.covered f h0 h1 with h | ⟨p, hp⟩
    · exact Or.inl (List.mem_append_left _ h)
    · by_cases hf : f = fid
      · left
        rw [hf]
        exact List.mem_append_right _ (List.mem_singleton_self _)
      · right
        exact ⟨p, (mem_mapErase _ _ _).mpr ⟨hp, (honly _ hp).mpr hf⟩⟩
  · intro f hf e he
    rw [hfree] at hf
    rw [hpt] at he
    obtain ⟨he1, he2⟩ := (mem_mapErase _ _ _).mp he
    rcases List.mem_append.mp hf with h | h
    · exact hfr.free_unmapped f h e he1
    · simp only [List.mem_singleton] at h
      rw [h]
      exact (honly e he1).mp he2
  · intro e he
    rw [hpt] at he
    rw [hnext]
    exact hfr.mapped_below e ((mem_mapErase _ _ _).mp he).1
  · intro f hf
    rw [hfree] at hf
    rw [hpid, hnext]
    rcases List.mem_append.mp hf with h | h
    · exact hfr.free_below f h
    · simp only [List.mem_singleton] at h
      rw [h, hfpid]
      exact (hfr.mapped_below _ hmem).2
  · intro f hf
    rw [hfree] at hf
    rw [hpid, hpt, mapFind_mapErase]
    split
    · rfl
    · rcases List.mem_append.mp hf with h | h
      · exact hfr.free_stale f h
      · simp only [List.mem_singleton] at h
        rename_i hne
        rw [h, hfpid] at hne
        exact absurd rfl hne
  · rintro f ⟨n, hn, hev⟩
    by_cases hf : f = fid
    · rw [hf, hgone] at hn
      simp at hn
    · rw [hA f hf] at hn
      obtain ⟨p, hp⟩ := hfr.evictable_mapped f ⟨n, hn, hev⟩
      rw [hpt]
      exact ⟨p, (mem_mapErase _ _ _).mpr ⟨hp, (honly _ hp).mpr hf⟩⟩

end FramePartition

section FramePartitionSteps

/-- The invariant survives every action on live pages. -/
theorem frameInv_step {ps k : Nat} (hps : ps ≤ 2 ^ 63) {b b' : BufferPoolManager}
    (hinv : PoolInv ps k b) (hfr : FrameInv ps b) (op : PoolOp) (hlive : op.live b = true)
    (hs : b.step op = some b') : FrameInv ps b' := by
  cases op with
  | newPage =>
      simp only [BufferPoolManager.step] at hs
      rcases newPage_outcome hps hinv with h | h | ⟨b1, fid, h, _, h0, h1, hpt, hpages, _, hnext,
        _, _, hA, hB, hsrc⟩
      · rw [h] at hs
        simp only [Outcome.state?, Option.some.injEq] at hs
        subst hs
        exact hfr
      · rw [h] at hs
        simp [Outcome.state?] at hs
      · rw [h] at hs
        simp only [Outcome.state?, Option.some.injEq] at hs
        subst hs
        refine frameInv_install hinv hfr hpt ?_ (by rw [hnext]; omega) hfr.next_nonneg
          (by rw [hnext]; omega) ?_ ?_ hA hB hsrc
        · intro g hg
          rw [hpages]
          simp only [hg, if_false]
        · rw [mapFind_eq_none_iff]
          intro e he heq
          have := (hfr.mapped_below e he).2
          omega
        · intro f hf heq
          have := hfr.free_below f hf
          omega
  | fetchPage q =>
      simp only [BufferPoolManager.step] at hs
      cases hmap : mapFind b.page_table_ q with
      | some fid =>
          obtain ⟨b1, h, _, hpt, hpages, _, hnext, hfree, _, _, hA, hB⟩ :=
            fetchPage_hit_outcome hps hinv hmap
          rw [h] at hs
          simp only [Outcome.state?, Option.some.injEq] at hs
          subst hs
          refine frameInv_of_same_table hfr hpt hfree hnext ?_ ?_
          · intro g
            rw [hpages]
            by_cases hg : g = fid
            · simp [hg]
            · simp [hg]
          · rintro f ⟨n, hn, hev⟩
            by_cases hf : f = fid
            · right
              exact ⟨q, by rw [hf]; exact mem_of_mapFind_eq_some hmap⟩
            · left
              rw [hA f hf] at hn
              exact ⟨n, hn, hev⟩
      | none =>
          simp only [PoolOp.live, Bool.and_eq_true, decide_eq_true_eq, List.all_eq_true] at hlive
          obtain ⟨⟨hq0, hq1⟩, hqfree⟩ := hlive
          rcases fetchPage_miss_outcome hps hinv hmap with h | h | ⟨b1, fid, h, _, h0, h1, hpt, _,
            hpages, hnext, _, _, hA, hB, hsrc⟩
          · rw [h] at hs
            simp only [Outcome.state?, Option.some.injEq] at hs
            subst hs
            exact hfr
          · rw [h] at hs
            simp [Outcome.state?] at hs
          · rw [h] at hs
            simp only [Outcome.state?, Option.some.injEq] at hs
            subst hs
            refine frameInv_install hinv hfr hpt ?_ (by rw [hnext]) hq0 (by rw [hnext]; exact hq1)
              hmap ?_ hA hB hsrc
            · intro g hg
              rw [hpages]
              simp only [hg, if_false]
            · intro f hf
              exact hqfree f hf
  | unpinPage q d =>
      simp only [BufferPoolManager.step] at hs
      cases hmap : mapFind b.page_table_ q with
      | none =>
          simp only [BufferPoolManager.UnpinPage, hmap, Outcome.state?, Option.some.injEq] at hs
          subst hs
          exact hfr
      | some fid =>
          by_cases hpin : 0 < (b.pages_ fid).pin_count_
          · obtain ⟨b1, h, _, hpt, hpages, _, hnext, hfree, _, _, hA, _⟩ :=
              unpinPage_outcome hps hinv d hmap hpin
            rw [h] at hs
            simp only [Outcome.state?, Option.some.injEq] at hs
            subst hs
            refine frameInv_of_same_table hfr hpt hfree hnext ?_ ?_
            · intro g
              rw [hpages]
              by_cases hg : g = fid
              · simp [hg]
              · simp [hg]
            · rintro f ⟨n, hn, hev⟩
              by_cases hf : f = fid
              · right
                exact ⟨q, by rw [hf]; exact mem_of_mapFind_eq_some hmap⟩
              · left
                rw [hA f hf] at hn
                exact ⟨n, hn, hev⟩
          · have : (b.pages_ fid).pin_count_ ≤ 0 := by omega
            simp only [BufferPoolManager.UnpinPage, hmap, this, if_true, Outcome.state?,
              Option.some.injEq] at hs
            subst hs
            exact hfr
  | flushPage q =>
      simp only [BufferPoolManager.step] at hs
      cases hmap : mapFind b.page_table_ q with
      | none =>
          simp only [BufferPoolManager.FlushPage, hmap, Outcome.state?, Option.some.injEq] at hs
          subst hs
          exact hfr
      | some fid =>
          simp only [BufferPoolManager.FlushPage, hmap, Outcome.state?, Option.some.injEq] at hs
          subst hs
          obtain ⟨_, _, c3, c4, c5, c6, _, c8, _⟩ := flushFrame_meta b q fid
          refine frameInv_of_same_table hfr c4 c5 c6 c8 ?_
          intro f hf
          left
          simpa only [BufferPoolManager.EvictableFrame, c3] using hf
  | flushAllPages =>
      simp only [BufferPoolManager.step, BufferPoolManager.FlushAllPages, Outcome.state?,
        Option.some.injEq] at hs
      subst hs
      obtain ⟨_, _, c3, c4, c5, c6, _, c8, _⟩ := flushEntries_meta b.page_table_ b
      refine frameInv_of_same_table hfr c4 c5 c6 c8 ?_
      intro f hf
      left
      simpa only [BufferPoolManager.EvictableFrame, c3] using hf
  | deletePage q =>
      simp only [BufferPoolManager.step] at hs
      cases hmap : mapFind b.page_table_ q with
      | none =>
          simp only [BufferPoolManager.DeletePage, hmap, Outcome.state?, Option.some.injEq] at hs
          subst hs
          exact hfr
      | some fid =>
          by_cases hpin : (b.pages_ fid).pin_count_ > 0
          · simp only [BufferPoolManager.DeletePage, hmap, hpin, if_true, Outcome.state?,
              Option.some.injEq] at hs
            subst hs
            exact hfr
          · obtain ⟨b1, h, _, hpt, hpages, _, hnext, hfree, _, _, hgone, hA⟩ :=
              deletePage_outcome hps hinv hmap (by omega)
            rw [h] at hs
            simp only [Outcome.state?, Option.some.injEq] at hs
            subst hs
            refine frameInv_delete hinv hfr hmap hpt ?_ hnext hfree hgone hA
            intro g
            rw [hpages]
            by_cases hg : g = fid
            · simp [hg]
            · simp [hg]
  | writeFrame fid data =>
      simp only [BufferPoolManager.step] at hs
      split at hs
      · simp only [Option.some.injEq] at hs
        subst hs
        refine frameInv_of_same_table hfr rfl rfl rfl ?_ (fun f hf => Or.inl hf)
        intro g
        simp only [BufferPoolManager.writeFrame, BufferPoolManager.setPage]
        by_cases hg : g = fid
        · simp [hg]
        · simp [hg]
      · simp at hs

theorem frameInv_run {ps k : Nat} (hps : ps ≤ 2 ^ 63) (ops : List PoolOp)
    {b b' : BufferPoolManager} (hinv : PoolInv ps k b) (hfr : FrameInv ps b)
    (hlive : liveRun b ops = true) (hs : b.run ops = some b') :
    PoolInv ps k b' ∧ FrameInv ps b' := by
  induction ops generalizing b with
  | nil =>
      simp only [BufferPoolManager.run, Option.some.injEq] at hs
      subst hs
      exact ⟨hinv, hfr⟩
  | cons op ops ih =>
      simp only [BufferPoolManager.run] at hs
      simp only [liveRun, Bool.and_eq_true] at hlive
      cases hstep : b.step op with
      | none => simp [hstep] at hs
      | some b1 =>
          simp only [hstep] at hs hlive
          exact ih (poolInv_step hps hinv op hstep) (frameInv_step hps hinv hfr op hlive.1 hstep)
            hlive.2 hs

theorem poolLiveReached_inv {ps k page_size : Nat} {disk : Int → List Nat} (hps : ps ≤ 2 ^ 63)
    {ops : List PoolOp} {b : BufferPoolManager}
    (h : PoolLiveReachedBy ps k page_size disk ops b) : PoolInv ps k b ∧ FrameInv ps b :=
  frameInv_run hps ops (poolInv_fresh ps k page_size disk) (frameInv_fresh ps k page_size disk)
    h.2 h.1

end FramePartitionSteps

section FrameCounting

/-- In a list without duplicates, the entries that satisfy `P` are the single
entry `x` when `x` is in the list, satisfies `P`, and is the only one to do
so. -/
theorem filter_eq_singleton {α : Type} (P : α → Bool) {l : List α} (hnd : l.Nodup) {x : α}
    (hx : x ∈ l) (hP : P x = true) (honly : ∀ y ∈ l, P y = true → y = x) :
    l.filter P = [x] := by
  induction l with
  | nil => exact absurd hx (List.not_mem_nil x)
  | cons a rest ih =>
      obtain ⟨ha, hrest⟩ := List.nodup_cons.mp hnd
      by_cases hax : a = x
      · subst hax
        have hnone : rest.filter P = [] := by
          rw [List.filter_eq_nil_iff]
          intro y hy hPy
          have := honly y (List.mem_cons_of_mem _ hy) hPy
          subst this
          exact ha hy
        rw [List.filter_cons, hP, if_pos rfl, hnone]
      · have hxr : x ∈ rest := by
          rcases List.mem_cons.mp hx with h | h
          · exact absurd h.symm hax
          · exact h
        have hPa : ¬ P a = true := fun h => hax (honly a (List.mem_cons_self _ _) h)
        rw [List.filter_cons, if_neg hPa]
        exact ih hrest hxr (fun y hy => honly y (List.mem_cons_of_mem _ hy))

/-- Setting a predicate to `c` at one point `j` of a list without duplicates,
where it was false, adds one to the count exactly when `c` is true. -/
theorem countP_update (c : Bool) (g : Nat → Bool) {l : List Nat} (hnd : l.Nodup) {j : Nat}
    (hj : j ∈ l) (hg : g j = false) :
    l.countP (fun i => if i = j then c else g i) = l.countP g + (if c = true then 1 else 0) := by
  induction l with
  | nil => exact absurd hj (List.not_mem_nil j)
  | cons a rest ih =>
      obtain ⟨ha, hrest⟩ := List.nodup_cons.mp hnd
      by_cases haj : a = j
      · subst haj
        have hsame : rest.countP (fun i => if i = a then c else g i) = rest.countP g := by
          apply List.countP_congr
          intro i hi
          have : i ≠ a := fun h => ha (h ▸ hi)
          simp [this]
        rw [List.countP_cons, List.countP_cons, hsame]
        simp [hg]
      · have hjr : j ∈ rest := by
          rcases List.mem_cons.mp hj with h | h
          · exact absurd h.symm haj
          · exact h
        rw [List.countP_cons, List.countP_cons, ih hrest hjr]
        simp only [haj, if_false]
        omega

/-- The evictable nodes of a node store with one node per frame of the pool
are as many as the frames of the pool that the store marks evictable. -/
theorem countP_range_store (ps : Nat) (store : List (Int × LRUKNode))
    (hnd : (store.map Prod.fst).Nodup)
    (hrange : ∀ e ∈ store, 0 ≤ e.1 ∧ e.1 < (ps : Int)) :
    (List.range ps).countP (fun i =>
        match mapFind store (Int.ofNat i) with
        | some n => n.is_evictable_
        | none => false)
      = evictableCount store := by
  induction store with
  | nil =>
      simp [mapFind, evictableCount]
  | cons x rest ih =>
      obtain ⟨a, n⟩ := x
      simp only [List.map_cons, List.nodup_cons] at hnd
      obtain ⟨hfresh, hnd'⟩ := hnd
      have hr := hrange (a, n) (List.mem_cons_self _ _)
      simp only at hr
      have hnone : mapFind rest a = none := by
        rw [mapFind_eq_none_iff]
        intro e he heq
        exact hfresh (List.mem_map.mpr ⟨e, he, heq⟩)
      have hja : Int.ofNat a.toNat = a := by
        show ((a.toNat : Nat) : Int) = a
        omega
      have hfun : ∀ i ∈ List.range ps,
          (match mapFind ((a, n) :: rest) (Int.ofNat i) with
            | some m => m.is_evictable_
            | none => false) =
          (if i = a.toNat then n.is_evictable_
            else match mapFind rest (Int.ofNat i) with
              | some m => m.is_evictable_
              | none => false) := by
        intro i _
        have hunf : mapFind ((a, n) :: rest) (Int.ofNat i) =
            if a = Int.ofNat i then some n else mapFind rest (Int.ofNat i) := rfl
        rw [hunf]
        by_cases hi : i = a.toNat
        · rw [if_pos hi, hi, hja, if_pos rfl]
        · have hne : ¬ a = Int.ofNat i := by
            intro h
            apply hi
            rw [h]
            rfl
          rw [if_neg hi, if_neg hne]
      rw [List.countP_congr (fun i hi => by rw [hfun i hi])]
      rw [countP_update n.is_evictable_ _ (List.nodup_range ps)
        (List.mem_range.mpr (by omega)) (by rw [hja, hnone])]
      rw [ih hnd' (fun e he => hrange e (List.mem_cons_of_mem _ he))]
      simp only [evictableCount, List.countP_cons]

end FrameCounting

/-! ## Claims about the LRU-K replacer -/

section ReplacerClaims

/-- C1 (amended): let `r` be a replacer state reached from a fresh
`LRUKReplacer(num_frames, k)` with `k ≥ 1` by calls of RecordAccess,
SetEvictable, Evict and Remove of which fewer than `2^63 - 1` are RecordAccess
calls, and let `store` be any iteration order of its node store.  Then `Evict`
returns; it returns none exactly when no tracked node is evictable; a returned
frame is the LRU-K victim (among the evictable nodes with fewer than `k`
recorded accesses the one with the smallest oldest timestamp if there is such a
node, else the evictable node with the smallest front timestamp); every history
has at most `k` entries; and the result is the one obtained in the order of
`r` itself. -/
theorem evict_selects_lruk_victim (num_frames k : Nat) (ops : List ReplacerOp)
    (r : LRUKReplacer) (store : List (Int × LRUKNode))
    (hnf : num_frames < SIZE_T_MOD) (hk : 1 ≤ k) (hcount : recordCount ops < OLDEST_INIT)
    (hreach : ReplacerReachedBy num_frames k ops r) (hperm : store.Perm r.node_store_) :
    ∃ r' res, LRUKReplacer.Evict { r with node_store_ := store } = .ret r' res ∧
      (res = none ↔ ∀ e ∈ r.node_store_, e.2.is_evictable_ = false) ∧
      (∀ f, res = some f → IsLRUKVictim k r.node_store_ f) ∧
      (∀ e ∈ r.node_store_, e.2.history_.length ≤ k) ∧
      r.Evict.value? = some res := by
  have hcount' : 0 + recordCount ops < SIZE_T_MOD := by
    have : OLDEST_INIT < SIZE_T_MOD := by decide
    omega
  obtain ⟨hwf, ht⟩ := replacer_invariants_run hnf hk ops (replacerWF_fresh num_frames k)
    (replacerTimed_fresh k num_frames) hreach.1 hcount' hreach.2
  have hn : 0 + recordCount ops < OLDEST_INIT := by omega
  obtain ⟨r', res, h1, h2, h3⟩ := evict_core hnf hn hwf ht hperm
  obtain ⟨r0, res0, g1, g2, g3⟩ := evict_core hnf hn hwf ht (List.Perm.refl r.node_store_)
  refine ⟨r', res, h1, h2, h3, fun e he => (ht.hist_ok e he).2.1, ?_⟩
  have g1' : r.Evict = .ret r0 res0 := g1
  rw [g1']
  simp only [Outcome.value?, Option.some.injEq]
  cases hres : res with
  | none =>
      rw [hres] at h2
      exact g2.mpr (h2.mp rfl)
  | some f =>
      cases hres0 : res0 with
      | none =>
          rw [hres0] at g2
          have := h2.mpr (g2.mp rfl)
          rw [hres] at this
          simp at this
      | some g =>
          have := lrukVictim_unique ht (h3 f hres) (g3 g hres0)
          rw [this]

/-- C1, witness: the theorem at the run `sampleReplacerOps` of a fresh
`LRUKReplacer(3, 2)`, with the node store iterated in reverse order. -/
theorem evict_selects_lruk_victim_witness :
    3 < SIZE_T_MOD ∧ 1 ≤ 2 ∧ recordCount sampleReplacerOps < OLDEST_INIT ∧
    ReplacerReachedBy 3 2 sampleReplacerOps sampleReplacer ∧
    sampleReplacer.node_store_.reverse.Perm sampleReplacer.node_store_ ∧
    ∃ r' res,
      LRUKReplacer.Evict { sampleReplacer with node_store_ := sampleReplacer.node_store_.reverse }
        = .ret r' res ∧
      (res = none ↔ ∀ e ∈ sampleReplacer.node_store_, e.2.is_evictable_ = false) ∧
      (∀ f, res = some f → IsLRUKVictim 2 sampleReplacer.node_store_ f) ∧
      (∀ e ∈ sampleReplacer.node_store_, e.2.history_.length ≤ 2) ∧
      sampleReplacer.Evict.value? = some res :=
  ⟨by decide, by decide, by decide, ⟨by decide, by decide⟩, List.reverse_perm _,
    evict_selects_lruk_victim 3 2 sampleReplacerOps sampleReplacer
      sampleReplacer.node_store_.reverse (by decide) (by decide) (by decide)
      ⟨by decide, by decide⟩ (List.reverse_perm _)⟩

/-- C1, counterexample: the claim as stated fails on two reachable states.
With `k = 0`, after `RecordAccess(0)` and `SetEvictable(0, true)` one node is
evictable and `Evict` calls `front()` on its empty history (undefined
behaviour) instead of returning that node.  With `k = 1`, after `2^63 - 1`
calls `RecordAccess(0)` and `SetEvictable(0, true)` one node is evictable, its
only timestamp equals the initial value of `oldest`, and `Evict` returns
none. -/
theorem evict_fails_for_zero_k_and_at_sentinel :
    (ReplacerReachedBy 1 0 [.recordAccess 0, .setEvictable 0 true] zeroKState ∧
      evictableCount zeroKState.node_store_ = 1 ∧
      zeroKState.Evict = .undefined) ∧
    (ReplacerReachedBy 1 1
        (List.replicate OLDEST_INIT (.recordAccess 0) ++ [.setEvictable 0 true]) sentinelState ∧
      evictableCount sentinelState.node_store_ = 1 ∧
      sentinelState.Evict = .ret sentinelState none) := by
  refine ⟨⟨⟨by decide, by decide⟩, by decide, by decide⟩, ⟨⟨?_, sentinel_run⟩, by decide, by decide⟩⟩
  intro op hop
  rcases List.mem_append.mp hop with h | h
  · rw [List.eq_of_mem_replicate h]
    decide
  · simp only [List.mem_singleton] at h
    subst h
    decide

/-- C10 (amended): `Remove(frame_id)` on a reachable replacer state.  It raises
an error exactly when `static_cast<size_t>(frame_id) >= num_frames`, that is
when `frame_id >= num_frames` or `frame_id` is negative with
`num_frames <= 2^64 + frame_id`; if the id passes that check and no node exists
it returns silently; if the node exists and is not evictable it raises an
error; in these three cases the replacer state is unchanged.  If the node
exists and is evictable, the call returns, the node is removed, `Size`
decreases by exactly one, every other node is unchanged, and so is the clock. -/
theorem remove_contract (num_frames k : Nat) (r : LRUKReplacer) (frame_id : Int)
    (hnf : num_frames < SIZE_T_MOD) (hr : ReplacerReachable num_frames k r)
    (hf : FrameIdRepr frame_id) :
    (toSizeT frame_id ≥ num_frames ↔
      ((num_frames : Int) ≤ frame_id ∨
        (frame_id < 0 ∧ (num_frames : Int) ≤ 2 ^ 64 + frame_id))) ∧
    (toSizeT frame_id ≥ num_frames → ∃ msg, r.Remove frame_id = .throw r msg) ∧
    (toSizeT frame_id < num_frames → mapFind r.node_store_ frame_id = none →
      r.Remove frame_id = .ret r ()) ∧
    (toSizeT frame_id < num_frames → ∀ n, mapFind r.node_store_ frame_id = some n →
      n.is_evictable_ = false → ∃ msg, r.Remove frame_id = .throw r msg) ∧
    (toSizeT frame_id < num_frames → ∀ n, mapFind r.node_store_ frame_id = some n →
      n.is_evictable_ = true →
      ∃ r', r.Remove frame_id = .ret r' () ∧
        mapFind r'.node_store_ frame_id = none ∧
        r'.Size + 1 = r.Size ∧
        (∀ g, g ≠ frame_id → mapFind r'.node_store_ g = mapFind r.node_store_ g) ∧
        r'.current_timestamp_ = r.current_timestamp_) := by
  have hwf := replacerReachable_wf hnf hr
  have hsz := hwf.size_eq
  refine ⟨?_, ?_, ?_, ?_, ?_⟩
  · unfold toSizeT SIZE_T_MOD
    unfold FrameIdRepr at hf
    unfold SIZE_T_MOD at hnf
    norm_num at hf hnf ⊢
    omega
  · intro h
    exact ⟨"frame_id invalid333", by simp [LRUKReplacer.Remove, hsz, h]⟩
  · intro h hfind
    have : ¬ toSizeT frame_id ≥ r.replacer_size_ := by rw [hsz]; omega
    simp [LRUKReplacer.Remove, this, hfind]
  · intro h n hfind hev
    have : ¬ toSizeT frame_id ≥ r.replacer_size_ := by rw [hsz]; omega
    exact ⟨"frame_id invalid444", by simp [LRUKReplacer.Remove, this, hfind, hev]⟩
  · intro h n hfind hev
    have hrange : ¬ toSizeT frame_id ≥ r.replacer_size_ := by rw [hsz]; omega
    refine ⟨{ r with curr_size_ := sizeDec r.curr_size_,
                     node_store_ := mapErase r.node_store_ frame_id }, ?_, ?_, ?_, ?_, rfl⟩
    · simp [LRUKReplacer.Remove, hrange, hfind, hev]
    · simp [mapFind_mapErase]
    · have hc := countP_mapErase_of_mem (fun e : Int × LRUKNode => e.2.is_evictable_)
        hwf.nodup (mem_of_mapFind_eq_some hfind)
      have h2 := hwf.curr_size
      have h3 := replacerWF_count_le hwf
      simp only [evictableCount] at h2 h3
      simp only [hev, if_true] at hc
      show sizeDec r.curr_size_ + 1 = r.curr_size_
      rw [sizeDec_eq (by omega) (by omega)]
      omega
    · intro g hg
      have : ¬ frame_id = g := fun e => hg e.symm
      simp [mapFind_mapErase, this]

/-- C10, witness: the theorem for `Remove(1)` on the state `sampleReplacer` of
an `LRUKReplacer(3, 2)`. -/
theorem remove_contract_witness :
    3 < SIZE_T_MOD ∧ ReplacerReachable 3 2 sampleReplacer ∧ FrameIdRepr 1 ∧
    ∃ r', sampleReplacer.Remove 1 = .ret r' () ∧
      mapFind r'.node_store_ 1 = none ∧ r'.Size + 1 = sampleReplacer.Size :=
  have h := (remove_contract 3 2 sampleReplacer 1 (by decide)
    ⟨sampleReplacerOps, by decide, by decide⟩ (by decide)).2.2.2.2 (by decide) _ rfl rfl
  ⟨by decide, ⟨sampleReplacerOps, by decide, by decide⟩, by decide,
    h.elim (fun r' hr' => ⟨r', hr'.1, hr'.2.1, hr'.2.2.1⟩)⟩

/-- C10, counterexample: on a fresh `LRUKReplacer(2^64 - 1, 2)` the negative
frame id `-2` converts to `2^64 - 2`, passes the range check, and `Remove(-2)`
returns silently instead of raising an error. -/
theorem remove_accepts_negative_frame_id :
    (-2 : Int) < 0 ∧ FrameIdRepr (-2) ∧ 2 ^ 64 - 1 < SIZE_T_MOD ∧
    (LRUKReplacer.new (2 ^ 64 - 1) 2).Remove (-2) = .ret (LRUKReplacer.new (2 ^ 64 - 1) 2) () := by
  decide

end ReplacerClaims

section ReplacerSizeClaims

/-- C17: replacer size invariant.  In every state `r` reached from a fresh
`LRUKReplacer(num_frames, k)` by RecordAccess, SetEvictable, Evict and Remove
calls (the calls that raise an error included), `Size()` equals the number of
tracked nodes whose `is_evictable_` flag is set.  A node created by
`RecordAccess` starts non-evictable and leaves `Size()` as it is;
`SetEvictable` with the flag the node already has returns with the state
unchanged; and every further call changes `Size()` by exactly `-1`, `0` or
`+1` as a natural number, so that the unsigned counter never wraps below
zero. -/
theorem replacer_size_invariant (num_frames k : Nat) (ops : List ReplacerOp) (r : LRUKReplacer)
    (hnf : num_frames < SIZE_T_MOD) (hreach : ReplacerReachedBy num_frames k ops r) :
    r.Size = evictableCount r.node_store_ ∧
    (∀ f r', mapFind r.node_store_ f = none → r.RecordAccess f = .ret r' () →
      (∃ n, mapFind r'.node_store_ f = some n ∧ n.is_evictable_ = false) ∧ r'.Size = r.Size) ∧
    (∀ f n, mapFind r.node_store_ f = some n →
      r.SetEvictable f n.is_evictable_ = .ret r ()) ∧
    (∀ op r', op.Representable → r.step op = some r' →
      r'.Size = evictableCount r'.node_store_ ∧
      ((0 < r.Size ∧ r'.Size = r.Size - 1) ∨ r'.Size = r.Size ∨ r'.Size = r.Size + 1)) := by
  have hwf := replacerReachable_wf hnf ⟨ops, hreach⟩
  refine ⟨hwf.curr_size, ?_, ?_, ?_⟩
  · intro f r' hfind hcall
    unfold LRUKReplacer.RecordAccess at hcall
    by_cases hrange : toSizeT f ≥ r.replacer_size_
    · simp [hrange] at hcall
    · rw [if_neg hrange] at hcall
      simp only [hfind, Outcome.ret.injEq, and_true] at hcall
      subst hcall
      exact ⟨⟨(LRUKNode.new r.k_ f).PushTimestamp (sizeInc r.current_timestamp_),
        by simp [mapFind], rfl⟩, rfl⟩
  · intro f n hfind
    have hmem := mem_of_mapFind_eq_some hfind
    have hlt : toSizeT f < r.replacer_size_ := by
      rw [hwf.size_eq]
      exact (hwf.node_ok _ hmem).2.2.1
    have hr : ¬ toSizeT f ≥ r.replacer_size_ := by omega
    unfold LRUKReplacer.SetEvictable
    rw [if_neg hr]
    simp only [hfind, if_true]
  · intro op r' hop hs
    have hwf' := replacerWF_step hnf hwf hop hs
    have h1 : r.curr_size_ = evictableCount r.node_store_ := hwf.curr_size
    have h2 : r'.curr_size_ = evictableCount r'.node_store_ := hwf'.curr_size
    have h3 := evictableCount_step hwf hs
    refine ⟨h2, ?_⟩
    show (0 < r.curr_size_ ∧ r'.curr_size_ = r.curr_size_ - 1) ∨ r'.curr_size_ = r.curr_size_ ∨
      r'.curr_size_ = r.curr_size_ + 1
    omega

/-- C17, witness: the invariant at the state `sampleReplacer`, reached by
`sampleReplacerOps` from a fresh `LRUKReplacer(3, 2)`. -/
theorem replacer_size_invariant_witness :
    3 < SIZE_T_MOD ∧ ReplacerReachedBy 3 2 sampleReplacerOps sampleReplacer ∧
    sampleReplacer.Size = 2 ∧
    sampleReplacer.Size = evictableCount sampleReplacer.node_store_ ∧
    (∀ f r', mapFind sampleReplacer.node_store_ f = none →
      sampleReplacer.RecordAccess f = .ret r' () →
      (∃ n, mapFind r'.node_store_ f = some n ∧ n.is_evictable_ = false) ∧
        r'.Size = sampleReplacer.Size) ∧
    (∀ f n, mapFind sampleReplacer.node_store_ f = some n →
      sampleReplacer.SetEvictable f n.is_evictable_ = .ret sampleReplacer ()) ∧
    (∀ op r', op.Representable → sampleReplacer.step op = some r' →
      r'.Size = evictableCount r'.node_store_ ∧
      ((0 < sampleReplacer.Size ∧ r'.Size = sampleReplacer.Size - 1) ∨
        r'.Size = sampleReplacer.Size ∨ r'.Size = sampleReplacer.Size + 1)) :=
  ⟨by decide, ⟨by decide, by decide⟩, rfl,
    replacer_size_invariant 3 2 sampleReplacerOps sampleReplacer (by decide)
      ⟨by decide, by decide⟩⟩

end ReplacerSizeClaims

/-! ## Claims about the trie -/

section TrieClaims

/-- C2: `Put` is value-preserving.  For every trie `t`, every key (the empty
key included) and every value `val`, `Get<T>(key)` on `t.Put(key, val)` with
`T` the payload type of `val` yields `val`, and for every other key `key'` and
every payload type `T`, `Get<T>(key')` on `t.Put(key, val)` yields exactly what
it yields on `t`. -/
theorem put_then_get (t : Trie) (key : List Char) (val : Value) :
    (t.Put key val).Get val.type key = some val ∧
    ∀ (key' : List Char) (T : PayloadType), key' ≠ key →
      (t.Put key val).Get T key' = t.Get T key' := by
  constructor
  · obtain ⟨root', hroot, hval⟩ := valueAt_Put t key val key
    rw [trie_get_eq, hroot]
    simp only [hval, if_true]
  · intro key' T hne
    obtain ⟨root', hroot, hval⟩ := valueAt_Put t key val key'
    rw [trie_get_eq, trie_get_eq, hroot]
    simp only [hval, if_neg hne]
    cases t.root_ <;> rfl

/-- C3: `Remove` of a present key deletes exactly that key.  If `Get<T>(key)`
on `t` yields a value, then `t.Remove(key)` returns a trie on which `Get` of
`key` yields none for every payload type and on which `Get` of every other key
yields exactly what it yields on `t`. -/
theorem remove_present_key (t : Trie) (key : List Char) (T : PayloadType) (v : Value)
    (hget : t.Get T key = some v) :
    ∃ t', t.Remove key = some t' ∧
      (∀ T', t'.Get T' key = none) ∧
      ∀ (key' : List Char) (T' : PayloadType), key' ≠ key → t'.Get T' key' = t.Get T' key' := by
  rw [trie_get_eq] at hget
  cases hroot : t.root_ with
  | none => simp [hroot] at hget
  | some root =>
      simp only [hroot] at hget
      cases hval : valueAt root key with
      | none => simp [hval] at hget
      | some v0 =>
          cases key with
          | nil =>
              refine ⟨{ root_ := some (.mk root.children_ none) }, ?_, ?_, ?_⟩
              · simp [Trie.Remove, hroot]
              · intro T'
                simp [trie_get_eq]
              · intro key' T' hne
                cases key' with
                | nil => exact absurd rfl hne
                | cons d r =>
                    simp only [trie_get_eq, hroot]
                    rw [valueAt_cons_congr (n := .mk root.children_ none) (m := root) rfl d r]
          | cons c rest =>
              obtain ⟨n', p, hw, hspec⟩ := removeWalk_present (c :: rest) root v0 (by simp) hval
              refine ⟨{ root_ := some n' }, ?_, ?_, ?_⟩
              · simp [Trie.Remove, hroot, hw]
              · intro T'
                simp [trie_get_eq, hspec]
              · intro key' T' hne
                simp only [trie_get_eq, hroot, hspec, if_neg hne]

/-- C3, witness: the specification's scenario `t2 = empty.Put("ab",1).Put("ac",2)`,
`t3 = t2.Remove("ab")`: `t3.Get("ab")` is none and `t3.Get("ac")` is 2. -/
theorem remove_present_key_witness :
    sampleTrie2.Get .uint32 "ab".toList = some (.uint32 1) ∧
    ∃ t3, sampleTrie2.Remove "ab".toList = some t3 ∧
      t3.Get .uint32 "ab".toList = none ∧
      t3.Get .uint32 "ac".toList = some (.uint32 2) := by
  refine ⟨by decide, ?_⟩
  obtain ⟨t3, h1, h2, h3⟩ :=
    remove_present_key sampleTrie2 "ab".toList .uint32 (.uint32 1) (by decide)
  refine ⟨t3, h1, h2 _, ?_⟩
  rw [h3 "ac".toList .uint32 (by decide)]
  decide

/-- C4 (amended): `Remove` of a key `key` for which `Get` yields none for every
payload type.  For the empty key it returns a trie on which every `Get` yields
what it yields on `t` (the root keeps its children).  For a non-empty key it
returns the empty trie, in the case where the parent of the terminal node exists
with children but without a child for the last character left aside. -/
theorem remove_absent_key (t : Trie) (key : List Char)
    (habsent : ∀ T, t.Get T key = none) :
    (key = [] → ∃ t', t.Remove key = some t' ∧
      ∀ (key' : List Char) (T : PayloadType), t'.Get T key' = t.Get T key') ∧
    (key ≠ [] → ¬ MissingLastChild t key →
      t.Remove key = some Trie.empty ∧
      ∀ (key' : List Char) (T : PayloadType), Trie.empty.Get T key' = none) := by
  have hfresh : ∀ k : List Char, valueAt (.mk [] none) k = none := by
    intro k
    cases k with
    | nil => rfl
    | cons c r => exact valueAt_leaf _ _ _
  have hval : ∀ root, t.root_ = some root → valueAt root key = none := by
    intro root hroot
    cases hv : valueAt root key with
    | none => rfl
    | some v =>
        have := habsent v.type
        rw [trie_get_eq, hroot] at this
        simp [hv] at this
  constructor
  · intro hkey
    subst hkey
    cases hroot : t.root_ with
    | none =>
        refine ⟨{ root_ := some (.mk [] none) }, by simp [Trie.Remove, hroot], ?_⟩
        intro key' T
        simp [trie_get_eq, hroot, hfresh]
    | some root =>
        refine ⟨{ root_ := some (.mk root.children_ none) }, by simp [Trie.Remove, hroot], ?_⟩
        intro key' T
        simp only [trie_get_eq, hroot]
        cases key' with
        | nil =>
            have := hval root hroot
            simp only [valueAt_nil] at this
            simp [this]
        | cons d r => rw [valueAt_cons_congr (n := .mk root.children_ none) (m := root) rfl d r]
  · intro hkey hmiss
    refine ⟨?_, fun _ _ => rfl⟩
    obtain ⟨c, rest, rfl⟩ : ∃ c rest, key = c :: rest := by
      cases key with
      | nil => exact absurd rfl hkey
      | cons c rest => exact ⟨c, rest, rfl⟩
    cases hroot : t.root_ with
    | none =>
        rcases removeWalk_absent (c :: rest) (.mk [] none) (by simp) (hfresh _) with
          h | ⟨_, p, c0, h2, _, h4, _⟩
        · simp [Trie.Remove, hroot, h]
        · exfalso
          cases hd : (c :: rest).dropLast with
          | nil =>
              rw [hd] at h2
              simp only [trieWalk, Option.some.injEq] at h2
              subst h2
              exact h4 rfl
          | cons d r =>
              rw [hd] at h2
              simp [trieWalk, mapFind] at h2
    | some root =>
        rcases removeWalk_absent (c :: rest) root (by simp) (hval root hroot) with
          h | ⟨_, p, c0, h2, h3, h4, h5⟩
        · simp [Trie.Remove, hroot, h]
        · exact absurd ⟨root, p, c0, hroot, h2, h3, h4, h5⟩ hmiss

/-- C4, witness: `empty.Put("ab", 1).Remove("abc")`, where the parent `"ab"` of
the terminal node has no children, is the empty trie. -/
theorem remove_absent_key_witness :
    (∀ T, sampleTrie.Get T "abc".toList = none) ∧
    "abc".toList ≠ [] ∧ ¬ MissingLastChild sampleTrie "abc".toList ∧
    sampleTrie.Remove "abc".toList = some Trie.empty := by
  have habs : ∀ T, sampleTrie.Get T "abc".toList = none := by
    intro T
    cases T <;> decide
  have hmiss : ¬ MissingLastChild sampleTrie "abc".toList := by
    rintro ⟨r, p, c, h1, h2, h3, h4, h5⟩
    have hr : sampleTrie.root_ =
        some (.mk [('a', .mk [('b', .mk [] (some (.uint32 1)))] none)] none) := rfl
    rw [hr] at h1
    simp only [Option.some.injEq] at h1
    subst h1
    have hp : p = .mk [] (some (.uint32 1)) := by
      have : trieWalk (.mk [('a', .mk [('b', .mk [] (some (.uint32 1)))] none)] none)
          "abc".toList.dropLast = some (.mk [] (some (.uint32 1))) := rfl
      rw [this] at h2
      simp only [Option.some.injEq] at h2
      exact h2.symm
    subst hp
    exact h4 rfl
  exact ⟨habs, by decide, hmiss,
    ((remove_absent_key sampleTrie "abc".toList habs).2 (by decide) hmiss).1⟩

/-- C4, counterexample: on `t = empty.Put("ab", 1)` the empty key is absent
(`Get` yields none for every payload type), yet `t.Remove("")` is not the empty
trie: `Get("ab")` on the result still yields 1. -/
theorem remove_empty_key_keeps_entries :
    sampleTrie.Get .uint32 [] = none ∧ sampleTrie.Get .uint64 [] = none ∧
    sampleTrie.Get .string [] = none ∧ sampleTrie.Get .integer [] = none ∧
    sampleTrie.Get .moveBlocked [] = none ∧
    (sampleTrie.Remove []).map (fun t' => t'.Get .uint32 "ab".toList)
      = some (some (.uint32 1)) := by
  decide

/-- C18: the pruning invariant fails on `empty.Put("a", 1).Remove("a")`.  The
loop of lines 106-112 of `Trie::Remove` looks only at the nodes of `vec`, the
path without the terminal node, so the terminal node, left without value and
without children by line 103, stays in the children map of the root: the
result has the root `root` with the child `n` for the character a, and `n` is
childless, valueless and not the root. -/
theorem remove_keeps_childless_valueless_node :
    ∃ root n, (Trie.empty.Put "a".toList (.uint32 1)).Remove "a".toList
        = some { root_ := some root } ∧
      root.children_ ≠ [] ∧ mapFind root.children_ 'a' = some n ∧
      n.children_ = [] ∧ n.value_ = none ∧ n.is_value_node_ = false :=
  ⟨.mk [('a', .mk [] none)] none, .mk [] none, rfl, List.cons_ne_nil _ _, rfl, rfl,
    rfl, rfl⟩

/-- C19: `Remove` dereferences a missing child on `empty.Put("ab", 1).Remove("ac")`.
The node for the key without its last character exists and has the child b but
no child for the character c, so `children_[key.back()]` inserts a null pointer
and `->is_value_node_` reads through it: the lookup of the last character
reaches the none branch (`removeLast` yields `nullDeref`) and the call has no
defined result. -/
theorem remove_dereferences_missing_child :
    MissingLastChild sampleTrie "ac".toList ∧
    removeLast (.mk [('b', .mk [] (some (.uint32 1)))] none) 'c'
      = .nullDeref ∧
    sampleTrie.Remove "ac".toList = none :=
  ⟨⟨.mk [('a', .mk [('b', .mk [] (some (.uint32 1)))] none)] none,
      .mk [('b', .mk [] (some (.uint32 1)))] none, 'c', rfl, rfl, rfl,
      List.cons_ne_nil _ _, rfl⟩, rfl, rfl⟩

end TrieClaims

/-! ## Claims about the buffer pool manager -/

section PoolClaims

theorem no_evictable_of_all_pinned {ps k : Nat} {b : BufferPoolManager} (hinv : PoolInv ps k b)
    (hpinned : ∀ f, 0 ≤ f → f < (ps : Int) → 0 < (b.pages_ f).pin_count_) :
    ∀ e ∈ b.replacer_.node_store_, e.2.is_evictable_ = false := by
  intro e he
  by_contra hne
  have hev : e.2.is_evictable_ = true := by simpa using hne
  have hfind : mapFind b.replacer_.node_store_ e.1 = some e.2 :=
    mapFind_eq_some_of_mem hinv.rep_wf.nodup he
  have h0 := hinv.evictable_unpinned e.1 e.2 hfind hev
  have hr := hinv.tracked_range e.1 e.2 hfind
  have := hpinned e.1 hr.1 hr.2
  omega

theorem acquireFrame_exhausted {b : BufferPoolManager} (hfree : b.free_list_ = [])
    (hev : b.replacer_.Evict = .ret b.replacer_ none) : b.acquireFrame = .ret b (-1) := by
  have hb : ({ b with free_list_ := [] } : BufferPoolManager) = b := by
    cases b
    simp only at hfree
    subst hfree
    rfl
  unfold BufferPoolManager.acquireFrame
  rw [hfree]
  simp only [hev]
  exact congrArg (fun x => Outcome.ret x (-1 : Int)) hb

/-- C6: pool exhaustion is a recoverable none result that changes nothing.  In
every reachable pool state whose free list is empty and in which every frame is
pinned, `NewPage` returns none and `FetchPage(q)` returns none for every
unmapped page id `q`, and the state after the call is the state before it (page
table, frames, free list, replacer, next page id and disk). -/
theorem pool_exhaustion_changes_nothing (pool_size replacer_k page_size : Nat)
    (disk : Int → List Nat) (b : BufferPoolManager) (hps : pool_size ≤ 2 ^ 63)
    (hreach : PoolReachable pool_size replacer_k page_size disk b)
    (hfree : b.free_list_ = [])
    (hpinned : ∀ f, 0 ≤ f → f < (pool_size : Int) → 0 < (b.pages_ f).pin_count_) :
    b.NewPage = .ret b none ∧
    ∀ q, mapFind b.page_table_ q = none → b.FetchPage q = .ret b none := by
  have hinv := poolReachable_inv hps hreach
  have hacq := acquireFrame_exhausted hfree
    (evict_none_of_no_evictable _ (no_evictable_of_all_pinned hinv hpinned))
  constructor
  · simp [BufferPoolManager.NewPage, hacq]
  · intro q hq
    simp [BufferPoolManager.FetchPage, hq, hacq]

/-- C6, witness: the one-frame pool `fullPool`, whose only frame is pinned. -/
theorem pool_exhaustion_changes_nothing_witness :
    1 ≤ 2 ^ 63 ∧ PoolReachable 1 2 1 zeroDisk fullPool ∧ fullPool.free_list_ = [] ∧
    (∀ f : Int, 0 ≤ f → f < ((1 : Nat) : Int) → 0 < (fullPool.pages_ f).pin_count_) ∧
    fullPool.NewPage = .ret fullPool none ∧
    fullPool.FetchPage 7 = .ret fullPool none :=
  have hpin : ∀ f : Int, 0 ≤ f → f < ((1 : Nat) : Int) → 0 < (fullPool.pages_ f).pin_count_ := by
    intro f h0 h1
    have : f = 0 := by omega
    subst this
    decide
  have h := pool_exhaustion_changes_nothing 1 2 1 zeroDisk fullPool (by norm_num)
    ⟨[.newPage], rfl⟩ rfl hpin
  ⟨by norm_num, ⟨[.newPage], rfl⟩, rfl, hpin, h.1, h.2 7 (by decide)⟩

/-- C7: `UnpinPage(p, is_dirty)` on a reachable pool state.  If `p` is not
mapped or the pin count of its frame is zero, it returns false and the state is
unchanged.  Otherwise it returns true, the pin count of the frame decreases by
exactly one, the dirty flag becomes (old flag or `is_dirty`), the frame is
evictable in the replacer afterwards exactly when the new pin count is zero, and
the contents and page id of the frame, every other frame, the page table, the
free list, the next page id, the disk and every other replacer node are
unchanged. -/
theorem unpinPage_contract (pool_size replacer_k page_size : Nat) (disk : Int → List Nat)
    (b : BufferPoolManager) (p : Int) (is_dirty : Bool) (hps : pool_size ≤ 2 ^ 63)
    (hreach : PoolReachable pool_size replacer_k page_size disk b) :
    (mapFind b.page_table_ p = none → b.UnpinPage p is_dirty = .ret b false) ∧
    (∀ f, mapFind b.page_table_ p = some f → (b.pages_ f).pin_count_ = 0 →
      b.UnpinPage p is_dirty = .ret b false) ∧
    (∀ f, mapFind b.page_table_ p = some f → 0 < (b.pages_ f).pin_count_ →
      ∃ b', b.UnpinPage p is_dirty = .ret b' true ∧
        (b'.pages_ f).pin_count_ + 1 = (b.pages_ f).pin_count_ ∧
        (b'.pages_ f).is_dirty_ = ((b.pages_ f).is_dirty_ || is_dirty) ∧
        (b'.EvictableFrame f ↔ (b'.pages_ f).pin_count_ = 0) ∧
        (b'.pages_ f).data_ = (b.pages_ f).data_ ∧
        (b'.pages_ f).page_id_ = (b.pages_ f).page_id_ ∧
        (∀ g, g ≠ f → b'.pages_ g = b.pages_ g) ∧
        (∀ g, g ≠ f →
          mapFind b'.replacer_.node_store_ g = mapFind b.replacer_.node_store_ g) ∧
        b'.page_table_ = b.page_table_ ∧ b'.free_list_ = b.free_list_ ∧
        b'.next_page_id_ = b.next_page_id_ ∧ b'.disk_ = b.disk_) := by
  have hinv := poolReachable_inv hps hreach
  refine ⟨?_, ?_, ?_⟩
  · intro hmap
    simp [BufferPoolManager.UnpinPage, hmap]
  · intro f hmap hpin
    simp [BufferPoolManager.UnpinPage, hmap, hpin]
  · intro f hmap hpin
    obtain ⟨b', hcall, _, hpt, hpages, hdisk, hnext, hfree, _, _, hstore, hev⟩ :=
      unpinPage_outcome hps hinv is_dirty hmap hpin
    refine ⟨b', hcall, ?_, ?_, ?_, ?_, ?_, ?_, hstore, hpt, hfree, hnext, hdisk⟩
    · rw [hpages]
      simp only [if_true]
      omega
    · rw [hpages]
      cases is_dirty <;> simp
    · rw [hev, hpages]
      simp
    · rw [hpages]
      simp
    · rw [hpages]
      simp
    · intro g hg
      rw [hpages]
      simp [hg]

/-- C7, witness: unpinning page 0 in the one-frame pool `fullPool`. -/
theorem unpinPage_contract_witness :
    1 ≤ 2 ^ 63 ∧ PoolReachable 1 2 1 zeroDisk fullPool ∧
    mapFind fullPool.page_table_ 0 = some 0 ∧ 0 < (fullPool.pages_ 0).pin_count_ ∧
    ∃ b', fullPool.UnpinPage 0 true = .ret b' true ∧
      (b'.pages_ 0).pin_count_ + 1 = (fullPool.pages_ 0).pin_count_ ∧
      (b'.pages_ 0).is_dirty_ = ((fullPool.pages_ 0).is_dirty_ || true) ∧
      (b'.EvictableFrame 0 ↔ (b'.pages_ 0).pin_count_ = 0) := by
  refine ⟨by norm_num, ⟨[.newPage], rfl⟩, by decide, by decide, ?_⟩
  obtain ⟨b', h1, h2, h3, h4, _⟩ :=
    (unpinPage_contract 1 2 1 zeroDisk fullPool 0 true (by norm_num) ⟨[.newPage], rfl⟩).2.2 0
      (by decide) (by decide)
  exact ⟨b', h1, h2, h3, h4⟩

/-- C8: `DeletePage(p)` on a reachable pool state.  If `p` is not mapped it
returns true and the state is unchanged; if `p` is mapped with a positive pin
count it returns false and the state is unchanged; otherwise it returns true,
`p` is no longer in the page table, the replacer no longer tracks the frame of
`p`, that frame has pin count 0, is clean and zeroed and is appended to the free
list, and the disk is unchanged (dirty contents are not written back), as are
the other frames, mappings and replacer nodes. -/
theorem deletePage_contract (pool_size replacer_k page_size : Nat) (disk : Int → List Nat)
    (b : BufferPoolManager) (p : Int) (hps : pool_size ≤ 2 ^ 63)
    (hreach : PoolReachable pool_size replacer_k page_size disk b) :
    (mapFind b.page_table_ p = none → b.DeletePage p = .ret b true) ∧
    (∀ f, mapFind b.page_table_ p = some f → 0 < (b.pages_ f).pin_count_ →
      b.DeletePage p = .ret b false) ∧
    (∀ f, mapFind b.page_table_ p = some f → (b.pages_ f).pin_count_ = 0 →
      ∃ b', b.DeletePage p = .ret b' true ∧
        mapFind b'.page_table_ p = none ∧
        ¬ b'.TrackedFrame f ∧
        (b'.pages_ f).pin_count_ = 0 ∧ (b'.pages_ f).is_dirty_ = false ∧
        (b'.pages_ f).data_ = zeroData b.page_size_ ∧
        b'.free_list_ = b.free_list_ ++ [f] ∧
        b'.disk_ = b.disk_ ∧
        (∀ g, g ≠ f → b'.pages_ g = b.pages_ g) ∧
        (∀ q, q ≠ p → mapFind b'.page_table_ q = mapFind b.page_table_ q) ∧
        (∀ g, g ≠ f →
          mapFind b'.replacer_.node_store_ g = mapFind b.replacer_.node_store_ g) ∧
        b'.next_page_id_ = b.next_page_id_) := by
  have hinv := poolReachable_inv hps hreach
  refine ⟨?_, ?_, ?_⟩
  · intro hmap
    simp [BufferPoolManager.DeletePage, hmap]
  · intro f hmap hpin
    simp [BufferPoolManager.DeletePage, hmap, hpin]
  · intro f hmap hpin
    obtain ⟨b', hcall, _, hpt, hpages, hdisk, hnext, hfree, _, _, hgone, hstore⟩ :=
      deletePage_outcome hps hinv hmap hpin
    refine ⟨b', hcall, ?_, ?_, ?_, ?_, ?_, hfree, hdisk, ?_, ?_, hstore, hnext⟩
    · rw [hpt]
      simp [mapFind_mapErase]
    · rintro ⟨n, hn⟩
      rw [hgone] at hn
      simp at hn
    · rw [hpages]
      simp
    · rw [hpages]
      simp
    · rw [hpages]
      simp
    · intro g hg
      rw [hpages]
      simp [hg]
    · intro q hq
      have : ¬ p = q := fun e => hq e.symm
      rw [hpt]
      simp [mapFind_mapErase, this]

/-- C8, witness: deleting the unpinned dirty page 0 of the one-frame pool
`idlePool`. -/
theorem deletePage_contract_witness :
    1 ≤ 2 ^ 63 ∧ PoolReachable 1 2 1 zeroDisk idlePool ∧
    mapFind idlePool.page_table_ 0 = some 0 ∧ (idlePool.pages_ 0).pin_count_ = 0 ∧
    ∃ b', idlePool.DeletePage 0 = .ret b' true ∧
      mapFind b'.page_table_ 0 = none ∧ ¬ b'.TrackedFrame 0 ∧
      b'.free_list_ = idlePool.free_list_ ++ [0] ∧ b'.disk_ = idlePool.disk_ := by
  refine ⟨by norm_num, ⟨[.newPage, .unpinPage 0 true], rfl⟩, by decide, by decide, ?_⟩
  obtain ⟨b', h1, h2, h3, _, _, _, h7, h8, _⟩ :=
    (deletePage_contract 1 2 1 zeroDisk idlePool 0 (by norm_num)
      ⟨[.newPage, .unpinPage 0 true], rfl⟩).2.2 0 (by decide) (by decide)
  exact ⟨b', h1, h2, h3, h7, h8⟩

/-- C9: `FlushPage(p)` on any pool state, the disk being a map.  If `p` is not
mapped it returns false and the state (pool and disk) is unchanged.  If `p` is
mapped to the frame `f` it returns true, the disk's copy of `p` afterwards is
the contents of the frame whether or not the frame was dirty, the dirty flag of
the frame is cleared, and the pin count, contents and page id of the frame, the
replacer (hence the evictable status), the page table, the free list, every
other frame and every other disk page are unchanged. -/
theorem flushPage_contract (b : BufferPoolManager) (p : Int) :
    (mapFind b.page_table_ p = none → b.FlushPage p = .ret b false) ∧
    (∀ f, mapFind b.page_table_ p = some f →
      ∃ b', b.FlushPage p = .ret b' true ∧
        b'.disk_ p = (b.pages_ f).data_ ∧
        (b'.pages_ f).is_dirty_ = false ∧
        (b'.pages_ f).pin_count_ = (b.pages_ f).pin_count_ ∧
        (b'.pages_ f).data_ = (b.pages_ f).data_ ∧
        (b'.pages_ f).page_id_ = (b.pages_ f).page_id_ ∧
        b'.replacer_ = b.replacer_ ∧ b'.page_table_ = b.page_table_ ∧
        b'.free_list_ = b.free_list_ ∧ b'.next_page_id_ = b.next_page_id_ ∧
        (∀ g, g ≠ f → b'.pages_ g = b.pages_ g) ∧
        (∀ q, q ≠ p → b'.disk_ q = b.disk_ q)) := by
  constructor
  · intro hmap
    simp [BufferPoolManager.FlushPage, hmap]
  · intro f hmap
    refine ⟨b.flushFrame p f, by simp [BufferPoolManager.FlushPage, hmap], ?_, ?_, ?_, ?_, ?_,
      rfl, rfl, rfl, rfl, ?_, ?_⟩
    · simp [BufferPoolManager.flushFrame, diskWrite]
    · simp [BufferPoolManager.flushFrame]
    · simp [BufferPoolManager.flushFrame]
    · simp [BufferPoolManager.flushFrame]
    · simp [BufferPoolManager.flushFrame]
    · intro g hg
      simp [BufferPoolManager.flushFrame, hg]
    · intro q hq
      simp [BufferPoolManager.flushFrame, diskWrite, hq]

/-- C15: invariant I4.  In every pool state reachable from a fresh pool, a
frame whose pin count is positive is not marked evictable in the replacer. -/
theorem pinned_frame_not_evictable (pool_size replacer_k page_size : Nat)
    (disk : Int → List Nat) (b : BufferPoolManager) (f : Int) (hps : pool_size ≤ 2 ^ 63)
    (hreach : PoolReachable pool_size replacer_k page_size disk b)
    (hpin : 0 < (b.pages_ f).pin_count_) : ¬ b.EvictableFrame f := by
  have hinv := poolReachable_inv hps hreach
  rintro ⟨n, hn, hev⟩
  have := hinv.evictable_unpinned f n hn hev
  omega

/-- C15, witness: frame 0 of the one-frame pool `fullPool` is pinned. -/
theorem pinned_frame_not_evictable_witness :
    1 ≤ 2 ^ 63 ∧ PoolReachable 1 2 1 zeroDisk fullPool ∧
    0 < (fullPool.pages_ 0).pin_count_ ∧ ¬ fullPool.EvictableFrame 0 :=
  ⟨by norm_num, ⟨[.newPage], rfl⟩, by decide,
    pinned_frame_not_evictable 1 2 1 zeroDisk fullPool 0 (by norm_num) ⟨[.newPage], rfl⟩
      (by decide)⟩

/-- C20: the buffer pool never triggers a replacer contract error.  In every
pool state reachable from a fresh pool, with arbitrary page ids as arguments,
`NewPage`, `FetchPage`, `UnpinPage` and `DeletePage` do not end in an exception
of the replacer; every mapped frame is a frame of the pool that the replacer
tracks, and every mapped frame with pin count 0 is evictable. -/
theorem pool_never_raises (pool_size replacer_k page_size : Nat) (disk : Int → List Nat)
    (b : BufferPoolManager) (hps : pool_size ≤ 2 ^ 63)
    (hreach : PoolReachable pool_size replacer_k page_size disk b) :
    (∀ s msg, b.NewPage ≠ .throw s msg) ∧
    (∀ q s msg, b.FetchPage q ≠ .throw s msg) ∧
    (∀ q d s msg, b.UnpinPage q d ≠ .throw s msg) ∧
    (∀ q s msg, b.DeletePage q ≠ .throw s msg) ∧
    (∀ e ∈ b.page_table_, 0 ≤ e.2 ∧ e.2 < (pool_size : Int) ∧ b.TrackedFrame e.2 ∧
      ((b.pages_ e.2).pin_count_ = 0 → b.EvictableFrame e.2)) := by
  have hinv := poolReachable_inv hps hreach
  refine ⟨?_, ?_, ?_, ?_, ?_⟩
  · intro s msg
    rcases newPage_outcome hps hinv with h | h | ⟨b1, fid, h, _⟩ <;> rw [h] <;> simp
  · intro q s msg
    cases hmap : mapFind b.page_table_ q with
    | some fid =>
        obtain ⟨b1, h, _⟩ := fetchPage_hit_outcome hps hinv hmap
        rw [h]
        simp
    | none =>
        rcases fetchPage_miss_outcome hps hinv hmap with h | h | ⟨b1, fid, h, _⟩ <;>
          rw [h] <;> simp
  · intro q d s msg
    cases hmap : mapFind b.page_table_ q with
    | none => simp [BufferPoolManager.UnpinPage, hmap]
    | some fid =>
        by_cases hpin : 0 < (b.pages_ fid).pin_count_
        · obtain ⟨b1, h, _⟩ := unpinPage_outcome hps hinv d hmap hpin
          rw [h]
          simp
        · have : (b.pages_ fid).pin_count_ = 0 := by omega
          simp [BufferPoolManager.UnpinPage, hmap, this]
  · intro q s msg
    cases hmap : mapFind b.page_table_ q with
    | none => simp [BufferPoolManager.DeletePage, hmap]
    | some fid =>
        by_cases hpin : 0 < (b.pages_ fid).pin_count_
        · simp [BufferPoolManager.DeletePage, hmap, hpin]
        · obtain ⟨b1, h, _⟩ := deletePage_outcome hps hinv hmap (by omega)
          rw [h]
          simp
  · intro e he
    obtain ⟨t0, t1, _, n, t3, t4⟩ := hinv.table_ok e he
    exact ⟨t0, t1, ⟨n, t3⟩, fun h => ⟨n, t3, t4 h⟩⟩

/-- C20, witness: the calls on the one-frame pool `idlePool`. -/
theorem pool_never_raises_witness :
    1 ≤ 2 ^ 63 ∧ PoolReachable 1 2 1 zeroDisk idlePool ∧
    (∀ s msg, idlePool.NewPage ≠ .throw s msg) ∧
    (∀ s msg, idlePool.DeletePage 0 ≠ .throw s msg) :=
  have h := pool_never_raises 1 2 1 zeroDisk idlePool (by norm_num)
    ⟨[.newPage, .unpinPage 0 true], rfl⟩
  ⟨by norm_num, ⟨[.newPage, .unpinPage 0 true], rfl⟩, h.1, h.2.2.2.1 0⟩

/-- C5 (amended): dirty-page round trip, the disk being a map from page id to
page bytes.  In a reachable pool state let `p` be a page id below the
next page id to allocate (`p < next_page_id_`) that is mapped and pinned, with frame contents `X`,
such that no other frame carries the page id `p`; let the caller call
`UnpinPage(p, true)`.  Then after any further sequence of `NewPage`,
`FetchPage`, `UnpinPage`, `FlushPage`, `FlushAllPages`, `DeletePage` calls and
frame writes that names `p` only in `FetchPage` and never writes into the frame
of `p`, every `FetchPage(p)` that returns a frame returns a frame whose contents
are `X`. -/
theorem dirty_page_round_trip (pool_size replacer_k page_size : Nat) (disk : Int → List Nat)
    (b b1 b2 b3 : BufferPoolManager) (p f g : Int) (X : List Nat) (ops : List PoolOp)
    (hps : pool_size ≤ 2 ^ 63)
    (hreach : PoolReachable pool_size replacer_k page_size disk b)
    (hpnext : p < b.next_page_id_)
    (hmap : mapFind b.page_table_ p = some f) (hpin : 0 < (b.pages_ f).pin_count_)
    (hX : (b.pages_ f).data_ = X)
    (hsole : ∀ g', g' ≠ f → (b.pages_ g').page_id_ ≠ p)
    (hunpin : b.UnpinPage p true = .ret b1 true)
    (havoid : avoidingRun p b1 ops = true) (hrun : b1.run ops = some b2)
    (hfetch : b2.FetchPage p = .ret b3 (some g)) :
    (b3.pages_ g).data_ = X := by
  have hinv := poolReachable_inv hps hreach
  obtain ⟨b1', hcall, hinv1, hpt, hpages, hdisk, hnext, _⟩ :=
    unpinPage_outcome hps hinv true hmap hpin
  rw [hcall] at hunpin
  simp only [Outcome.ret.injEq, and_true] at hunpin
  subst hunpin
  have hkept : PageKept p X b1' := by
    refine ⟨by rw [hnext]; exact hpnext, Or.inl ⟨f, by rw [hpt]; exact hmap, ?_, ?_, ?_⟩⟩
    · rw [hpages]
      simpa using hX
    · left
      rw [hpages]
      simp
    · intro g' hg'
      rw [hpages]
      simp only [hg', if_false]
      exact hsole g' hg'
  obtain ⟨hkept2, hinv2⟩ := pageKept_run hps ops hinv1 hkept havoid hrun
  obtain ⟨_, hcase⟩ := hkept2
  cases hmap2 : mapFind b2.page_table_ p with
  | some f2 =>
      obtain ⟨b', ho, _, _, hpages', _⟩ := fetchPage_hit_outcome hps hinv2 hmap2
      rw [ho] at hfetch
      simp only [Outcome.ret.injEq, Option.some.injEq] at hfetch
      obtain ⟨hb, hg⟩ := hfetch
      subst hb hg
      rcases hcase with ⟨f', hf', hX', _⟩ | ⟨hf', _⟩
      · rw [hmap2] at hf'
        simp only [Option.some.injEq] at hf'
        subst hf'
        rw [hpages']
        simpa using hX'
      · rw [hmap2] at hf'
        simp at hf'
  | none =>
      rcases fetchPage_miss_outcome hps hinv2 hmap2 with ho | ho | ⟨b', fid, ho, _, _, _, _,
        hdisk', hpages', _⟩
      · rw [ho] at hfetch
        simp at hfetch
      · rw [ho] at hfetch
        simp at hfetch
      · rw [ho] at hfetch
        simp only [Outcome.ret.injEq, Option.some.injEq] at hfetch
        obtain ⟨hb, hg⟩ := hfetch
        subst hb hg
        rcases hcase with ⟨f', hf', _⟩ | ⟨_, hd, hnone⟩
        · rw [hmap2] at hf'
          simp at hf'
        · have hpid' : ¬ p = (b2.pages_ fid).page_id_ := fun e => hnone fid e.symm
          rw [hpages']
          simp only [if_true]
          rw [hdisk']
          by_cases hdirty : (b2.pages_ fid).is_dirty_ = true
          · simp [hdirty, diskWrite, hpid', hd]
          · simp [hdirty, hd]

/-- C5, witness: the one-frame pool in which page 0 is created, written with the
byte 7, unpinned dirty, evicted by the next `NewPage` and fetched again. -/
theorem dirty_page_round_trip_witness :
    1 ≤ 2 ^ 63 ∧ PoolReachable 1 2 1 zeroDisk writtenPool ∧
    0 < writtenPool.next_page_id_ ∧
    mapFind writtenPool.page_table_ 0 = some 0 ∧ 0 < (writtenPool.pages_ 0).pin_count_ ∧
    (writtenPool.pages_ 0).data_ = [7] ∧
    (∀ g', g' ≠ 0 → (writtenPool.pages_ g').page_id_ ≠ 0) ∧
    writtenPool.UnpinPage 0 true = .ret writtenUnpinned true ∧
    avoidingRun 0 writtenUnpinned [.newPage, .unpinPage 1 false] = true ∧
    writtenUnpinned.run [.newPage, .unpinPage 1 false] = some writtenEvicted ∧
    writtenEvicted.FetchPage 0 = .ret writtenFetched (some 0) ∧
    (writtenFetched.pages_ 0).data_ = [7] := by
  have hsole : ∀ g' : Int, g' ≠ 0 → (writtenPool.pages_ g').page_id_ ≠ 0 := by
    intro g' hg'
    have : writtenPool.pages_ g' =
        if g' = 0 then { data_ := [7], page_id_ := 0, pin_count_ := 1, is_dirty_ := false }
        else if g' = 0 then
          { data_ := zeroData 1, page_id_ := 0, pin_count_ := 1, is_dirty_ := false }
        else Page.new 1 := rfl
    rw [this, if_neg hg', if_neg hg']
    decide
  exact ⟨by norm_num, ⟨[.newPage, .writeFrame 0 [7]], rfl⟩, by decide, by decide,
    by decide, by decide, hsole, rfl, rfl, rfl, rfl,
    dirty_page_round_trip 1 2 1 zeroDisk writtenPool writtenUnpinned writtenEvicted
      writtenFetched 0 0 0 [7] [.newPage, .unpinPage 1 false] (by norm_num)
      ⟨[.newPage, .writeFrame 0 [7]], rfl⟩ (by decide) (by decide) (by decide)
      (by decide) hsole rfl rfl rfl rfl⟩

/-- C5, counterexample: in a two-frame pool `FetchPage(0)` maps the never
allocated page 0 to frame 0; the caller writes the byte 7 and calls
`UnpinPage(0, true)`.  `NewPage`, which does not name the page, then allocates
the page id 0 and maps it to the zeroed frame 1, so that `FetchPage(0)` returns
frame 1 with contents 0, not 7. -/
theorem round_trip_lost_for_unallocated_page :
    PoolReachedBy 2 2 1 zeroDisk [.fetchPage 0, .writeFrame 0 [7]] strayPool ∧
    mapFind strayPool.page_table_ 0 = some 0 ∧ 0 < (strayPool.pages_ 0).pin_count_ ∧
    (strayPool.pages_ 0).data_ = [7] ∧
    strayPool.UnpinPage 0 true = .ret strayUnpinned true ∧
    avoidingRun 0 strayUnpinned [.newPage] = true ∧
    strayUnpinned.run [.newPage] = some strayAllocated ∧
    strayAllocated.FetchPage 0 = .ret strayFetched (some 1) ∧
    (strayFetched.pages_ 1).data_ = [0] ∧ (strayFetched.pages_ 1).data_ ≠ [7] :=
  ⟨rfl, by decide, by decide, by decide, rfl, rfl, rfl, rfl, by decide, by decide⟩

/-- C13 (amended): invariant I1.  In every pool state reached from a fresh pool
by actions on live pages only (every `FetchPage(p)` names an allocated page id
that is not the stale id of a frame of the free list), two distinct frames of
the pool that are off the free list carry different page ids; the page id of a
frame off the free list is valid (not negative) and the page table maps it to
that frame. -/
theorem live_page_in_one_frame (pool_size replacer_k page_size : Nat) (disk : Int → List Nat)
    (ops : List PoolOp) (b : BufferPoolManager) (f g : Int)
    (hps : pool_size ≤ 2 ^ 63)
    (hreach : PoolLiveReachedBy pool_size replacer_k page_size disk ops b)
    (hf0 : 0 ≤ f) (hf1 : f < (pool_size : Int)) (hg0 : 0 ≤ g) (hg1 : g < (pool_size : Int))
    (hf : f ∉ b.free_list_) (hg : g ∉ b.free_list_) (hne : f ≠ g) :
    (b.pages_ f).page_id_ ≠ (b.pages_ g).page_id_ ∧ 0 ≤ (b.pages_ f).page_id_ ∧
    mapFind b.page_table_ (b.pages_ f).page_id_ = some f := by
  obtain ⟨hinv, hfr⟩ := poolLiveReached_inv hps hreach
  have hmapped : ∀ x, 0 ≤ x → x < (pool_size : Int) → x ∉ b.free_list_ →
      0 ≤ (b.pages_ x).page_id_ ∧ mapFind b.page_table_ (b.pages_ x).page_id_ = some x := by
    intro x h0 h1 hx
    rcases hfr.covered x h0 h1 with h | ⟨p, hp⟩
    · exact absurd h hx
    · have hpid : (b.pages_ x).page_id_ = p := (hinv.table_ok _ hp).2.2.1
      rw [hpid]
      exact ⟨(hfr.mapped_below _ hp).1, mapFind_eq_some_of_mem hfr.keys_nodup hp⟩
  obtain ⟨a1, a2⟩ := hmapped f hf0 hf1 hf
  obtain ⟨_, c2⟩ := hmapped g hg0 hg1 hg
  refine ⟨?_, a1, a2⟩
  intro heq
  rw [heq, c2] at a2
  simp only [Option.some.injEq] at a2
  exact hne a2.symm

/-- C13, witness: the two frames of `livePool`, which hold the pages 2 and 0. -/
theorem live_page_in_one_frame_witness :
    2 ≤ 2 ^ 63 ∧ PoolLiveReachedBy 2 2 1 zeroDisk livePoolOps livePool ∧
    (0 : Int) ∉ livePool.free_list_ ∧ (1 : Int) ∉ livePool.free_list_ ∧ (0 : Int) ≠ 1 ∧
    (livePool.pages_ 0).page_id_ = 2 ∧ (livePool.pages_ 1).page_id_ = 0 ∧
    ((livePool.pages_ 0).page_id_ ≠ (livePool.pages_ 1).page_id_ ∧
      0 ≤ (livePool.pages_ 0).page_id_ ∧
      mapFind livePool.page_table_ (livePool.pages_ 0).page_id_ = some 0) :=
  ⟨by norm_num, ⟨rfl, rfl⟩, by decide, by decide, by decide, by decide, by decide,
    live_page_in_one_frame 2 2 1 zeroDisk livePoolOps livePool 0 1 (by norm_num) ⟨rfl, rfl⟩
      (by decide) (by decide) (by decide) (by decide) (by decide) (by decide) (by decide)⟩

/-- C13, counterexample: two reachable states of a two-frame pool in which both
frames are off the free list and carry the page id 0.  In the first,
`FetchPage(0)` is called before any page is allocated and `NewPage` then hands
out the id 0.  In the second, page 0 is deleted and fetched again while the
freed frame still carries its id; `NewPage` on that frame erases the entry of
page 0, and the next `FetchPage(0)` loads the page a second time. -/
theorem page_id_in_two_frames :
    (PoolReachedBy 2 2 1 zeroDisk strayOps (twoPool.runD strayOps) ∧
      liveRun twoPool strayOps = false ∧
      (twoPool.runD strayOps).free_list_ = [] ∧
      ((twoPool.runD strayOps).pages_ 0).page_id_ = 0 ∧
      ((twoPool.runD strayOps).pages_ 1).page_id_ = 0) ∧
    (PoolReachedBy 2 2 1 zeroDisk staleRefetchOps (twoPool.runD staleRefetchOps) ∧
      liveRun twoPool staleRefetchOps = false ∧
      (twoPool.runD staleRefetchOps).free_list_ = [] ∧
      ((twoPool.runD staleRefetchOps).pages_ 0).page_id_ = 0 ∧
      ((twoPool.runD staleRefetchOps).pages_ 1).page_id_ = 0) :=
  ⟨⟨rfl, rfl, rfl, rfl, rfl⟩, ⟨rfl, rfl, rfl, rfl, rfl⟩⟩

/-- C14 (amended): invariants I2/I3.  In every pool state reached from a fresh
pool by actions on live pages only, every frame index in `[0, pool_size)` is in
exactly one of two situations: it occurs exactly once on the free list and no
page-table entry points to it, or it is not on the free list and the
page-table entries that point to it are the single entry `p -> f` with `p` the
`page_id_` of the frame. -/
theorem frame_free_or_mapped (pool_size replacer_k page_size : Nat) (disk : Int → List Nat)
    (ops : List PoolOp) (b : BufferPoolManager) (f : Int)
    (hps : pool_size ≤ 2 ^ 63)
    (hreach : PoolLiveReachedBy pool_size replacer_k page_size disk ops b)
    (hf0 : 0 ≤ f) (hf1 : f < (pool_size : Int)) :
    (b.free_list_.count f = 1 ∧ b.entriesOf f = []) ∨
    (f ∉ b.free_list_ ∧ b.entriesOf f = [((b.pages_ f).page_id_, f)]) := by
  obtain ⟨hinv, hfr⟩ := poolLiveReached_inv hps hreach
  rcases hfr.covered f hf0 hf1 with h | ⟨p, hp⟩
  · left
    refine ⟨List.count_eq_one_of_mem hfr.free_nodup h, ?_⟩
    unfold BufferPoolManager.entriesOf
    rw [List.filter_eq_nil_iff]
    intro e he hef
    exact hfr.free_unmapped f h e he (by simpa using hef)
  · right
    have hpid : (b.pages_ f).page_id_ = p := (hinv.table_ok _ hp).2.2.1
    refine ⟨fun h => hfr.free_unmapped f h _ hp rfl, ?_⟩
    unfold BufferPoolManager.entriesOf
    rw [hpid]
    refine filter_eq_singleton _ (List.Nodup.of_map _ hfr.keys_nodup) hp (by simp) ?_
    intro e he hef
    have hef' : e.2 = f := by simpa using hef
    have h1 : (b.pages_ e.2).page_id_ = e.1 := (hinv.table_ok e he).2.2.1
    rw [hef', hpid] at h1
    exact Prod.ext h1.symm hef'

/-- C14, witness: in `livePoolDeleted` frame 0 is once on the free list and
unmapped, and frame 1 is off the free list with the single entry `0 -> 1`. -/
theorem frame_free_or_mapped_witness :
    2 ≤ 2 ^ 63 ∧
    PoolLiveReachedBy 2 2 1 zeroDisk livePoolDeletedOps livePoolDeleted ∧
    livePoolDeleted.free_list_ = [0] ∧ livePoolDeleted.page_table_ = [(0, 1)] ∧
    ((livePoolDeleted.free_list_.count 1 = 1 ∧ livePoolDeleted.entriesOf 1 = []) ∨
      ((1 : Int) ∉ livePoolDeleted.free_list_ ∧
        livePoolDeleted.entriesOf 1 = [((livePoolDeleted.pages_ 1).page_id_, 1)])) :=
  ⟨by norm_num, ⟨rfl, rfl⟩, rfl, rfl,
    frame_free_or_mapped 2 2 1 zeroDisk livePoolDeletedOps livePoolDeleted 1
      (by norm_num) ⟨rfl, rfl⟩ (by decide) (by decide)⟩

/-- C14, counterexample: two reachable states of a two-frame pool with a frame
that is neither on the free list nor the target of a page-table entry.  After
`FetchPage(0)` of the never allocated page 0 and `NewPage`, the entry of page 0
points to frame 1 and frame 0, still pinned, has none.  After `staleOps`, the
`NewPage` that takes frame 0 with its stale page id 0 has erased the entry
`0 -> 1`, and frame 1 has none. -/
theorem frame_neither_free_nor_mapped :
    (PoolReachedBy 2 2 1 zeroDisk strayOps (twoPool.runD strayOps) ∧
      (0 : Int) ∉ (twoPool.runD strayOps).free_list_ ∧
      (twoPool.runD strayOps).entriesOf 0 = [] ∧
      ((twoPool.runD strayOps).pages_ 0).pin_count_ = 1) ∧
    (PoolReachedBy 2 2 1 zeroDisk staleOps (twoPool.runD staleOps) ∧
      (1 : Int) ∉ (twoPool.runD staleOps).free_list_ ∧
      (twoPool.runD staleOps).entriesOf 1 = [] ∧
      ((twoPool.runD staleOps).pages_ 1).pin_count_ = 1) :=
  ⟨⟨rfl, by decide, rfl, rfl⟩, ⟨rfl, by decide, rfl, rfl⟩⟩

/-- C16 (amended): invariant I5.  In every pool state reached from a fresh pool
by actions on live pages only, the replacer's `Size()` equals the number of
frames of the pool that are the target of a page-table entry and are marked
evictable in the replacer. -/
theorem replacer_size_eq_mapped_evictable (pool_size replacer_k page_size : Nat)
    (disk : Int → List Nat) (ops : List PoolOp) (b : BufferPoolManager)
    (hps : pool_size ≤ 2 ^ 63)
    (hreach : PoolLiveReachedBy pool_size replacer_k page_size disk ops b) :
    b.replacer_.Size = b.mappedEvictableCount := by
  obtain ⟨hinv, hfr⟩ := poolLiveReached_inv hps hreach
  have h1 : b.replacer_.curr_size_ = evictableCount b.replacer_.node_store_ :=
    hinv.rep_wf.curr_size
  have h2 := countP_range_store pool_size b.replacer_.node_store_ hinv.rep_wf.nodup
    (fun e he => hinv.tracked_range e.1 e.2 (mapFind_eq_some_of_mem hinv.rep_wf.nodup he))
  show b.replacer_.curr_size_ = b.mappedEvictableCount
  rw [h1, ← h2]
  unfold BufferPoolManager.mappedEvictableCount
  rw [hinv.size_eq]
  apply List.countP_congr
  intro i _
  unfold BufferPoolManager.isEvictable
  cases hfind : mapFind b.replacer_.node_store_ (Int.ofNat i) with
  | none => simp
  | some n =>
      by_cases hev : n.is_evictable_ = true
      · obtain ⟨p, hp⟩ := hfr.evictable_mapped (Int.ofNat i) ⟨n, hfind, hev⟩
        have hne : b.entriesOf (Int.ofNat i) ≠ [] := by
          intro h
          unfold BufferPoolManager.entriesOf at h
          rw [List.filter_eq_nil_iff] at h
          exact h (p, Int.ofNat i) hp (by simp)
        simpa [hev, List.isEmpty_iff] using hne
      · simp [hev]

/-- C16, witness: in `livePool` the replacer's size is 1 and frame 0 is the one
frame that is mapped and evictable. -/
theorem replacer_size_eq_mapped_evictable_witness :
    2 ≤ 2 ^ 63 ∧ PoolLiveReachedBy 2 2 1 zeroDisk livePoolOps livePool ∧
    livePool.replacer_.Size = 1 ∧ livePool.replacer_.Size = livePool.mappedEvictableCount :=
  ⟨by norm_num, ⟨rfl, rfl⟩, rfl,
    replacer_size_eq_mapped_evictable 2 2 1 zeroDisk livePoolOps livePool (by norm_num)
      ⟨rfl, rfl⟩⟩

/-- C16, counterexample: two reachable states of a two-frame pool in which the
replacer's size is 1 although no mapped frame is evictable: the evictable frame
has lost its page-table entry, to the `NewPage` that handed out the id of a
page fetched before it was allocated, or to the `NewPage` that took a free
frame with the stale id of a deleted page that had been fetched again. -/
theorem replacer_size_counts_unmapped_frame :
    (PoolReachedBy 2 2 1 zeroDisk strayUnpinnedOps (twoPool.runD strayUnpinnedOps) ∧
      (twoPool.runD strayUnpinnedOps).replacer_.Size = 1 ∧
      (twoPool.runD strayUnpinnedOps).mappedEvictableCount = 0) ∧
    (PoolReachedBy 2 2 1 zeroDisk staleUnpinnedOps (twoPool.runD staleUnpinnedOps) ∧
      (twoPool.runD staleUnpinnedOps).replacer_.Size = 1 ∧
      (twoPool.runD staleUnpinnedOps).mappedEvictableCount = 0) :=
  ⟨⟨rfl, rfl, rfl⟩, ⟨rfl, rfl, rfl⟩⟩

end PoolClaims

section GuardClaims

/-- C11: read and write guards release the latch more than once.  A read guard
on which `Drop()` is called twice unpins its page once but calls `RUnlatch`
twice, because `ReadPageGuard::Drop` unlatches whatever the dropped sentinel
says; `Drop()` on the moved-from source of a move likewise unlatches the page
that the target still holds, so that the latch is released twice by the time
both guards are destroyed; a write guard does the same with `WUnlatch`.  The
basic guard, whose `Drop` tests the sentinel, unpins exactly once. -/
theorem read_write_guard_unlatch_twice :
    readGuardDroppedTwice = some [.unpinPage 0 3 false, .rUnlatch 3, .rUnlatch 3] ∧
    readGuardSourceDropped = some [.rUnlatch 3, .rUnlatch 3, .unpinPage 0 3 false] ∧
    writeGuardDroppedTwice = some [.unpinPage 0 3 false, .wUnlatch 3, .wUnlatch 3] ∧
    basicGuardMovedAndDropped = some [.unpinPage 0 3 false] := by
  decide

end GuardClaims

section TrieMemoryClaims

/-- C12: prior trie versions are immutable.  Let the memory `h` be closed
(every stored pointer points to a node of `h`), let `root_` be the root pointer
of a trie in `h` and `t` the root pointer of any trie in `h` (`root_` itself or
an older version).  Then `Put(key, val)` on `root_` returns, and `Remove(key)`
comes to its end (a returned trie, or the null dereference of line 99); every
node of `h` is the same afterwards as before, so the calls write only nodes they
have allocated themselves; `Get(q)` on `t` yields afterwards what it yielded
before; and the memory afterwards is again closed and contains the new root. -/
theorem prior_trie_versions_unchanged (h : TrieHeap) (root_ t : Option Nat)
    (key q : List Char) (val : Value) (T : PayloadType)
    (hclosed : HeapClosed h) (hroot : ∀ r, root_ = some r → r < h.length)
    (ht : ∀ r, t = some r → r < h.length) :
    (∃ h' root', heapPut h root_ key val = some (h', root') ∧
      HeapClosed h' ∧ root' < h'.length ∧
      (∀ a, a < h.length → h'[a]? = h[a]?) ∧
      heapGet h' t T q = heapGet h t T q) ∧
    (∃ res, heapRemove h root_ key = some res ∧
      HeapClosed res.heap ∧ (∀ r, res.root = some r → r < res.heap.length) ∧
      (∀ a, a < h.length → res.heap[a]? = h[a]?) ∧
      heapGet res.heap t T q = heapGet h t T q) := by
  constructor
  · obtain ⟨h', root', h1, h2, h3, _, h5⟩ := heapPut_spec hclosed hroot key val
    exact ⟨h', root', h1, h2, h3, h5, heapGet_keeps hclosed h5 ht T q⟩
  · obtain ⟨res, h1, h2, h3, _, h5⟩ := heapRemove_spec hclosed hroot key
    exact ⟨res, h1, h2, h3, h5, heapGet_keeps hclosed h5 ht T q⟩

/-- C12, witness: the memory `sampleHeap` of `empty.Put("ab", 1)` with root 0,
`Put("ac", 2)` and `Remove("ac")` on it, and `Get("ab")` on the old root. -/
theorem prior_trie_versions_unchanged_witness :
    heapPut [] none "ab".toList (.uint32 1) = some (sampleHeap, 0) ∧
    HeapClosed sampleHeap ∧
    heapGet sampleHeap (some 0) .uint32 "ab".toList = some (.uint32 1) ∧
    (heapPut sampleHeap (some 0) "ac".toList (.uint32 2)).map
      (fun r => heapGet r.1 (some r.2) .uint32 "ac".toList) = some (some (.uint32 2)) ∧
    ((∃ h' root', heapPut sampleHeap (some 0) "ac".toList (.uint32 2) = some (h', root') ∧
        HeapClosed h' ∧ root' < h'.length ∧
        (∀ a, a < sampleHeap.length → h'[a]? = sampleHeap[a]?) ∧
        heapGet h' (some 0) .uint32 "ab".toList
          = heapGet sampleHeap (some 0) .uint32 "ab".toList) ∧
      (∃ res, heapRemove sampleHeap (some 0) "ac".toList = some res ∧
        HeapClosed res.heap ∧ (∀ r, res.root = some r → r < res.heap.length) ∧
        (∀ a, a < sampleHeap.length → res.heap[a]? = sampleHeap[a]?) ∧
        heapGet res.heap (some 0) .uint32 "ab".toList
          = heapGet sampleHeap (some 0) .uint32 "ab".toList)) :=
  ⟨by decide, by decide, by decide, by decide,
    prior_trie_versions_unchanged sampleHeap (some 0) (some 0) "ac".toList "ab".toList
      (.uint32 2) .uint32 (by decide)
      (fun r hr => by
        simp only [Option.some.injEq] at hr
        subst hr
        decide)
      (fun r hr => by
        simp only [Option.some.injEq] at hr
        subst hr
        decide)⟩

end TrieMemoryClaims

end Bustub
